import Mathlib

/-!
Verification development for the sprowl dynamic glyph atlas subsystem.

The definitions below are a shallow embedding of
`src/render_storage/font/font_cache.rs` (the row-packing glyph cache with
LRU eviction) and `src/render_storage/font/helpers.rs` (the line layout
engine).

Modelling conventions:
* `f32` values are modelled as `ℚ` (exact rational arithmetic); the claims
  under study are about the packing and layout algorithms, not about
  floating-point rounding.
* `u32`/`u16`/`i32` are modelled as `Nat`/`Int`; where a wrapping cast or
  a wrapping addition in the source can matter it is written with an
  explicit `% 2^w`.  `u32` subtractions in the source (`self.width -
  row.width`, `end - start`, `new_end - new_start`) are written with
  truncated `Nat` subtraction: in every reachable state the subtrahend is
  bounded by the minuend (part of the invariant proved below), where the
  two semantics agree.
* The external rasterizer (rusttype `PositionedGlyph`) is modelled by a
  glyph record carrying its identity, scale, position and a function
  giving its pixel bounding box at any position.
* `linked_hash_map::LinkedHashMap` (the access-ordered row table) is
  modelled as an association list, front = least recently used;
  `hashbrown::HashMap`/`HashSet` are modelled as association lists /
  lists.  Hash-map iteration order is arbitrary in the source; the model
  fixes list order.  `Vec` push is list append.
* Rust panics (`unwrap` on `None`, out-of-bounds indexing, arithmetic
  overflow as checked in debug builds) are modelled by explicit error /
  `panicked` outcomes.
-/

namespace Sprowl

/-- Rust `as u32` applied to an `i32` value: two-complement truncation. -/
def intAsU32 (i : Int) : Nat := (i % (4294967296 : Int)).toNat

/-- Rust saturating `as u32` cast of an `f32` value (toward-zero truncation,
clamped to the `u32` range). -/
def ratAsU32 (q : ℚ) : Nat := min (Int.toNat ⌊q⌋) 4294967295

/-- Rust saturating `as u16` cast of an `f32` value. -/
def ratAsU16 (q : ℚ) : Nat := min (Int.toNat ⌊q⌋) 65535

/-- Rust `f32::trunc` (toward zero). -/
def ratTrunc (q : ℚ) : Int := if 0 ≤ q then ⌊q⌋ else ⌈q⌉

/-- Rust `f32::fract`: `x - x.trunc()`. -/
def ratFract (q : ℚ) : ℚ := q - (ratTrunc q : ℚ)

/-- Rust `f32::round` (half away from zero) followed by `as i32`
(the values involved stay inside the `i32` range for any realistic
glyph, so the saturation of the cast is not written out). -/
def ratRound (q : ℚ) : Int := if 0 ≤ q then ⌊q + 1/2⌋ else -⌊-q + 1/2⌋

/-- `Rect<u32>` from rusttype: `min`/`max` corner points. -/
structure RectN where
  minX : Nat
  minY : Nat
  maxX : Nat
  maxY : Nat
deriving DecidableEq, Repr

/-- `Rect<i32>` from rusttype. -/
structure RectI where
  minX : Int
  minY : Int
  maxX : Int
  maxY : Int
deriving DecidableEq, Repr

/-- `Rect<f32>` from rusttype (modelled over `ℚ`). -/
structure RectQ where
  minX : ℚ
  minY : ℚ
  maxX : ℚ
  maxY : ℚ
deriving DecidableEq, Repr

/-- `Rect::width` for `Rect<i32>`. -/
def RectI.width (r : RectI) : Int := r.maxX - r.minX

/-- `Rect::height` for `Rect<i32>`. -/
def RectI.height (r : RectI) : Int := r.maxY - r.minY

/-- `PaddingAware::unpadded` for `Rect<u32>`: shrink by one pixel on all
sides (`u32` subtraction; padded rectangles are at least 2 wide/high in
every reachable state). -/
def RectN.unpadded (r : RectN) : RectN :=
  ⟨r.minX + 1, r.minY + 1, r.maxX - 1, r.maxY - 1⟩

/-- Model of a rusttype `PositionedGlyph`: identity, scale, position, plus
the external rasterizer adapter giving the pixel bounding box of this
scaled glyph as a function of the position it is placed at. -/
structure PGlyph where
  glyph_id : Nat
  scale : ℚ × ℚ
  position : ℚ × ℚ
  pbbFun : ℚ × ℚ → Option RectI

/-- `glyph.pixel_bounding_box()`. -/
def PGlyph.pixel_bounding_box (g : PGlyph) : Option RectI := g.pbbFun g.position

/-- Texture lookup key with scale and offset quantised by the tolerances
(`LossyGlyphInfo` in the source). -/
structure LossyGlyphInfo where
  font_id : Nat
  glyph_id : Nat
  scale_over_tolerance : Nat × Nat
  offset_over_tolerance : Nat × Nat
deriving DecidableEq, Repr

/-- `GlyphTexInfo` in the source. -/
structure GlyphTexInfo where
  glyph_info : LossyGlyphInfo
  /-- actual (lossless) normalised subpixel offset of the rasterized glyph -/
  offset : ℚ × ℚ
  tex_coords : RectN
deriving DecidableEq, Repr

/-- `Row` in the source: a horizontal strip of the atlas. -/
structure Row where
  height : Nat
  width : Nat
  glyphs : List GlyphTexInfo
deriving DecidableEq, Repr

/-- The cache state (`Cache` in the source).  `rows` models the
`LinkedHashMap` keyed by row top, front = least recently used;
`space_start_for_end` / `space_end_for_start` model the two free-space
hash maps; `all_glyphs` models the glyph index hash map. -/
structure Cache where
  scale_tolerance : ℚ
  position_tolerance : ℚ
  width : Nat
  height : Nat
  rows : List (Nat × Row)
  space_start_for_end : List (Nat × Nat)
  space_end_for_start : List (Nat × Nat)
  all_glyphs : List (LossyGlyphInfo × (Nat × Nat))
  pad_glyphs : Bool
  align_4x4 : Bool

/-- `CacheReadErr`. -/
inductive CacheReadErr where
  | GlyphNotCached
deriving DecidableEq, Repr

/-- `CacheWriteErr`. -/
inductive CacheWriteErr where
  | GlyphTooLarge
  | NoRoomForWholeQueue
deriving DecidableEq, Repr

/-- `CachedBy`. -/
inductive CachedBy where
  | Adding
  | Reordering
deriving DecidableEq, Repr

/-! Association-list primitives modelling `hashbrown::HashMap` (value
lookup, removal, insert-or-replace) over `Nat` keys and over
`LossyGlyphInfo` keys. -/

/-- Hash-map lookup over a `Nat`-keyed association list. -/
def alookupN (l : List (Nat × Nat)) (k : Nat) : Option Nat :=
  (l.find? (fun kv => decide (kv.1 = k))).map (·.2)

/-- Hash-map removal over a `Nat`-keyed association list. -/
def aremoveN (l : List (Nat × Nat)) (k : Nat) : List (Nat × Nat) :=
  l.filter (fun kv => decide (kv.1 ≠ k))

/-- Hash-map insert-or-replace over a `Nat`-keyed association list. -/
def ainsertN (l : List (Nat × Nat)) (k v : Nat) : List (Nat × Nat) :=
  aremoveN l k ++ [(k, v)]

/-- Hash-map lookup in the glyph index. -/
def alookupG (l : List (LossyGlyphInfo × (Nat × Nat))) (k : LossyGlyphInfo) :
    Option (Nat × Nat) :=
  (l.find? (fun kv => decide (kv.1 = k))).map (·.2)

/-- Hash-map removal in the glyph index. -/
def aremoveG (l : List (LossyGlyphInfo × (Nat × Nat))) (k : LossyGlyphInfo) :
    List (LossyGlyphInfo × (Nat × Nat)) :=
  l.filter (fun kv => decide (kv.1 ≠ k))

/-- Hash-map insert-or-replace in the glyph index. -/
def ainsertG (l : List (LossyGlyphInfo × (Nat × Nat))) (k : LossyGlyphInfo)
    (v : Nat × Nat) : List (LossyGlyphInfo × (Nat × Nat)) :=
  aremoveG l k ++ [(k, v)]

/-- `LinkedHashMap` lookup in the row table. -/
def rowsGet (rows : List (Nat × Row)) (k : Nat) : Option Row :=
  (rows.find? (fun tr => decide (tr.1 = k))).map (·.2)

/-- Remove the entry with the given key from the row table. -/
def rowsErase (rows : List (Nat × Row)) (k : Nat) : List (Nat × Row) :=
  rows.filter (fun tr => decide (tr.1 ≠ k))

/-- `LinkedHashMap::get_refresh`: move the entry for `k` (when present) to
the most-recently-used end, leaving the map contents unchanged. -/
def touchRow (rows : List (Nat × Row)) (k : Nat) : List (Nat × Row) :=
  match rowsGet rows k with
  | none => rows
  | some r => rowsErase rows k ++ [(k, r)]

/-- `HashSet::insert` on the in-use row set. -/
def insertIfAbsent (l : List Nat) (k : Nat) : List Nat :=
  if l.contains k then l else l ++ [k]

/-- `normalised_offset_from_position` in the source. -/
def normalised_offset_from_position (position : ℚ × ℚ) : ℚ × ℚ :=
  let ox := ratFract position.1
  let oy := ratFract position.2
  let ox := if ox > 1/2 then ox - 1 else if ox < -(1/2) then ox + 1 else ox
  let oy := if oy > 1/2 then oy - 1 else if oy < -(1/2) then oy + 1 else oy
  (ox, oy)

/-- `Cache::lossy_info_for`: quantise scale and normalised subpixel offset
by the tolerances. -/
def lossy_info_for (c : Cache) (font_id : Nat) (g : PGlyph) : LossyGlyphInfo :=
  let scale := g.scale
  let offset := normalised_offset_from_position g.position
  { font_id := font_id
    glyph_id := g.glyph_id
    scale_over_tolerance :=
      (ratAsU32 (scale.1 / c.scale_tolerance + 1/2),
       ratAsU32 (scale.2 / c.scale_tolerance + 1/2))
    offset_over_tolerance :=
      (ratAsU16 ((offset.1 + 1/2) / c.position_tolerance + 1/2),
       ratAsU16 ((offset.2 + 1/2) / c.position_tolerance + 1/2)) }

/-- `Cache::clear`. -/
def clearCache (c : Cache) : Cache :=
  { c with
    rows := []
    space_end_for_start := [(0, c.height)]
    space_start_for_end := [(c.height, 0)]
    all_glyphs := [] }

/-- `CacheBuilder::build` (after `validated`, which clamps both tolerances
to a minimum of `0.001`; the `assert!` that the given tolerances are
nonnegative is a precondition recorded in `Reachable.build`). -/
def buildCache (width height : Nat) (scale_tol position_tol : ℚ)
    (pad_glyphs align_4x4 : Bool) : Cache :=
  { scale_tolerance := max scale_tol (1/1000)
    position_tolerance := max position_tol (1/1000)
    width := width
    height := height
    rows := []
    space_start_for_end := [(height, 0)]
    space_end_for_start := [(0, height)]
    all_glyphs := []
    pad_glyphs := pad_glyphs
    align_4x4 := align_4x4 }

/-- Result of `Cache::rect_for`; `panicked` models the `unwrap`/indexing
panics on a corrupted cache (proved unreachable below). -/
inductive ReadOut where
  | ok (r : Option (RectQ × RectI))
  | err (e : CacheReadErr)
  | panicked

/-- `Cache::rect_for`. -/
def rect_for (c : Cache) (g : PGlyph) : ReadOut :=
  match g.pixel_bounding_box with
  | none => .ok none
  | some _ =>
    match alookupG c.all_glyphs (lossy_info_for c 0 g) with
    | none => .err .GlyphNotCached
    | some (row, index) =>
      match rowsGet c.rows row with
      | none => .panicked
      | some r =>
        match r.glyphs.get? index with
        | none => .panicked
        | some gti =>
          let tex_rect := if c.pad_glyphs then gti.tex_coords.unpadded else gti.tex_coords
          let uv : RectQ :=
            ⟨(tex_rect.minX : ℚ) / (c.width : ℚ), (tex_rect.minY : ℚ) / (c.height : ℚ),
             (tex_rect.maxX : ℚ) / (c.width : ℚ), (tex_rect.maxY : ℚ) / (c.height : ℚ)⟩
          match g.pbbFun gti.offset with
          | none => .panicked
          | some local_bb =>
            let min_from_origin : ℚ × ℚ :=
              ((local_bb.minX : ℚ) - gti.offset.1, (local_bb.minY : ℚ) - gti.offset.2)
            let ideal_min : ℚ × ℚ :=
              (min_from_origin.1 + g.position.1, min_from_origin.2 + g.position.2)
            let mn : Int × Int := (ratRound ideal_min.1, ratRound ideal_min.2)
            let bb_offset : Int × Int := (mn.1 - local_bb.minX, mn.2 - local_bb.minY)
            .ok (some (uv,
              ⟨mn.1, mn.2, local_bb.maxX + bb_offset.1, local_bb.maxY + bb_offset.2⟩))

/-! ### `Cache::cache_glyphs`

The body of `cache_glyphs` is translated as: a partition phase
(`partitionGlyphs`), the LRU refresh of the in-use rows, the
tallest-first sort, the per-glyph placement loop (`perGlyph`, with the
eviction `while` loop as `evictLoop`), and a driver (`cache_glyphs`)
implementing the single retry-by-full-clear recursion.  Ghost `events`
record every in-use insertion (`touched`) and every row eviction
(`evicted`) in program order; they influence nothing. -/

/-- Ghost trace events of one `cache_glyphs` pass. -/
inductive TraceEv where
  | touched (top : Nat)
  | evicted (top : Nat)
deriving DecidableEq, Repr

/-- Mutable state of one `cache_glyphs` pass: the cache (`&mut self`), the
`in_use_rows` set, the `draw_and_upload` queue, and the ghost trace. -/
structure PassSt where
  c : Cache
  in_use_rows : List Nat
  draw_and_upload : List (RectN × PGlyph)
  events : List TraceEv

/-- Outcome of one `cache_glyphs` pass.  `retrySig` models
`queue_success = false` + `break 'per_glyph`; `panicked` models the
`gap.unwrap()` panic on `None` (proved unreachable below). -/
inductive PassOut where
  | ok (s : PassSt)
  | tooLarge (s : PassSt)
  | noRoom (s : PassSt)
  | retrySig (s : PassSt)
  | panicked (s : PassSt)

/-- Outcome of the eviction `while` loop. -/
inductive EvictOut where
  | gap (g : Nat × Nat) (s : PassSt)
  | exhausted (s : PassSt)
  | noRoom (s : PassSt)
  | retrySig (s : PassSt)

/-- `self.space_end_for_start.remove(&new_end)` during an eviction merge:
absorb a free band starting exactly where the freed span ends. -/
def absorbAbove (sefs : List (Nat × Nat)) (ne0 : Nat) : Nat × List (Nat × Nat) :=
  match alookupN sefs ne0 with
  | some e => (e, aremoveN sefs ne0)
  | none => (ne0, sefs)

/-- `self.space_start_for_end.remove(&new_start)` during an eviction merge:
absorb a free band ending exactly where the freed span starts. -/
def absorbBelow (ssfe : List (Nat × Nat)) (ns0 : Nat) : Nat × List (Nat × Nat) :=
  match alookupN ssfe ns0 with
  | some s => (s, aremoveN ssfe ns0)
  | none => (ns0, ssfe)

/-- Remove the glyph-index entries of all glyphs of an evicted row
(`for g in row.glyphs { self.all_glyphs.remove(&g.glyph_info); }`). -/
def removeKeys (ag : List (LossyGlyphInfo × (Nat × Nat))) (gs : List GlyphTexInfo) :
    List (LossyGlyphInfo × (Nat × Nat)) :=
  gs.foldl (fun m g => aremoveG m g.glyph_info) ag

/-- Reassemble the pass state from the pieces the eviction loop mutates. -/
def reasmEvict (s0 : PassSt) (rows : List (Nat × Row))
    (ag : List (LossyGlyphInfo × (Nat × Nat))) (sefs ssfe : List (Nat × Nat))
    (evs : List TraceEv) : PassSt :=
  { s0 with
    c := { s0.c with
           rows := rows
           all_glyphs := ag
           space_end_for_start := sefs
           space_start_for_end := ssfe }
    events := evs }

/-- The eviction `while !self.rows.is_empty()` loop.  Pops least-recently
used rows that are not in use by this batch, removing their glyph-index
entries and merging the freed span with neighbouring free bands, until a
band at least `ah` tall appears (`gap`), the front row is in use
(`noRoom` when already running from an empty cache, `retrySig`
otherwise), or all rows are gone (`exhausted`, leading to the
`gap.unwrap()` panic in the caller). -/
def evictLoop (fromEmpty : Bool) (ah : Nat) (s0 : PassSt) (evs : List TraceEv)
    (ag : List (LossyGlyphInfo × (Nat × Nat))) (sefs ssfe : List (Nat × Nat)) :
    List (Nat × Row) → EvictOut
  | [] => .exhausted (reasmEvict s0 [] ag sefs ssfe evs)
  | (top, row) :: rest =>
    if s0.in_use_rows.contains top then
      if fromEmpty then .noRoom (reasmEvict s0 ((top, row) :: rest) ag sefs ssfe evs)
      else .retrySig (reasmEvict s0 ((top, row) :: rest) ag sefs ssfe evs)
    else
      let ag1 := removeKeys ag row.glyphs
      let p1 := absorbAbove sefs (top + row.height)
      let p2 := absorbBelow ssfe top
      let sefs1 := ainsertN p1.2 p2.1 p1.1
      let ssfe1 := ainsertN p2.2 p1.1 p2.1
      let evs1 := evs ++ [.evicted top]
      if ah ≤ p1.1 - p2.1 then .gap (p2.1, p1.1) (reasmEvict s0 rest ag1 sefs1 ssfe1 evs1)
      else evictLoop fromEmpty ah s0 evs1 ag1 sefs1 ssfe1 rest

/-- `for (start, end) in &self.space_end_for_start { if end - start >=
aligned_height { .. } }`: first free band tall enough (hash iteration
order is arbitrary in the source; the model uses list order). -/
def findGap (sefs : List (Nat × Nat)) (ah : Nat) : Option (Nat × Nat) :=
  sefs.find? (fun se => decide (ah ≤ se.2 - se.1))

/-- `for (top, row) in self.rows.iter().rev()`: first (most recently used)
row whose fixed height and remaining width fit the glyph. -/
def findRowRev (width aw ah : Nat) (rows : List (Nat × Row)) : Option Nat :=
  ((rows.reverse).find? (fun tr =>
    decide (ah ≤ tr.2.height ∧ aw ≤ width - tr.2.width))).map (·.1)

/-- `glyph.pixel_bounding_box().unwrap()` on a glyph known to have a
bounding box (the partition phase dropped the empty ones). -/
def bbOf (g : PGlyph) : RectI := (g.pixel_bounding_box).getD ⟨0, 0, 0, 0⟩

/-- Step (a) of the algorithm: `(unaligned, aligned)` pixel dimensions of
an uncached glyph (`+2` per axis when padding; rounded up to the next
multiple of 4 per axis when 4x4-aligning, via `(x + 3) & !3`).  The
additions wrap as `u32` additions do. -/
def glyphDims (c : Cache) (g : PGlyph) : (Nat × Nat) × (Nat × Nat) :=
  let bb := bbOf g
  let uw := if c.pad_glyphs then (intAsU32 bb.width + 2) % 4294967296 else intAsU32 bb.width
  let uh := if c.pad_glyphs then (intAsU32 bb.height + 2) % 4294967296 else intAsU32 bb.height
  let aw := if c.align_4x4 then (uw + 3) % 4294967296 / 4 * 4 else uw
  let ah := if c.align_4x4 then (uh + 3) % 4294967296 / 4 * 4 else uh
  ((uw, uh), (aw, ah))

/-- Carve a new row of height `ah` at the start of free band `gap`:
shrink/remove the band in both free-space maps and insert the empty row
at the most-recently-used end of the row table. -/
def carveRow (c : Cache) (ah : Nat) (gap : Nat × Nat) : Cache :=
  let nss := gap.1 + ah
  let sefs1 := aremoveN c.space_end_for_start gap.1
  if nss = gap.2 then
    { c with
      space_end_for_start := sefs1
      space_start_for_end := aremoveN c.space_start_for_end gap.2
      rows := rowsErase c.rows gap.1 ++ [(gap.1, ⟨ah, 0, []⟩)] }
  else
    { c with
      space_end_for_start := ainsertN sefs1 nss gap.2
      space_start_for_end := ainsertN c.space_start_for_end gap.2 nss
      rows := rowsErase c.rows gap.1 ++ [(gap.1, ⟨ah, 0, []⟩)] }

/-- Place a glyph at the end of row `row_top` (which is refreshed): record
the queued upload, the new `GlyphTexInfo` slot and the glyph-index entry,
and mark the row in use.  `none` models the `unwrap` panic when the row
is absent (never the case at the call sites). -/
def placeGlyph (s : PassSt) (row_top : Nat) (uw uh aw ah : Nat)
    (glyph : PGlyph) (glyph_info : LossyGlyphInfo) : Option PassSt :=
  match rowsGet s.c.rows row_top with
  | none => none
  | some row =>
    let aligned_tex : RectN := ⟨row.width, row_top, row.width + aw, row_top + ah⟩
    let unaligned_tex : RectN := ⟨row.width, row_top, row.width + uw, row_top + uh⟩
    let gti : GlyphTexInfo :=
      { glyph_info := glyph_info
        offset := normalised_offset_from_position glyph.position
        tex_coords := unaligned_tex }
    let row1 : Row := { row with glyphs := row.glyphs ++ [gti], width := row.width + aw }
    some
      { c := { s.c with
               rows := rowsErase s.c.rows row_top ++ [(row_top, row1)]
               all_glyphs := ainsertG s.c.all_glyphs glyph_info (row_top, row.glyphs.length) }
        in_use_rows := insertIfAbsent s.in_use_rows row_top
        draw_and_upload := s.draw_and_upload ++ [(aligned_tex, glyph)]
        events := s.events ++ [.touched row_top] }

/-- Carve a new row out of free band `gap` and place the glyph at its
start (the shared tail of the no-existing-row-fits path). -/
def carveAndPlace (s1 : PassSt) (gap : Nat × Nat) (uw uh aw ah : Nat)
    (glyph : PGlyph) (glyph_info : LossyGlyphInfo) : PassSt ⊕ PassOut :=
  let s2 := { s1 with c := carveRow s1.c ah gap }
  match placeGlyph s2 gap.1 uw uh aw ah glyph glyph_info with
  | none => .inr (.panicked s2)
  | some s3 => .inl s3

/-- Body of one iteration of the `'per_glyph` loop: either a new pass
state to continue with (`inl`) or an early exit (`inr`). -/
def perGlyphStep (fromEmpty : Bool) (s : PassSt) (glyph : PGlyph)
    (glyph_info : LossyGlyphInfo) : PassSt ⊕ PassOut :=
  if (alookupG s.c.all_glyphs glyph_info).isSome then .inl s
  else
    let d := glyphDims s.c glyph
    let uw := d.1.1
    let uh := d.1.2
    let aw := d.2.1
    let ah := d.2.2
    if s.c.width ≤ aw ∨ s.c.height ≤ ah then .inr (.tooLarge s)
    else
      match findRowRev s.c.width aw ah s.c.rows with
      | some row_top =>
        match placeGlyph s row_top uw uh aw ah glyph glyph_info with
        | none => .inr (.panicked s)
        | some s1 => .inl s1
      | none =>
        match findGap s.c.space_end_for_start ah with
        | some gap => carveAndPlace s gap uw uh aw ah glyph glyph_info
        | none =>
          match evictLoop fromEmpty ah s s.events s.c.all_glyphs
              s.c.space_end_for_start s.c.space_start_for_end s.c.rows with
          | .gap gap s1 => carveAndPlace s1 gap uw uh aw ah glyph glyph_info
          | .exhausted s1 => .inr (.panicked s1)
          | .noRoom s1 => .inr (.noRoom s1)
          | .retrySig s1 => .inr (.retrySig s1)

/-- The `'per_glyph` loop over the sorted uncached glyphs. -/
def perGlyph (fromEmpty : Bool) (s : PassSt) :
    List (PGlyph × LossyGlyphInfo) → PassOut
  | [] => .ok s
  | (glyph, glyph_info) :: rest =>
    match perGlyphStep fromEmpty s glyph glyph_info with
    | .inl s1 => perGlyph fromEmpty s1 rest
    | .inr out => out

/-- The partition phase: split the batch into in-use rows of
already-cached glyphs and the uncached glyphs (each paired with its lossy
key); glyphs without a pixel bounding box are skipped. -/
def partitionGlyphs (c : Cache) (gs : List PGlyph) :
    List Nat × List (PGlyph × LossyGlyphInfo) :=
  gs.foldl
    (fun acc glyph =>
      match glyph.pixel_bounding_box with
      | none => acc
      | some _ =>
        let glyph_info := lossy_info_for c 0 glyph
        match alookupG c.all_glyphs glyph_info with
        | some rg => (insertIfAbsent acc.1 rg.1, acc.2)
        | none => (acc.1, acc.2 ++ [(glyph, glyph_info)]))
    ([], [])

/-- Sort key of the tallest-first sort:
`-glyph.pixel_bounding_box().unwrap().height()`. -/
def sortKeyH (p : PGlyph × LossyGlyphInfo) : Int := -(bbOf p.1).height

/-- Insert into a list sorted ascending by `sortKeyH` (descending glyph
height).  The source uses an unstable sort; ties are in unspecified
order, here kept stable. -/
def insertSorted (x : PGlyph × LossyGlyphInfo) :
    List (PGlyph × LossyGlyphInfo) → List (PGlyph × LossyGlyphInfo)
  | [] => [x]
  | y :: ys => if sortKeyH x < sortKeyH y then x :: y :: ys else y :: insertSorted x ys

/-- `uncached_glyphs.sort_unstable_by_key(|(glyph, ..)|
-glyph.pixel_bounding_box().unwrap().height())`. -/
def sortByHeight (l : List (PGlyph × LossyGlyphInfo)) :
    List (PGlyph × LossyGlyphInfo) :=
  l.foldr insertSorted []

/-- One full pass of `cache_glyphs` (everything inside the braces up to
and including the `'per_glyph` loop; uploads happen afterwards only when
the pass returns `ok`). -/
def cachePass (c : Cache) (gs : List PGlyph) : PassOut :=
  let fromEmpty := c.all_glyphs.isEmpty
  let part := partitionGlyphs c gs
  let rows1 := part.1.foldl touchRow c.rows
  perGlyph fromEmpty
    { c := { c with rows := rows1 }
      in_use_rows := part.1
      draw_and_upload := []
      events := part.1.map .touched }
    (sortByHeight part.2)

/-- Final result of `Cache::cache_glyphs`; `panicked` models a Rust panic. -/
inductive CacheResult where
  | ok (cb : CachedBy)
  | err (e : CacheWriteErr)
  | panicked
deriving DecidableEq, Repr

/-- `Cache::cache_glyphs`: run a pass; on success perform the queued
uploads (returned as the third component) and return `Adding`; on a retry
signal clear the cache and re-run the whole algorithm once, mapping a
successful retry to `Reordering`.  The nested `retrySig` case is
unreachable (a pass whose cache starts with an empty glyph index never
signals a retry, `perGlyph_fromEmpty_no_retry` below); the source would
recurse there. -/
def cache_glyphs (c : Cache) (gs : List PGlyph) :
    CacheResult × Cache × List (RectN × PGlyph) :=
  match cachePass c gs with
  | .ok s => (.ok .Adding, s.c, s.draw_and_upload)
  | .tooLarge s => (.err .GlyphTooLarge, s.c, [])
  | .noRoom s => (.err .NoRoomForWholeQueue, s.c, [])
  | .panicked s => (.panicked, s.c, [])
  | .retrySig s =>
    match cachePass (clearCache s.c) gs with
    | .ok s2 => (.ok .Reordering, s2.c, s2.draw_and_upload)
    | .tooLarge s2 => (.err .GlyphTooLarge, s2.c, [])
    | .noRoom s2 => (.err .NoRoomForWholeQueue, s2.c, [])
    | .panicked s2 => (.panicked, s2.c, [])
    | .retrySig s2 => (.panicked, s2.c, [])

/-- Projection: the pass state carried by any `PassOut`. -/
def PassOut.st : PassOut → PassSt
  | .ok s => s
  | .tooLarge s => s
  | .noRoom s => s
  | .retrySig s => s
  | .panicked s => s

/-- Whether a pass succeeded. -/
def PassOut.isOk : PassOut → Bool
  | .ok _ => true
  | _ => false

/-- Whether a pass signalled a retry. -/
def PassOut.isRetry : PassOut → Bool
  | .retrySig _ => true
  | _ => false

/-- Whether a pass failed with `NoRoomForWholeQueue`. -/
def PassOut.isNoRoom : PassOut → Bool
  | .noRoom _ => true
  | _ => false

/-! ### Line layout engine (`AdvancedLayout` in `helpers.rs`)

The text is modelled as a `List Char` and byte indices as character
indices (each character counts 1, standing for `len_utf8`); word slices
agree under this reindexing.  The font metrics provider (rusttype
`Font::v_metrics`, `h_metrics`, `pair_kerning` at the fixed layout
scale) is an external collaborator, modelled as a record of functions.
Debug-mode arithmetic overflow of `usize` subtraction and out-of-bounds
slicing panic; both are modelled as explicit errors. -/

/-- Font metrics at the layout scale (external collaborator). -/
structure FontMet where
  advance : Char → ℚ
  kern : Char → Char → ℚ
  ascent : ℚ
  descent : ℚ
  line_gap : ℚ

/-- `WordPos` in the source. -/
structure WordPos where
  word : List Char
  origin : ℚ × ℚ
  size : ℚ × ℚ
deriving DecidableEq, Repr

/-- Panic modes of the layout computation. -/
inductive LayErr where
  | usizeUnderflow
  | sliceOOB
  | indexPanic
deriving DecidableEq, Repr

/-- Parameters of one layout computation (the immutable fields of
`AdvancedLayout`). -/
structure LayParams where
  met : FontMet
  text : List Char
  start : ℚ × ℚ
  /-- negative = left, 0 = center, positive = right (`i8` in the source) -/
  align : Int
  max_width : Nat

/-- Mutable state of the `compute` loop. -/
structure LayoutSt where
  layout : List WordPos
  beginning_line_word_index : Nat
  current_word_boundaries : Option (Nat × Nat)
  origin : ℚ × ℚ
  size : ℚ × ℚ
  last_char : Option Char

/-- `text[beg..end]` on the character-indexed model. -/
def sliceChars (text : List Char) (beg en : Nat) : List Char :=
  (text.drop beg).take (en - beg)

/-- `AdvancedLayout::line_size`.  Returns 0 when there is no word at
`beg`; panics (`unwrap` on `None`) when `last?` names an out-of-range
index. -/
def line_size (layout : List WordPos) (beg : Nat) (last? : Option Nat) :
    Except LayErr ℚ :=
  match layout.get? beg with
  | none => .ok 0
  | some first =>
    match (match last? with | some li => layout.get? li | none => layout.getLast?) with
    | none => .error .indexPanic
    | some lastw => .ok ((lastw.size.1 + lastw.origin.1) - first.origin.1)

/-- Shift `origin.x` of the entries with index in `[a, b)` by `offset`
(the slice mutation loop of `realign`). -/
def shiftRange (layout : List WordPos) (a b : Nat) (offset : ℚ) : List WordPos :=
  layout.enum.map fun iw =>
    if a ≤ iw.1 ∧ iw.1 < b then
      { iw.2 with origin := (iw.2.origin.1 + offset, iw.2.origin.2) }
    else iw.2

/-- `AdvancedLayout::realign`.  On an empty layout with `last? = none` the
source computes `self.layout.len() - 1`, which underflows `usize`
(panicking in debug builds); modelled as `usizeUnderflow`.  The slice
`[first..last+1]` panics when `first > last + 1` or `last + 1 > len`. -/
def realign (align : Int) (max_width : Nat) (layout : List WordPos)
    (first : Nat) (last? : Option Nat) : Except LayErr (List WordPos) :=
  if align < 0 then .ok layout
  else
    match line_size layout first last? with
    | .error e => .error e
    | .ok ls =>
      let offset :=
        if align = 0 then ((max_width : ℚ) - ls) / 2 else (max_width : ℚ) - ls
      match (match last? with
             | some li => Except.ok li
             | none =>
               if layout.length = 0 then Except.error LayErr.usizeUnderflow
               else Except.ok (layout.length - 1) : Except LayErr Nat) with
      | .error e => .error e
      | .ok lastIndex =>
        if first ≤ lastIndex + 1 ∧ lastIndex + 1 ≤ layout.length then
          .ok (shiftRange layout first (lastIndex + 1) offset)
        else .error LayErr.sliceOOB

/-- Set the origin of the last entry
(`self.layout.last_mut().unwrap().origin = origin`). -/
def setLastOrigin (layout : List WordPos) (o : ℚ × ℚ) : List WordPos :=
  match layout.getLast? with
  | none => layout
  | some w => layout.dropLast ++ [{ w with origin := o }]

/-- One iteration of the `while let Some((i, c)) = char_indices.next()`
loop of `AdvancedLayout::compute`. -/
def computeStep (P : LayParams) (st : LayoutSt) (ic : Nat × Char) :
    Except LayErr LayoutSt := do
  let character_height := P.met.ascent - P.met.descent
  let words_in_line := st.layout.length - st.beginning_line_word_index
  let pair_kerning :=
    match st.last_char with
    | some prev_char => P.met.kern prev_char ic.2
    | none => 0
  let adv := P.met.advance ic.2
  match st.current_word_boundaries, ic.2.isWhitespace with
  | some (beg, en), true =>
    let layout1 := st.layout ++
      [{ word := sliceChars P.text beg en, origin := st.origin, size := st.size }]
    let ls ← line_size layout1 st.beginning_line_word_index none
    let wrapped ←
      if (P.max_width : ℚ) ≤ ls ∧ 0 < words_in_line then do
        let originA := (P.start.1, st.origin.2 + character_height + P.met.line_gap)
        let layout2 := setLastOrigin layout1 originA
        let originB := (originA.1 + st.size.1, originA.2)
        let layout3 ← realign P.align P.max_width layout2
          st.beginning_line_word_index (some (layout2.length - 2))
        Except.ok (layout3, originB, layout3.length - 1, ((0 : ℚ), st.size.2))
      else
        Except.ok (layout1, st.origin, st.beginning_line_word_index, st.size)
    let layout2 := wrapped.1
    let origin2 := wrapped.2.1
    let beg2 := wrapped.2.2.1
    let size2 := wrapped.2.2.2
    if ic.2 = '\n' then do
      let origin3 := (P.start.1, origin2.2 + character_height + P.met.line_gap)
      let layout3 ← realign P.align P.max_width layout2 beg2 none
      return { layout := layout3
               beginning_line_word_index := layout3.length
               current_word_boundaries := none
               origin := origin3
               size := (0, size2.2)
               last_char := some ic.2 }
    else
      return { layout := layout2
               beginning_line_word_index := beg2
               current_word_boundaries := none
               origin := (origin2.1 + size2.1 + adv + pair_kerning, origin2.2)
               size := (0, size2.2)
               last_char := some ic.2 }
  | none, true =>
    if ic.2 = '\n' then do
      let origin1 := (P.start.1, st.origin.2 + character_height + P.met.line_gap)
      let layout1 ← realign P.align P.max_width st.layout st.beginning_line_word_index none
      return { st with
               layout := layout1
               beginning_line_word_index := layout1.length
               origin := origin1
               last_char := some ic.2 }
    else
      return { st with
               origin := (st.origin.1 + adv + pair_kerning, st.origin.2)
               last_char := some ic.2 }
  | some (beg, en), false =>
    return { st with
             current_word_boundaries := some (beg, en + 1)
             size := (st.size.1 + adv + pair_kerning, st.size.2)
             last_char := some ic.2 }
  | none, false =>
    return { st with
             current_word_boundaries := some (ic.1, ic.1 + 1)
             size := (st.size.1 + adv + pair_kerning, st.size.2)
             last_char := some ic.2 }

/-- The epilogue of `AdvancedLayout::compute` (flush the open word, move
a too-long last word to its own line, realign the final line or lines). -/
def computeFinish (P : LayParams) (st : LayoutSt) : Except LayErr (List WordPos) :=
  let character_height := P.met.ascent - P.met.descent
  let layout1 :=
    match st.current_word_boundaries with
    | some (beg, en) =>
      st.layout ++ [{ word := sliceChars P.text beg en, origin := st.origin, size := st.size }]
    | none => st.layout
  let words_in_line := layout1.length - st.beginning_line_word_index
  match line_size layout1 st.beginning_line_word_index none with
  | .error e => .error e
  | .ok ls =>
    if (P.max_width : ℚ) ≤ ls ∧ 2 ≤ words_in_line then
      let originA := (P.start.1, st.origin.2 + character_height + P.met.line_gap)
      if layout1.length = 0 then
        Except.error LayErr.indexPanic
      else
        let layout2 := setLastOrigin layout1 originA
        match realign P.align P.max_width layout2
            st.beginning_line_word_index (some (layout2.length - 2)) with
        | .error e => .error e
        | .ok layout3 =>
          realign P.align P.max_width layout3 (layout3.length - 1) none
    else
      realign P.align P.max_width layout1 st.beginning_line_word_index none

/-- Initial state of `compute`. -/
def initLayoutSt (P : LayParams) : LayoutSt :=
  { layout := []
    beginning_line_word_index := 0
    current_word_boundaries := none
    origin := P.start
    size := (0, P.met.ascent - P.met.descent)
    last_char := none }

/-- `AdvancedLayout::compute`, driven by `new_str`: fold the per-character
step over the indexed characters, then run the epilogue. -/
def compute (P : LayParams) : Except LayErr (List WordPos) := do
  let st ← P.text.enum.foldlM (computeStep P) (initLayoutSt P)
  computeFinish P st

/-- `AdvancedLayout::new_str` (the layout it computes). -/
def new_str (met : FontMet) (text : List Char) (start : ℚ × ℚ)
    (align : Int) (max_width : Nat) : Except LayErr (List WordPos) :=
  compute { met := met, text := text, start := start, align := align, max_width := max_width }

/-- The word contents of a layout (origins and sizes forgotten). -/
def wordsOf (l : List WordPos) : List (List Char) := l.map (·.word)

/-! ### Specification predicates -/

/-- Well-formedness of the external rasterizer for one glyph: a reported
pixel bounding box always has positive width and height within the
positive `i32` range (a rusttype bounding box is the extent of a
non-degenerate outline). -/
def WFBB (g : PGlyph) : Prop :=
  ∀ p bb, g.pbbFun p = some bb →
    0 < bb.width ∧ bb.width < 2147483648 ∧ 0 < bb.height ∧ bb.height < 2147483648

/-- Having a shape is independent of the position the glyph is placed at
(in rusttype only an empty outline lacks a pixel bounding box). -/
def WFShape (g : PGlyph) : Prop :=
  ∀ p q, (g.pbbFun p).isSome = (g.pbbFun q).isSome

/-- Number of row spans and free bands of `c` covering the pixel line `y`. -/
def coverCount (c : Cache) (y : Nat) : Nat :=
  c.rows.countP (fun tr => decide (tr.1 ≤ y ∧ y < tr.1 + tr.2.height)) +
  c.space_end_for_start.countP (fun se => decide (se.1 ≤ y ∧ y < se.2))

/-- A glyph-index entry names an existing row and a valid slot in it that
carries the same key. -/
def slotOkB (c : Cache) (kv : LossyGlyphInfo × (Nat × Nat)) : Bool :=
  match rowsGet c.rows kv.2.1 with
  | none => false
  | some row =>
    match row.glyphs.get? kv.2.2 with
    | none => false
    | some gti => decide (gti.glyph_info = kv.1)

/-- Every slot of a row is indexed by the glyph index, pointing back at
exactly that row and slot. -/
def rowIndexedB (c : Cache) (tr : Nat × Row) : Bool :=
  tr.2.glyphs.enum.all fun ig =>
    decide (alookupG c.all_glyphs ig.2.glyph_info = some (tr.1, ig.1))

/-- The cache invariant (claim C3): the row spans and the free bands
exactly tile the atlas height with no gaps and no overlaps, no two free
bands are vertically adjacent, the two free-space maps mirror each other,
and the glyph index and the row slots are in exact correspondence (so
removing a row removes precisely the entries that pointed into it). -/
structure InvFull (c : Cache) : Prop where
  posW : 0 < c.width
  posH : 0 < c.height
  rowsND : (c.rows.map (·.1)).Nodup
  sefsND : (c.space_end_for_start.map (·.1)).Nodup
  ssfeND : (c.space_start_for_end.map (·.1)).Nodup
  agND : (c.all_glyphs.map (·.1)).Nodup
  mirror1 : ∀ p ∈ c.space_end_for_start, (p.2, p.1) ∈ c.space_start_for_end
  mirror2 : ∀ p ∈ c.space_start_for_end, (p.2, p.1) ∈ c.space_end_for_start
  bandsNE : ∀ p ∈ c.space_end_for_start, p.1 < p.2 ∧ p.2 ≤ c.height
  rowsB : ∀ tr ∈ c.rows, 0 < tr.2.height ∧ tr.1 + tr.2.height ≤ c.height ∧ tr.2.width ≤ c.width
  tiling : ∀ y, y < c.height → coverCount c y = 1
  noAdj : ∀ p ∈ c.space_end_for_start, alookupN c.space_end_for_start p.2 = none
  idxOk : ∀ kv ∈ c.all_glyphs, slotOkB c kv = true
  slotIdx : ∀ tr ∈ c.rows, rowIndexedB c tr = true

/-- The configuration fields of two caches agree (the packing code never
changes them). -/
def ConfigEq (a b : Cache) : Prop :=
  b.scale_tolerance = a.scale_tolerance ∧ b.position_tolerance = a.position_tolerance ∧
  b.width = a.width ∧ b.height = a.height ∧ b.pad_glyphs = a.pad_glyphs ∧
  b.align_4x4 = a.align_4x4

/-- A lossy key resident in the glyph index whose row is marked in use by
the running batch (such keys survive the rest of the pass). -/
def LiveKey (s : PassSt) (k : LossyGlyphInfo) : Prop :=
  ∃ t i, alookupG s.c.all_glyphs k = some (t, i) ∧
    s.in_use_rows.contains t = true

/-- Every key inserted during this pass (absent from the pass-initial
glyph index `ag0`) is live. -/
def QInv (ag0 : List (LossyGlyphInfo × (Nat × Nat))) (s : PassSt) : Prop :=
  ∀ k, alookupG ag0 k = none → (alookupG s.c.all_glyphs k).isSome = true →
    LiveKey s k

/-- Cache states reachable by construction (with a positive atlas and
nonnegative tolerances, the `assert!` of `validated`), `clear`, and
`cache_glyphs` on batches of well-formed glyphs. -/
inductive Reachable : Cache → Prop where
  | build (w h : Nat) (st pt : ℚ) (pad al : Bool) :
      0 < w → 0 < h → 0 ≤ st → 0 ≤ pt → Reachable (buildCache w h st pt pad al)
  | clear {c : Cache} : Reachable c → Reachable (clearCache c)
  | step {c : Cache} (gs : List PGlyph) : Reachable c → (∀ g ∈ gs, WFBB g) →
      Reachable (cache_glyphs c gs).2.1

/-- The in-use set tracked along a ghost trace (`touched` inserts). -/
def trackInUse (S : List Nat) : List TraceEv → List Nat
  | [] => S
  | .touched t :: rest => trackInUse (insertIfAbsent S t) rest
  | .evicted _ :: rest => trackInUse S rest

/-- A trace is valid for a starting in-use set when every eviction hits a
row that is not in the tracked in-use set at that point. -/
def ValidTrace (S : List Nat) : List TraceEv → Prop
  | [] => True
  | .touched t :: rest => ValidTrace (insertIfAbsent S t) rest
  | .evicted t :: rest => S.contains t = false ∧ ValidTrace S rest

/-! ### Concrete instances used by witnesses and counterexamples -/

/-- A glyph whose rasterizer reports the same bounding box at every
position. -/
def mkGlyph (id : Nat) (w h : Int) : PGlyph :=
  { glyph_id := id, scale := (1, 1), position := (0, 0), pbbFun := fun _ => some ⟨0, 0, w, h⟩ }

/-- An 8x8 atlas without padding or alignment. -/
def c8x8 : Cache := buildCache 8 8 (1/10) (1/10) false false

/-- A cache with both tolerances equal to 1. -/
def cTol1 : Cache := buildCache 256 256 1 1 true false

/-- A glyph at uniform scale `sx` (same identity for all `sx`). -/
def gScale (sx : ℚ) : PGlyph :=
  { glyph_id := 5, scale := (sx, sx), position := (0, 0), pbbFun := fun _ => some ⟨0, 0, 4, 4⟩ }

/-- The 8x8 cache holding one 7x7 glyph (fills row 0 up to width 7). -/
def cJ : Cache := (cache_glyphs c8x8 [mkGlyph 9 7 7]).2.1

/-- The 8x8 cache holding a 6x4 glyph in row 0 and a 6x3 glyph in row 4. -/
def cAJ : Cache := (cache_glyphs c8x8 [mkGlyph 9 6 4, mkGlyph 1 6 3]).2.1

/-- The 8x8 cache holding one 6x4 glyph in row 0 (free band `[4, 8)`). -/
def cJ2 : Cache := (cache_glyphs c8x8 [mkGlyph 9 6 4]).2.1

/-- Projection: the pass state carried by any `EvictOut`. -/
def EvictOut.st : EvictOut → PassSt
  | .gap _ s => s
  | .exhausted s => s
  | .noRoom s => s
  | .retrySig s => s

/-- Ghost-trace well-formedness of a pass state: its event trace is valid
for the empty starting set and tracks exactly its in-use row set. -/
def TraceOK (s : PassSt) : Prop :=
  ValidTrace [] s.events ∧
  ∀ x, (trackInUse [] s.events).contains x = s.in_use_rows.contains x

/-- Simple concrete font metrics: every advance 10, no kerning, line
height 10. -/
def tmet : FontMet :=
  { advance := fun _ => 10, kern := fun _ _ => 0, ascent := 8, descent := -2, line_gap := 0 }

/-- Concrete layout parameters: text `aa bb`, left aligned, width 35. -/
def wP : LayParams :=
  { met := tmet, text := ['a', 'a', ' ', 'b', 'b'], start := (0, 0), align := -1,
    max_width := 35 }

/-- Concrete layout parameters: text `a `, left aligned, width 100. -/
def wP3 : LayParams :=
  { met := tmet, text := ['a', ' '], start := (0, 0), align := -1, max_width := 100 }

/-- Loop state just before the blank that closes `bb` in `aa bb`. -/
def wSt : LayoutSt :=
  { layout := [⟨['a', 'a'], (0, 0), (20, 10)⟩]
    beginning_line_word_index := 0
    current_word_boundaries := some (3, 5)
    origin := (30, 0)
    size := (20, 10)
    last_char := some 'b' }

/-- Loop state with an open first word of its line. -/
def wSt2 : LayoutSt :=
  { layout := []
    beginning_line_word_index := 0
    current_word_boundaries := some (0, 2)
    origin := (0, 0)
    size := (20, 10)
    last_char := some 'a' }

/-- Invariant of the layout loop after `n` characters: every emitted word
is nonempty, and any open word boundaries name a nonempty in-range slice
ending at or before position `n`. -/
def BInvAt (P : LayParams) (n : Nat) (st : LayoutSt) : Prop :=
  (∀ w ∈ st.layout, w.word ≠ []) ∧
  (∀ b e, st.current_word_boundaries = some (b, e) →
    b < e ∧ b < P.text.length ∧ e ≤ n)

/-! ## Theorems -/

/-- C10: the layout computation is NOT total: for the empty string (or
any input whose final line holds no word) with center alignment,
`realign` evaluates `self.layout.len() - 1` on an empty layout, a `usize`
underflow (which panics in debug builds).  This theorem evaluates the
model at the failing input. -/
theorem C10_empty_string_center_underflow :
    new_str tmet [] (0, 0) 0 100 = .error .usizeUnderflow ∧
    new_str tmet [' '] (0, 0) 1 100 = .error .usizeUnderflow ∧
    new_str tmet [] (0, 0) (-1) 100 = .ok [] ∧
    new_str tmet [' '] (0, 0) (-1) 100 = .ok [] := by
  refine ⟨?_, ?_, ?_, ?_⟩ <;> rfl

/-- The lossy key of every `mkGlyph` under the `c8x8` configuration
(scale 1 and offset 0 quantise to buckets 10 and 5 at tolerance 1/10). -/
theorem lossy_c8x8 (id : Nat) (w h : Int) :
    lossy_info_for c8x8 0 (mkGlyph id w h) = ⟨0, id, (10, 10), (5, 5)⟩ := by
  have h1 : c8x8.scale_tolerance = 1/10 := by norm_num [c8x8, buildCache]
  have h2 : c8x8.position_tolerance = 1/10 := by norm_num [c8x8, buildCache]
  simp only [lossy_info_for, mkGlyph, h1, h2, normalised_offset_from_position,
    ratFract, ratTrunc, ratAsU32, ratAsU16]
  norm_num
  decide

/-- The lossy key of `gScale sx` under the `cTol1` configuration is
determined by the bucket `⌊sx + 1/2⌋`. -/
theorem lossy_cTol1 (sx : ℚ) :
    lossy_info_for cTol1 0 (gScale sx) =
      ⟨0, 5, (min (⌊sx + 1/2⌋).toNat 4294967295, min (⌊sx + 1/2⌋).toNat 4294967295),
       (1, 1)⟩ := by
  have h1 : cTol1.scale_tolerance = 1 := by norm_num [cTol1, buildCache]
  have h2 : cTol1.position_tolerance = 1 := by norm_num [cTol1, buildCache]
  simp only [lossy_info_for, gScale, h1, h2, normalised_offset_from_position,
    ratFract, ratTrunc, ratAsU32, ratAsU16, div_one]
  norm_num

/-- C8 counterexample: with both tolerances equal to 1, two requests for
the same glyph at scales 5/4 and 7/4 differ by 1/2 < scale tolerance
(and have identical offsets, difference 0 < position tolerance), yet
their lossy keys differ, so they do not map to the same glyph-index
entry. -/
theorem C8_counterexample :
    |(5/4 : ℚ) - 7/4| < cTol1.scale_tolerance ∧
    (gScale (5/4)).position = (gScale (7/4)).position ∧
    lossy_info_for cTol1 0 (gScale (5/4)) ≠ lossy_info_for cTol1 0 (gScale (7/4)) := by
  refine ⟨?_, rfl, ?_⟩
  · have : cTol1.scale_tolerance = 1 := by norm_num [cTol1, buildCache]
    rw [this, abs_sub_comm, abs_of_nonneg (by norm_num)]
    norm_num
  · have e1 : lossy_info_for cTol1 0 (gScale (5/4)) = ⟨0, 5, (1, 1), (1, 1)⟩ := by
      rw [lossy_cTol1 (5/4)]
      norm_num [Int.toNat_ofNat]
    have e2 : lossy_info_for cTol1 0 (gScale (7/4)) = ⟨0, 5, (2, 2), (1, 1)⟩ := by
      rw [lossy_cTol1 (7/4)]
      norm_num [Int.toNat_ofNat]
      decide
    rw [e1, e2]
    decide

/-- C2 counterexample: a batch of a 3x3 glyph followed by a glyph 100
pixels wide fails with `GlyphTooLarge`, but the 3x3 glyph placed by the
earlier iteration stays in the cache: the error return is NOT free of
visible mutation (the cache no longer equals its prior — empty —
configuration). -/
theorem C2_counterexample :
    (cache_glyphs c8x8 [mkGlyph 1 3 3, mkGlyph 2 100 1]).1 = .err .GlyphTooLarge ∧
    (cache_glyphs c8x8 [mkGlyph 1 3 3, mkGlyph 2 100 1]).2.1.rows.length = 1 ∧
    c8x8.rows.length = 0 := by
  refine ⟨rfl, rfl, rfl⟩

/-- The `'per_glyph` loop fails immediately with `GlyphTooLarge` on an
uncached glyph whose aligned dimensions reach the atlas dimensions,
leaving the pass state untouched. -/
theorem perGlyph_head_tooLarge (fromEmpty : Bool) (s : PassSt) (g : PGlyph)
    (k : LossyGlyphInfo) (rest : List (PGlyph × LossyGlyphInfo))
    (habs : alookupG s.c.all_glyphs k = none)
    (hdim : s.c.width ≤ (glyphDims s.c g).2.1 ∨ s.c.height ≤ (glyphDims s.c g).2.2) :
    perGlyph fromEmpty s ((g, k) :: rest) = .tooLarge s := by
  simp [perGlyph, perGlyphStep, habs, hdim]

/-- A batch holding a single uncached glyph reduces `cachePass` to the
placement loop on just that glyph. -/
theorem cachePass_single_uncached (c : Cache) (g : PGlyph) (bb : RectI)
    (hsome : g.pixel_bounding_box = some bb)
    (habs : alookupG c.all_glyphs (lossy_info_for c 0 g) = none) :
    cachePass c [g] =
      perGlyph c.all_glyphs.isEmpty
        ⟨c, [], [], []⟩ [(g, lossy_info_for c 0 g)] := by
  simp [cachePass, partitionGlyphs, hsome, habs, sortByHeight, insertSorted]

/-- C2 (amended, scenario part): a batch consisting of one glyph whose
lossy key is absent and whose aligned dimensions reach the atlas
dimensions in both axes returns `GlyphTooLarge` and leaves the cache
state entirely unchanged (no rows, bands, index entries or LRU order
change, and no uploads happen). -/
theorem C2_single_too_large (c : Cache) (g : PGlyph)
    (hbb : g.pixel_bounding_box.isSome = true)
    (habs : alookupG c.all_glyphs (lossy_info_for c 0 g) = none)
    (hw : c.width ≤ (glyphDims c g).2.1)
    (hh : c.height ≤ (glyphDims c g).2.2) :
    cache_glyphs c [g] = (.err .GlyphTooLarge, c, []) := by
  obtain ⟨bb, hsome⟩ := Option.isSome_iff_exists.mp hbb
  have hpass : cachePass c [g] = .tooLarge ⟨c, [], [], []⟩ := by
    rw [cachePass_single_uncached c g bb hsome habs]
    exact perGlyph_head_tooLarge _ _ _ _ _ habs (Or.inl hw)
  simp [cache_glyphs, hpass]

/-- C2 witness: a 100x100 glyph on the empty 8x8 atlas. -/
theorem C2_witness :
    cache_glyphs c8x8 [mkGlyph 2 100 100] = (.err .GlyphTooLarge, c8x8, []) :=
  C2_single_too_large c8x8 (mkGlyph 2 100 100) rfl rfl (by decide) (by decide)

/-- The eviction loop of a pass that runs from an empty cache never
signals a retry (it fails with `NoRoomForWholeQueue` instead). -/
theorem evictLoop_fromEmpty_no_retry (ah : Nat) (s0 : PassSt) :
    ∀ (rows : List (Nat × Row)) evs ag sefs ssfe s',
      evictLoop true ah s0 evs ag sefs ssfe rows ≠ .retrySig s' := by
  intro rows
  induction rows with
  | nil => intro evs ag sefs ssfe s'; simp [evictLoop]
  | cons hd tl ih =>
    intro evs ag sefs ssfe s'
    obtain ⟨top, row⟩ := hd
    rw [evictLoop]
    dsimp only
    split
    · split
      · simp
      · simp_all
    · split
      · simp
      · exact ih _ _ _ _ _

/-- `carveAndPlace` never exits with a retry signal. -/
theorem carveAndPlace_no_retry (s1 : PassSt) (gap : Nat × Nat)
    (uw uh aw ah : Nat) (g : PGlyph) (k : LossyGlyphInfo) :
    ∀ s', carveAndPlace s1 gap uw uh aw ah g k ≠ .inr (.retrySig s') := by
  intro s'
  rw [carveAndPlace]
  split <;> simp

/-- One step of the placement loop of a pass that runs from an empty
cache never signals a retry. -/
theorem perGlyphStep_fromEmpty_no_retry (s : PassSt) (g : PGlyph)
    (k : LossyGlyphInfo) :
    ∀ s', perGlyphStep true s g k ≠ .inr (.retrySig s') := by
  intro s'
  rw [perGlyphStep]
  dsimp only
  split
  · simp
  · split
    · simp
    · split
      · split
        · simp
        · simp
      · split
        · exact carveAndPlace_no_retry _ _ _ _ _ _ _ _ _
        · split
          · exact carveAndPlace_no_retry _ _ _ _ _ _ _ _ _
          · simp
          · simp
          · rename_i s1 heq
            exact absurd heq (evictLoop_fromEmpty_no_retry _ _ _ _ _ _ _ _)

/-- The placement loop of a pass that runs from an empty cache never
signals a retry. -/
theorem perGlyph_fromEmpty_no_retry :
    ∀ (l : List (PGlyph × LossyGlyphInfo)) (s : PassSt) s',
      perGlyph true s l ≠ .retrySig s' := by
  intro l
  induction l with
  | nil => intro s s'; simp [perGlyph]
  | cons hd tl ih =>
    intro s s'
    obtain ⟨g, k⟩ := hd
    rw [perGlyph]
    rcases h : perGlyphStep true s g k with s1 | out
    · exact ih _ _
    · intro hout
      dsimp only at hout
      subst hout
      exact perGlyphStep_fromEmpty_no_retry s g k s' h

/-- A `PassOut` that is not a retry signal reports `isRetry = false`. -/
theorem isRetry_false_of_no_retry (o : PassOut) (h : ∀ s', o ≠ .retrySig s') :
    o.isRetry = false := by
  cases o <;> simp [PassOut.isRetry]
  exact h _ rfl

/-- A retrying `PassOut` is `retrySig` of its own state. -/
theorem eq_retrySig_of_isRetry (o : PassOut) (h : o.isRetry = true) :
    o = .retrySig o.st := by
  cases o <;> simp_all [PassOut.isRetry, PassOut.st]

/-- A `NoRoomForWholeQueue` `PassOut` is `noRoom` of its own state. -/
theorem eq_noRoom_of_isNoRoom (o : PassOut) (h : o.isNoRoom = true) :
    o = .noRoom o.st := by
  cases o <;> simp_all [PassOut.isNoRoom, PassOut.st]

/-- A successful `PassOut` is `ok` of its own state. -/
theorem eq_ok_of_isOk (o : PassOut) (h : o.isOk = true) :
    o = .ok o.st := by
  cases o <;> simp_all [PassOut.isOk, PassOut.st]

/-- C4: `clear` drops every row, resets the ledger to one full-atlas free
band and empties the glyph index; if the incremental pass signals a
retry, `cache_glyphs` clears the cache and re-runs the whole algorithm
exactly once, returning `Reordering` instead of `Adding` when that re-run
succeeds; and a pass whose cache starts with an empty glyph index never
signals a retry, so a failing from-scratch run returns
`NoRoomForWholeQueue` directly with no further retry. -/
theorem C4_retry_semantics (c : Cache) (gs : List PGlyph) :
    ((clearCache c).rows = [] ∧ (clearCache c).space_end_for_start = [(0, c.height)] ∧
      (clearCache c).all_glyphs = [])
    ∧ ((cachePass c gs).isRetry = true →
        cache_glyphs c gs =
          (match cachePass (clearCache (cachePass c gs).st.c) gs with
           | .ok s2 => (.ok .Reordering, s2.c, s2.draw_and_upload)
           | .tooLarge s2 => (.err .GlyphTooLarge, s2.c, [])
           | .noRoom s2 => (.err .NoRoomForWholeQueue, s2.c, [])
           | .panicked s2 => (.panicked, s2.c, [])
           | .retrySig s2 => (.panicked, s2.c, [])))
    ∧ (c.all_glyphs = [] → (cachePass c gs).isRetry = false)
    ∧ (c.all_glyphs = [] → (cachePass c gs).isNoRoom = true →
        cache_glyphs c gs = (.err .NoRoomForWholeQueue, (cachePass c gs).st.c, []))
    ∧ ((cachePass c gs).isRetry = true →
        (cachePass (clearCache (cachePass c gs).st.c) gs).isOk = true →
        (cache_glyphs c gs).1 = .ok .Reordering) := by
  have hfe : c.all_glyphs = [] → (cachePass c gs).isRetry = false := by
    intro h
    apply isRetry_false_of_no_retry
    intro s'
    have : c.all_glyphs.isEmpty = true := by rw [h]; rfl
    rw [cachePass, this]
    exact perGlyph_fromEmpty_no_retry _ _ _
  refine ⟨⟨rfl, rfl, rfl⟩, ?_, hfe, ?_, ?_⟩
  · intro hr
    rcases h : cachePass c gs with s | s | s | s | s <;>
      simp_all [PassOut.isRetry, PassOut.st, cache_glyphs]
  · intro he hnr
    rcases h : cachePass c gs with s | s | s | s | s <;>
      simp_all [PassOut.isNoRoom, PassOut.st, cache_glyphs]
  · intro hr hok
    rcases h : cachePass c gs with s | s | s | s | s <;>
      simp_all [PassOut.isRetry, PassOut.st, cache_glyphs]
    rcases h2 : cachePass (clearCache s.c) gs with s2 | s2 | s2 | s2 | s2 <;>
      simp_all [PassOut.isOk]

/-- C4 witness: on the cJ cache (one 7x7 glyph resident), the batch
`[1x7, 6x6]` places the 1x7 glyph into the resident row, blocking
eviction and signalling a retry, whose from-scratch re-run succeeds with
`Reordering`; from the empty 8x8 cache, `[7x7, 6x6]` cannot fit and the
pass fails with `NoRoomForWholeQueue` and no retry. -/
theorem C4_witness :
    (cache_glyphs cJ [mkGlyph 1 1 7, mkGlyph 2 6 6]).1 = .ok .Reordering ∧
    (cachePass c8x8 [mkGlyph 1 7 7, mkGlyph 2 6 6]).isRetry = false ∧
    (cache_glyphs c8x8 [mkGlyph 1 7 7, mkGlyph 2 6 6]).1 = .err .NoRoomForWholeQueue := by
  refine ⟨(C4_retry_semantics cJ _).2.2.2.2 rfl rfl,
    (C4_retry_semantics c8x8 _).2.2.1 rfl, ?_⟩
  exact congrArg Prod.fst ((C4_retry_semantics c8x8 [mkGlyph 1 7 7, mkGlyph 2 6 6]).2.2.2.1 rfl rfl)

/-- C6 counterexample: from an empty 8x8 atlas, the batch
`[7x7, 6x6, 100x1]` contains a glyph whose aligned width 100 exceeds the
atlas width, yet the call fails with `NoRoomForWholeQueue` (raised while
processing the 6x6 request, which sorts earlier because it is taller),
not with `GlyphTooLarge`. -/
theorem C6_counterexample :
    c8x8.width ≤ (glyphDims c8x8 (mkGlyph 3 100 1)).2.1 ∧
    (cache_glyphs c8x8 [mkGlyph 1 7 7, mkGlyph 2 6 6, mkGlyph 3 100 1]).1 =
      .err .NoRoomForWholeQueue := by
  refine ⟨by decide, rfl⟩

/-! ### C5: in-use protection (ghost trace reasoning) -/

/-- Membership after a `HashSet::insert`. -/
theorem contains_insertIfAbsent (S : List Nat) (k x : Nat) :
    (insertIfAbsent S k).contains x = (S.contains x || x == k) := by
  by_cases h : S.contains k
  · rw [insertIfAbsent, if_pos h]
    by_cases hx : x = k
    · subst hx; simp_all
    · simp [hx]
  · rw [insertIfAbsent, if_neg h]
    by_cases hx : x = k
    · subst hx; simp
    · simp [hx]

/-- Splitting a valid trace. -/
theorem validTrace_append (a : List TraceEv) :
    ∀ (S : List Nat) (b : List TraceEv),
      ValidTrace S (a ++ b) ↔ (ValidTrace S a ∧ ValidTrace (trackInUse S a) b) := by
  induction a with
  | nil => intro S b; simp [ValidTrace, trackInUse]
  | cons e rest ih =>
    intro S b
    cases e with
    | touched t => simpa [ValidTrace, trackInUse] using ih _ b
    | evicted t =>
      simp only [List.cons_append, ValidTrace, trackInUse, List.append_eq,
        ih _ b, and_assoc]

/-- The tracked in-use set only grows along a trace. -/
theorem trackInUse_contains_mono (evs : List TraceEv) :
    ∀ (S : List Nat) (t : Nat), S.contains t = true →
      (trackInUse S evs).contains t = true := by
  induction evs with
  | nil => intro S t h; exact h
  | cons e rest ih =>
    intro S t h
    cases e with
    | touched k =>
      exact ih _ _ (by rw [contains_insertIfAbsent, h, Bool.true_or])
    | evicted k => exact ih _ _ h

/-- No valid trace evicts a row already in the tracked in-use set. -/
theorem no_evict_of_contains (evs : List TraceEv) :
    ∀ (S : List Nat) (t : Nat), ValidTrace S evs → S.contains t = true →
      ∀ j, evs.get? j ≠ some (.evicted t) := by
  induction evs with
  | nil => intro S t _ _ j; simp
  | cons e rest ih =>
    intro S t hv ht j
    cases e with
    | touched k =>
      cases j with
      | zero => simp
      | succ j' =>
        exact ih _ _ hv (by rw [contains_insertIfAbsent, ht, Bool.true_or]) j'
    | evicted k =>
      cases j with
      | zero =>
        intro h
        have hk : k = t := by simpa using h
        subst hk
        have h1 : S.contains k = false := hv.1
        rw [ht] at h1
        exact absurd h1 (by simp)
      | succ j' => exact ih _ _ hv.2 ht j'

/-- In a valid trace, a `touched` event is never followed by an `evicted`
event for the same row. -/
theorem touched_no_later_evict (evs : List TraceEv) :
    ∀ (S : List Nat) (i j t), ValidTrace S evs → i < j →
      evs.get? i = some (.touched t) → evs.get? j ≠ some (.evicted t) := by
  induction evs with
  | nil => intro S i j t _ _ hi; simp at hi
  | cons e rest ih =>
    intro S i j t hv hij hi
    cases i with
    | zero =>
      have he : e = .touched t := by simpa using hi
      subst he
      obtain ⟨j', rfl⟩ : ∃ j', j = j' + 1 := ⟨j - 1, by omega⟩
      simp only [List.get?_cons_succ]
      exact no_evict_of_contains rest (insertIfAbsent S t) t hv
        (by rw [contains_insertIfAbsent]; simp) j'
    | succ i' =>
      obtain ⟨j', rfl⟩ : ∃ j', j = j' + 1 := ⟨j - 1, by omega⟩
      simp only [List.get?_cons_succ] at hi ⊢
      cases e with
      | touched k => exact ih _ i' j' t hv (by omega) hi
      | evicted k => exact ih _ i' j' t hv.2 (by omega) hi

/-- Tracking distributes over trace concatenation. -/
theorem trackInUse_append (a : List TraceEv) :
    ∀ (S : List Nat) (b : List TraceEv),
      trackInUse S (a ++ b) = trackInUse (trackInUse S a) b := by
  induction a with
  | nil => intro S b; rfl
  | cons e rest ih =>
    intro S b
    cases e <;> simp only [List.cons_append, trackInUse] <;> exact ih _ b

/-- A touched-only trace is always valid. -/
theorem validTrace_touchedList (l : List Nat) :
    ∀ S, ValidTrace S (l.map .touched) := by
  induction l with
  | nil => intro S; trivial
  | cons k rest ih => intro S; exact ih _

/-- Tracking a touched-only trace folds `insertIfAbsent`. -/
theorem trackInUse_touchedList (l : List Nat) :
    ∀ S, trackInUse S (l.map .touched) = l.foldl insertIfAbsent S := by
  induction l with
  | nil => intro S; rfl
  | cons k rest ih => intro S; exact ih _

/-- Membership in a fold of `HashSet::insert`. -/
theorem contains_foldl_insertIfAbsent (l : List Nat) :
    ∀ (S : List Nat) (x : Nat),
      (l.foldl insertIfAbsent S).contains x = (S.contains x || l.contains x) := by
  induction l with
  | nil => intro S x; simp
  | cons k rest ih =>
    intro S x
    rw [List.foldl_cons, ih, contains_insertIfAbsent]
    by_cases h : x = k
    · subst h; simp
    · have hb : (x == k) = false := by simpa using h
      simp [h, hb]

/-- `placeGlyph` preserves trace well-formedness (it appends one
`touched` event and inserts the same row into the in-use set). -/
theorem placeGlyph_traceOK {s : PassSt} {rt uw uh aw ah : Nat} {g : PGlyph}
    {k : LossyGlyphInfo} {s1 : PassSt}
    (h : placeGlyph s rt uw uh aw ah g k = some s1) (ht : TraceOK s) :
    TraceOK s1 := by
  rw [placeGlyph] at h
  rcases hr : rowsGet s.c.rows rt with _ | row
  · rw [hr] at h; exact absurd h (by simp)
  · rw [hr] at h
    have hs1 : s1.events = s.events ++ [.touched rt] ∧
        s1.in_use_rows = insertIfAbsent s.in_use_rows rt := by
      cases h.symm; exact ⟨rfl, rfl⟩
    constructor
    · rw [hs1.1, validTrace_append]
      exact ⟨ht.1, trivial⟩
    · intro x
      rw [hs1.1, hs1.2, trackInUse_append, contains_insertIfAbsent]
      show (insertIfAbsent (trackInUse [] s.events) rt).contains x = _
      rw [contains_insertIfAbsent, ht.2 x]

/-- The eviction loop preserves trace well-formedness: every event it
appends is an eviction of a row outside the (unchanged) in-use set. -/
theorem evictLoop_traceOK (fe : Bool) (ah : Nat) (s0 : PassSt) :
    ∀ (rows : List (Nat × Row)) evs ag sefs ssfe,
      ValidTrace [] evs →
      (∀ x, (trackInUse [] evs).contains x = s0.in_use_rows.contains x) →
      TraceOK (evictLoop fe ah s0 evs ag sefs ssfe rows).st := by
  intro rows
  induction rows with
  | nil => intro evs ag sefs ssfe h1 h2; exact ⟨h1, h2⟩
  | cons hd tl ih =>
    intro evs ag sefs ssfe h1 h2
    obtain ⟨top, row⟩ := hd
    rw [evictLoop]
    dsimp only
    split
    · split
      · exact ⟨h1, h2⟩
      · exact ⟨h1, h2⟩
    · rename_i hnotin
      have hc : s0.in_use_rows.contains top = false := by
        revert hnotin
        cases s0.in_use_rows.contains top <;> simp
      have h1' : ValidTrace [] (evs ++ [TraceEv.evicted top]) := by
        rw [validTrace_append]
        refine ⟨h1, ?_, trivial⟩
        rw [h2 top, hc]
      have h2' : ∀ x, (trackInUse [] (evs ++ [TraceEv.evicted top])).contains x =
          s0.in_use_rows.contains x := by
        intro x
        rw [trackInUse_append]
        exact h2 x
      split
      · exact ⟨h1', h2'⟩
      · exact ih _ _ _ _ h1' h2'

/-- `carveAndPlace` preserves trace well-formedness. -/
theorem carveAndPlace_traceOK {s1 : PassSt} {gap : Nat × Nat}
    {uw uh aw ah : Nat} {g : PGlyph} {k : LossyGlyphInfo}
    (ht : TraceOK s1) :
    ∀ r, carveAndPlace s1 gap uw uh aw ah g k = r →
      (match r with | .inl s3 => TraceOK s3 | .inr out => TraceOK out.st) := by
  intro r hr
  rw [carveAndPlace] at hr
  rcases hp : placeGlyph { s1 with c := carveRow s1.c ah gap } gap.1 uw uh aw ah g k
    with _ | s3
  · rw [hp] at hr
    cases hr.symm
    exact ht
  · rw [hp] at hr
    cases hr.symm
    exact placeGlyph_traceOK hp ⟨ht.1, ht.2⟩

/-- One step of the placement loop preserves trace well-formedness. -/
theorem perGlyphStep_traceOK {fe : Bool} {s : PassSt} {g : PGlyph}
    {k : LossyGlyphInfo} (ht : TraceOK s) :
    ∀ r, perGlyphStep fe s g k = r →
      (match r with | .inl s1 => TraceOK s1 | .inr out => TraceOK out.st) := by
  intro r hr
  rw [perGlyphStep] at hr
  dsimp only at hr
  split at hr
  · cases hr.symm; exact ht
  · split at hr
    · cases hr.symm; exact ht
    · split at hr
      · rename_i rt _
        rcases hp : placeGlyph s rt (glyphDims s.c g).1.1 (glyphDims s.c g).1.2
            (glyphDims s.c g).2.1 (glyphDims s.c g).2.2 g k with _ | s1
        · rw [hp] at hr; cases hr.symm; exact ht
        · rw [hp] at hr; cases hr.symm; exact placeGlyph_traceOK hp ht
      · split at hr
        · exact carveAndPlace_traceOK ht _ hr
        · rename_i hev
          have hev' := evictLoop_traceOK fe (glyphDims s.c g).2.2 s
            s.c.rows s.events s.c.all_glyphs s.c.space_end_for_start
            s.c.space_start_for_end ht.1 ht.2
          split at hr
          · rename_i gap s1 heq
            rw [heq] at hev'
            exact carveAndPlace_traceOK hev' _ hr
          · rename_i s1 heq
            rw [heq] at hev'
            cases hr.symm
            exact hev'
          · rename_i s1 heq
            rw [heq] at hev'
            cases hr.symm
            exact hev'
          · rename_i s1 heq
            rw [heq] at hev'
            cases hr.symm
            exact hev'

/-- The placement loop preserves trace well-formedness. -/
theorem perGlyph_traceOK (fe : Bool) :
    ∀ (l : List (PGlyph × LossyGlyphInfo)) (s : PassSt), TraceOK s →
      TraceOK (perGlyph fe s l).st := by
  intro l
  induction l with
  | nil => intro s ht; exact ht
  | cons hd tl ih =>
    intro s ht
    obtain ⟨g, k⟩ := hd
    rw [perGlyph]
    rcases hstep : perGlyphStep fe s g k with s1 | out
    · exact ih _ (by simpa using perGlyphStep_traceOK ht _ hstep)
    · exact by simpa using perGlyphStep_traceOK ht _ hstep

/-- Every `cache_glyphs` pass has a valid ghost trace. -/
theorem cachePass_traceOK (c : Cache) (gs : List PGlyph) :
    TraceOK (cachePass c gs).st := by
  rw [cachePass]
  apply perGlyph_traceOK
  constructor
  · exact validTrace_touchedList _ _
  · intro x
    rw [trackInUse_touchedList, contains_foldl_insertIfAbsent]
    rfl

/-- C5: within one `cache_glyphs` pass (the retry pass is itself such a
pass on the cleared cache), a row recorded as touched by the batch —
either because an already-cached request lives in it or because a request
was placed into it earlier in the pass — is never evicted later in the
same pass. -/
theorem C5_in_use_protection (c : Cache) (gs : List PGlyph) (i j t : Nat)
    (hij : i < j)
    (hi : ((cachePass c gs).st.events).get? i = some (.touched t)) :
    ((cachePass c gs).st.events).get? j ≠ some (.evicted t) :=
  touched_no_later_evict _ [] i j t (cachePass_traceOK c gs).1 hij hi

/-- C5 witness: on an 8x8 cache holding one stale 6x4 row at top 0, the
batch of two fresh 6x4 glyphs places the first into a carved row at top 4
(touched) and then evicts the stale row 0 for the second; the trace shows
`touched 4` before `evicted 0`, and row 4 is provably not evicted at that
point. -/
theorem C5_witness :
    ((cachePass cJ2 [mkGlyph 1 6 4, mkGlyph 2 6 4]).st.events).get? 0 =
      some (.touched 4) ∧
    ((cachePass cJ2 [mkGlyph 1 6 4, mkGlyph 2 6 4]).st.events).get? 1 ≠
      some (.evicted 4) :=
  ⟨rfl, C5_in_use_protection cJ2 [mkGlyph 1 6 4, mkGlyph 2 6 4] 0 1 4 (by decide) rfl⟩

/-! ### C9: line wrapping moves the finished word wholesale -/

/-- Setting the last origin preserves the layout length. -/
theorem setLastOrigin_length (l : List WordPos) (o : ℚ × ℚ) :
    (setLastOrigin l o).length = l.length := by
  rw [setLastOrigin]
  rcases h : l.getLast? with _ | w
  · rfl
  · have hne : l ≠ [] := by rintro rfl; simp at h
    have hpos : 0 < l.length := List.length_pos.mpr hne
    simp [List.length_dropLast]
    omega

/-- C9 part (a): closing a word at a non-newline whitespace character
when the line (including the just-closed word) has reached `max_width`
and the word is not the first on its line moves the word wholesale to a
new line — `y` advanced by one line height, `x` reset to the line start,
text and size untouched — and realigns the prior line excluding the
moved word (`realign` over the first `layout.length` entries only). -/
theorem C9_wrap_step (P : LayParams) (st : LayoutSt) (i : Nat) (c : Char)
    (beg en : Nat) (ls : ℚ)
    (hb : st.current_word_boundaries = some (beg, en))
    (hws : c.isWhitespace = true)
    (hnn : ¬(c = '\n'))
    (hls : line_size (st.layout ++ [⟨sliceChars P.text beg en, st.origin, st.size⟩])
      st.beginning_line_word_index none = .ok ls)
    (hwrap : (P.max_width : ℚ) ≤ ls)
    (hwords : st.beginning_line_word_index < st.layout.length) :
    computeStep P st (i, c) =
      (realign P.align P.max_width
          (setLastOrigin (st.layout ++ [⟨sliceChars P.text beg en, st.origin, st.size⟩])
            (P.start.1, st.origin.2 + (P.met.ascent - P.met.descent) + P.met.line_gap))
          st.beginning_line_word_index (some (st.layout.length - 1))).map
        (fun layout3 =>
          { layout := layout3
            beginning_line_word_index := layout3.length - 1
            current_word_boundaries := none
            origin := (P.start.1 + st.size.1 + 0 + P.met.advance c +
                (match st.last_char with
                 | some prev_char => P.met.kern prev_char c
                 | none => 0),
              st.origin.2 + (P.met.ascent - P.met.descent) + P.met.line_gap)
            size := (0, st.size.2)
            last_char := some c }) := by
  have hcond : ((P.max_width : ℚ) ≤ ls ∧
      0 < st.layout.length - st.beginning_line_word_index) := ⟨hwrap, by omega⟩
  have hlen2 : (setLastOrigin
      (st.layout ++ [⟨sliceChars P.text beg en, st.origin, st.size⟩])
      (P.start.1, st.origin.2 + (P.met.ascent - P.met.descent) +
        P.met.line_gap)).length - 2 = st.layout.length - 1 := by
    rw [setLastOrigin_length, List.length_append]
    simp
  rw [computeStep, hb]
  simp only [hws]
  rw [hls]
  simp only [bind, Except.bind]
  rw [if_pos hcond, hlen2]
  rcases hr : realign P.align P.max_width
      (setLastOrigin (st.layout ++ [⟨sliceChars P.text beg en, st.origin, st.size⟩])
        (P.start.1, st.origin.2 + (P.met.ascent - P.met.descent) + P.met.line_gap))
      st.beginning_line_word_index (some (st.layout.length - 1)) with e | l3
  · rw [hr]
    simp [Except.map]
  · rw [hr]
    simp only [Except.map]
    rw [if_neg hnn]
    rfl

/-- C9 part (b): a word that is alone on its line (no earlier word on the
line) is never moved — even when it overflows `max_width` the cursor
stays on the same line (`y` unchanged) and the word keeps the origin it
was laid out at; it is never split. -/
theorem C9_alone_no_wrap (P : LayParams) (st : LayoutSt) (i : Nat) (c : Char)
    (beg en : Nat)
    (hb : st.current_word_boundaries = some (beg, en))
    (hws : c.isWhitespace = true)
    (hnn : ¬(c = '\n'))
    (hwords : st.beginning_line_word_index = st.layout.length) :
    computeStep P st (i, c) =
      .ok { layout := st.layout ++ [⟨sliceChars P.text beg en, st.origin, st.size⟩]
            beginning_line_word_index := st.beginning_line_word_index
            current_word_boundaries := none
            origin := (st.origin.1 + st.size.1 + P.met.advance c +
                (match st.last_char with
                 | some prev_char => P.met.kern prev_char c
                 | none => 0),
              st.origin.2)
            size := (0, st.size.2)
            last_char := some c } := by
  have hls : line_size (st.layout ++ [⟨sliceChars P.text beg en, st.origin, st.size⟩])
      st.beginning_line_word_index none =
      .ok (st.size.1 + st.origin.1 - st.origin.1) := by
    rw [line_size, hwords]
    rw [List.get?_concat_length]
    simp
  have hcond : ¬((P.max_width : ℚ) ≤ st.size.1 + st.origin.1 - st.origin.1 ∧
      0 < st.layout.length - st.beginning_line_word_index) := by
    rintro ⟨-, h⟩
    omega
  rw [computeStep, hb]
  simp only [hws]
  rw [hls]
  simp only [bind, Except.bind]
  rw [if_neg hcond, if_neg hnn]
  rfl

/-- Shifting origins preserves the word contents (auxiliary, over
`enumFrom`). -/
theorem wordsOf_shiftRange_aux (a b : Nat) (o : ℚ) (l : List WordPos) :
    ∀ n, ((List.enumFrom n l).map fun iw =>
        if a ≤ iw.1 ∧ iw.1 < b then
          { iw.2 with origin := (iw.2.origin.1 + o, iw.2.origin.2) }
        else iw.2).map (·.word) = l.map (·.word) := by
  induction l with
  | nil => intro n; rfl
  | cons w rest ih =>
    intro n
    simp only [List.enumFrom_cons, List.map_cons]
    rw [ih]
    congr 1
    split <;> rfl

/-- Shifting origins preserves the word contents. -/
theorem wordsOf_shiftRange (l : List WordPos) (a b : Nat) (o : ℚ) :
    wordsOf (shiftRange l a b o) = wordsOf l := by
  rw [wordsOf, wordsOf, shiftRange, List.map_map]
  have h := wordsOf_shiftRange_aux a b o l 0
  rw [List.map_map] at h
  simpa [List.enum] using h

/-- Setting the last origin preserves the word contents. -/
theorem wordsOf_setLastOrigin (l : List WordPos) (o : ℚ × ℚ) :
    wordsOf (setLastOrigin l o) = wordsOf l := by
  rw [setLastOrigin]
  rcases h : l.getLast? with _ | w
  · rfl
  · have hne : l ≠ [] := by rintro rfl; simp at h
    have hw : w = l.getLast hne := by
      rw [List.getLast?_eq_getLast _ hne] at h
      exact (Option.some_injective _ h).symm
    conv_rhs => rw [← List.dropLast_concat_getLast hne]
    rw [wordsOf, wordsOf, List.map_append, List.map_append]
    congr 1
    rw [hw]
    rfl

/-- A successful `realign` preserves the word contents. -/
theorem realign_wordsOf {a : Int} {mw : Nat} {l : List WordPos} {first : Nat}
    {last? : Option Nat} {l' : List WordPos}
    (h : realign a mw l first last? = .ok l') : wordsOf l' = wordsOf l := by
  rw [realign.eq_def] at h
  split at h
  · cases h; rfl
  · split at h
    · exact absurd h (by simp)
    · dsimp only at h
      split at h
      · exact absurd h (by simp)
      · split at h
        · cases h
          exact wordsOf_shiftRange _ _ _ _
        · exact absurd h (by simp)

/-- Nonemptiness of words transfers along word-content equality. -/
theorem words_ne_nil_of_wordsOf_eq {l l' : List WordPos}
    (h : wordsOf l' = wordsOf l) (hl : ∀ w ∈ l, w.word ≠ []) :
    ∀ w ∈ l', w.word ≠ [] := by
  intro w hw
  have : w.word ∈ wordsOf l' := List.mem_map_of_mem _ hw
  rw [h] at this
  obtain ⟨v, hv, hvw⟩ := List.mem_map.mp this
  rw [← hvw]
  exact hl v hv

/-- A slice with nonempty in-range bounds is nonempty. -/
theorem sliceChars_ne_nil {text : List Char} {b e : Nat}
    (hbe : b < e) (hbl : b < text.length) : sliceChars text b e ≠ [] := by
  rw [sliceChars]
  intro h
  have hlen := congrArg List.length h
  simp only [List.length_take, List.length_drop, List.length_nil] at hlen
  omega

/-- One step of the layout loop preserves the word invariant. -/
theorem computeStep_BInv (P : LayParams) (n : Nat) (st st' : LayoutSt) (c : Char)
    (hinv : BInvAt P n st) (hn : n < P.text.length)
    (hstep : computeStep P st (n, c) = .ok st') : BInvAt P (n + 1) st' := by
  obtain ⟨hwords, hbnd⟩ := hinv
  rw [computeStep] at hstep
  dsimp only at hstep
  rcases hb : st.current_word_boundaries with _ | ⟨b, e⟩ <;> rw [hb] at hstep <;>
    cases hw : c.isWhitespace <;> rw [hw] at hstep <;> (try dsimp only at hstep)
  · -- none, not whitespace: open a new word at (n, n + 1)
    cases hstep
    refine ⟨by simpa using hwords, ?_⟩
    intro b' e' hbe
    simp at hbe
    omega
  · -- none, whitespace
    by_cases hnl : c = '\n'
    · rw [if_pos hnl] at hstep
      rcases hrl : realign P.align P.max_width st.layout st.beginning_line_word_index none
        with e2 | l4 <;> rw [hrl] at hstep
      · exact absurd hstep (by simp [bind, Except.bind])
      · simp only [bind, Except.bind] at hstep
        cases hstep
        exact ⟨words_ne_nil_of_wordsOf_eq (realign_wordsOf hrl) hwords,
          by intro b' e' hbe; simp at hbe⟩
    · rw [if_neg hnl] at hstep
      cases hstep
      exact ⟨hwords, by intro b' e' hbe; simp at hbe⟩
  · -- some, not whitespace: extend the word
    cases hstep
    refine ⟨by simpa using hwords, ?_⟩
    intro b' e' hbe
    simp at hbe
    obtain ⟨h1, h2⟩ := hbe
    have := hbnd b e hb
    omega
  · -- some, whitespace: close the word (and possibly wrap / newline)
    have hb' := hbnd b e hb
    have hl1 : ∀ w ∈ st.layout ++
        [({ word := sliceChars P.text b e, origin := st.origin, size := st.size } : WordPos)],
        w.word ≠ [] := by
      intro w hw'
      rcases List.mem_append.mp hw' with h | h
      · exact hwords w h
      · simp at h
        rw [h]
        exact sliceChars_ne_nil hb'.1 hb'.2.1
    rcases hls : line_size (st.layout ++
        [({ word := sliceChars P.text b e, origin := st.origin, size := st.size } : WordPos)])
        st.beginning_line_word_index none with e2 | ls <;> rw [hls] at hstep
    · exact absurd hstep (by simp [bind, Except.bind])
    · simp only [bind, Except.bind] at hstep
      split at hstep
      · -- wrap branch
        rcases hrl : realign P.align P.max_width
            (setLastOrigin (st.layout ++
              [({ word := sliceChars P.text b e, origin := st.origin, size := st.size } : WordPos)])
              (P.start.1, st.origin.2 + (P.met.ascent - P.met.descent) + P.met.line_gap))
            st.beginning_line_word_index
            (some ((setLastOrigin (st.layout ++
              [({ word := sliceChars P.text b e, origin := st.origin, size := st.size } : WordPos)])
              (P.start.1, st.origin.2 + (P.met.ascent - P.met.descent) + P.met.line_gap)).length - 2))
            with e2 | l3 <;> rw [hrl] at hstep
        · exact absurd hstep (by simp [bind, Except.bind])
        · simp only [bind, Except.bind] at hstep
          have hl3 : ∀ w ∈ l3, w.word ≠ [] :=
            words_ne_nil_of_wordsOf_eq
              ((realign_wordsOf hrl).trans (wordsOf_setLastOrigin _ _)) hl1
          by_cases hnl : c = '\n'
          · rw [if_pos hnl] at hstep
            rcases hrl2 : realign P.align P.max_width l3 (l3.length - 1) none
              with e2 | l4 <;> rw [hrl2] at hstep
            · exact absurd hstep (by simp [bind, Except.bind])
            · simp only [bind, Except.bind] at hstep
              cases hstep
              exact ⟨words_ne_nil_of_wordsOf_eq (realign_wordsOf hrl2) hl3,
                by intro b' e' hbe; simp at hbe⟩
          · rw [if_neg hnl] at hstep
            cases hstep
            exact ⟨hl3, by intro b' e' hbe; simp at hbe⟩
      · -- no wrap
        by_cases hnl : c = '\n'
        · rw [if_pos hnl] at hstep
          rcases hrl : realign P.align P.max_width (st.layout ++
              [({ word := sliceChars P.text b e, origin := st.origin, size := st.size } : WordPos)])
              st.beginning_line_word_index none with e2 | l4 <;> rw [hrl] at hstep
          · exact absurd hstep (by simp [bind, Except.bind])
          · simp only [bind, Except.bind] at hstep
            cases hstep
            exact ⟨words_ne_nil_of_wordsOf_eq (realign_wordsOf hrl) hl1,
              by intro b' e' hbe; simp at hbe⟩
        · rw [if_neg hnl] at hstep
          cases hstep
          exact ⟨hl1, by intro b' e' hbe; simp at hbe⟩

/-- The layout fold preserves the word invariant. -/
theorem foldSteps_BInv (P : LayParams) :
    ∀ (t' : List Char) (n : Nat) (st resSt : LayoutSt),
      BInvAt P n st → n + t'.length = P.text.length →
      (List.enumFrom n t').foldlM (computeStep P) st = .ok resSt →
      BInvAt P P.text.length resSt := by
  intro t'
  induction t' with
  | nil =>
    intro n st resSt hinv hlen hfold
    simp only [List.enumFrom, List.foldlM] at hfold
    cases hfold
    have : n = P.text.length := by simpa using hlen
    rwa [this] at hinv
  | cons ch rest ih =>
    intro n st resSt hinv hlen hfold
    simp only [List.enumFrom, List.foldlM_cons] at hfold
    rcases hstep : computeStep P st (n, ch) with e | st1 <;> rw [hstep] at hfold
    · exact absurd hfold (by simp [bind, Except.bind])
    · simp only [bind, Except.bind] at hfold
      exact ih (n + 1) st1 resSt
        (computeStep_BInv P n st st1 ch hinv (by simp at hlen; omega) hstep)
        (by simp at hlen ⊢; omega) hfold

/-- Core of the epilogue: it emits only words already in the flushed
layout. -/
theorem finishCore_words (P : LayParams) (originA : ℚ × ℚ) (begIdx : Nat)
    (layout1 : List WordPos) (l : List WordPos)
    (hl1 : ∀ w ∈ layout1, w.word ≠ [])
    (hfin : (match line_size layout1 begIdx none with
      | Except.error e => Except.error e
      | Except.ok ls =>
        if (P.max_width : ℚ) ≤ ls ∧ 2 ≤ layout1.length - begIdx then
          if layout1.length = 0 then Except.error LayErr.indexPanic
          else
            match realign P.align P.max_width (setLastOrigin layout1 originA)
                begIdx (some ((setLastOrigin layout1 originA).length - 2)) with
            | Except.error e => Except.error e
            | Except.ok layout3 => realign P.align P.max_width layout3 (layout3.length - 1) none
        else realign P.align P.max_width layout1 begIdx none) = Except.ok l) :
    ∀ w ∈ l, w.word ≠ [] := by
  split at hfin
  · exact absurd hfin (by simp)
  · split at hfin
    · split at hfin
      · exact absurd hfin (by simp)
      · split at hfin
        · exact absurd hfin (by simp)
        · rename_i l3 hrl
          exact words_ne_nil_of_wordsOf_eq
            ((realign_wordsOf hfin).trans
              ((realign_wordsOf hrl).trans (wordsOf_setLastOrigin _ _))) hl1
    · exact words_ne_nil_of_wordsOf_eq (realign_wordsOf hfin) hl1

/-- The epilogue emits only nonempty words. -/
theorem computeFinish_words (P : LayParams) (st : LayoutSt) (l : List WordPos)
    (hwords : ∀ w ∈ st.layout, w.word ≠ [])
    (hbnd : ∀ b e, st.current_word_boundaries = some (b, e) →
      b < e ∧ b < P.text.length)
    (hfin : computeFinish P st = .ok l) : ∀ w ∈ l, w.word ≠ [] := by
  rw [computeFinish] at hfin
  dsimp only at hfin
  rcases hb : st.current_word_boundaries with _ | ⟨b, e⟩ <;> rw [hb] at hfin <;>
    dsimp only at hfin
  · exact finishCore_words P _ _ _ l hwords hfin
  · have hb' := hbnd b e hb
    refine finishCore_words P _ _ _ l ?_ hfin
    intro w hw'
    rcases List.mem_append.mp hw' with h | h
    · exact hwords w h
    · simp at h
      rw [h]
      exact sliceChars_ne_nil hb'.1 hb'.2

/-- Every word a successful layout computation emits is nonempty. -/
theorem compute_words (P : LayParams) (l : List WordPos)
    (h : compute P = .ok l) : ∀ w ∈ l, w.word ≠ [] := by
  rw [compute] at h
  rcases hf : P.text.enum.foldlM (computeStep P) (initLayoutSt P) with e | stF <;>
    rw [hf] at h
  · exact absurd h (by simp [bind, Except.bind])
  · simp only [bind, Except.bind] at h
    have hinv : BInvAt P P.text.length stF := by
      refine foldSteps_BInv P P.text 0 (initLayoutSt P) stF ?_ (by simp) ?_
      · exact ⟨by simp [initLayoutSt], by simp [initLayoutSt]⟩
      · simpa [List.enum] using hf
    exact computeFinish_words P stF l hinv.1
      (fun b e hbe => ⟨(hinv.2 b e hbe).1, (hinv.2 b e hbe).2.1⟩) h

/-- C9: when a just-completed word makes the line reach `max_width` and it
is not the first word on its line, it moves wholesale to a new line (one
line height down, x reset to the line start, text and size untouched) and
the prior line is realigned excluding it; a word alone on its line never
wraps (it may overflow) and is never split; and a layout never contains
an empty word, so trailing whitespace produces no trailing empty
`WordPos`. -/
theorem C9_wrap_and_words :
    (∀ (P : LayParams) (st : LayoutSt) (i : Nat) (c : Char) (beg en : Nat) (ls : ℚ),
      st.current_word_boundaries = some (beg, en) → c.isWhitespace = true →
      ¬(c = '\n') →
      line_size (st.layout ++ [⟨sliceChars P.text beg en, st.origin, st.size⟩])
        st.beginning_line_word_index none = .ok ls →
      (P.max_width : ℚ) ≤ ls →
      st.beginning_line_word_index < st.layout.length →
      computeStep P st (i, c) =
        (realign P.align P.max_width
            (setLastOrigin (st.layout ++ [⟨sliceChars P.text beg en, st.origin, st.size⟩])
              (P.start.1, st.origin.2 + (P.met.ascent - P.met.descent) + P.met.line_gap))
            st.beginning_line_word_index (some (st.layout.length - 1))).map
          (fun layout3 =>
            { layout := layout3
              beginning_line_word_index := layout3.length - 1
              current_word_boundaries := none
              origin := (P.start.1 + st.size.1 + 0 + P.met.advance c +
                  (match st.last_char with
                   | some prev_char => P.met.kern prev_char c
                   | none => 0),
                st.origin.2 + (P.met.ascent - P.met.descent) + P.met.line_gap)
              size := (0, st.size.2)
              last_char := some c })) ∧
    (∀ (P : LayParams) (st : LayoutSt) (i : Nat) (c : Char) (beg en : Nat),
      st.current_word_boundaries = some (beg, en) → c.isWhitespace = true →
      ¬(c = '\n') →
      st.beginning_line_word_index = st.layout.length →
      computeStep P st (i, c) =
        .ok { layout := st.layout ++ [⟨sliceChars P.text beg en, st.origin, st.size⟩]
              beginning_line_word_index := st.beginning_line_word_index
              current_word_boundaries := none
              origin := (st.origin.1 + st.size.1 + P.met.advance c +
                  (match st.last_char with
                   | some prev_char => P.met.kern prev_char c
                   | none => 0),
                st.origin.2)
              size := (0, st.size.2)
              last_char := some c }) ∧
    (∀ (P : LayParams) (l : List WordPos), compute P = .ok l → ∀ w ∈ l, w.word ≠ []) :=
  ⟨fun P st i c beg en ls hb hws hnn hls hwrap hwords =>
      C9_wrap_step P st i c beg en ls hb hws hnn hls hwrap hwords,
   fun P st i c beg en hb hws hnn hwords =>
      C9_alone_no_wrap P st i c beg en hb hws hnn hwords,
   fun P l h => compute_words P l h⟩

/-- C9 witness: closing `bb` after `aa ` at width 35 wraps it to the next
line; a lone open word is flushed without wrapping; and the layout of
`a ` holds no empty word. -/
theorem C9_witness :
    (computeStep wP wSt (5, ' ') =
      (realign wP.align wP.max_width
          (setLastOrigin (wSt.layout ++ [⟨sliceChars wP.text 3 5, wSt.origin, wSt.size⟩])
            (wP.start.1, wSt.origin.2 + (wP.met.ascent - wP.met.descent) + wP.met.line_gap))
          wSt.beginning_line_word_index (some (wSt.layout.length - 1))).map
        (fun layout3 =>
          { layout := layout3
            beginning_line_word_index := layout3.length - 1
            current_word_boundaries := none
            origin := (wP.start.1 + wSt.size.1 + 0 + wP.met.advance ' ' +
                (match wSt.last_char with
                 | some prev_char => wP.met.kern prev_char ' '
                 | none => 0),
              wSt.origin.2 + (wP.met.ascent - wP.met.descent) + wP.met.line_gap)
            size := (0, wSt.size.2)
            last_char := some ' ' })) ∧
    (computeStep wP wSt2 (2, ' ') =
      .ok { layout := wSt2.layout ++ [⟨sliceChars wP.text 0 2, wSt2.origin, wSt2.size⟩]
            beginning_line_word_index := wSt2.beginning_line_word_index
            current_word_boundaries := none
            origin := (wSt2.origin.1 + wSt2.size.1 + wP.met.advance ' ' +
                (match wSt2.last_char with
                 | some prev_char => wP.met.kern prev_char ' '
                 | none => 0),
              wSt2.origin.2)
            size := (0, wSt2.size.2)
            last_char := some ' ' }) ∧
    (⟨['a'], (0, 0), (10, 10)⟩ : WordPos).word ≠ [] := by
  refine ⟨C9_wrap_and_words.1 wP wSt 5 ' ' 3 5 50 rfl rfl (by decide)
      (by with_unfolding_all rfl) (by with_unfolding_all decide) (by decide),
    C9_wrap_and_words.2.1 wP wSt2 2 ' ' 0 2 rfl rfl (by decide) rfl,
    C9_wrap_and_words.2.2 wP3 [⟨['a'], (0, 0), (10, 10)⟩]
      (by with_unfolding_all rfl) _ (by simp)⟩

/-! ### Generic association-list lemmas

`alookupN`, `alookupG` and `rowsGet` (and the matching removals and
insert-or-replace operations) are all instances of the same
find?/filter patterns; the lemmas are proved once generically. -/

section AssocLemmas

variable {κ ν : Type} [DecidableEq κ]

theorem glookup_of_mem_nodup {l : List (κ × ν)} {k : κ} {v : ν}
    (hm : (k, v) ∈ l) (hnd : (l.map (·.1)).Nodup) :
    (l.find? (fun kv => decide (kv.1 = k))).map (·.2) = some v := by
  induction l with
  | nil => cases hm
  | cons a l ih =>
    rcases List.mem_cons.mp hm with h | h
    · subst h
      simp [List.find?_cons]
    · have hk : a.1 ≠ k := by
        intro he
        have hmem : k ∈ l.map (·.1) := List.mem_map.mpr ⟨(k, v), h, rfl⟩
        rw [List.map_cons] at hnd
        exact (List.nodup_cons.mp hnd).1 (he ▸ hmem)
      rw [List.find?_cons]
      simp only [hk, decide_eq_true_eq, if_false]
      have := ih h (by rw [List.map_cons] at hnd; exact (List.nodup_cons.mp hnd).2)
      simpa [hk] using this

theorem gmem_of_lookup {l : List (κ × ν)} {k : κ} {v : ν}
    (h : (l.find? (fun kv => decide (kv.1 = k))).map (·.2) = some v) :
    (k, v) ∈ l := by
  induction l with
  | nil => simp [List.find?] at h
  | cons a l ih =>
    rw [List.find?_cons] at h
    rcases ha : decide (a.1 = k) with _ | _
    · rw [ha] at h
      exact List.mem_cons_of_mem _ (ih h)
    · rw [ha] at h
      simp only [cond_true, Option.map_some] at h
      have hk : a.1 = k := of_decide_eq_true ha
      have : a = (k, v) := by
        obtain ⟨a1, a2⟩ := a
        cases h
        simp_all
      exact this ▸ List.mem_cons_self _ _

theorem glookup_none_iff {l : List (κ × ν)} {k : κ} :
    (l.find? (fun kv => decide (kv.1 = k))).map (·.2) = none ↔
      k ∉ l.map (·.1) := by
  induction l with
  | nil => simp [List.find?]
  | cons a l ih =>
    rw [List.find?_cons]
    rcases ha : decide (a.1 = k) with _ | _
    · have hk : a.1 ≠ k := of_decide_eq_false ha
      simp only [cond_false, List.map_cons, List.mem_cons]
      rw [ih]
      constructor
      · rintro h (h1 | h2)
        · exact hk h1.symm
        · exact h h2
      · intro h h2
        exact h (Or.inr h2)
    · have hk : a.1 = k := of_decide_eq_true ha
      simp [hk]

theorem gremove_lookup_self (l : List (κ × ν)) (k : κ) :
    ((l.filter fun kv => decide (kv.1 ≠ k)).find?
      (fun kv => decide (kv.1 = k))).map (·.2) = none := by
  rw [glookup_none_iff]
  intro h
  obtain ⟨kv, hkv, hk⟩ := List.mem_map.mp h
  have := List.of_mem_filter hkv
  rw [hk] at this
  exact (of_decide_eq_true this) rfl

theorem gremove_lookup_other {l : List (κ × ν)} {k k' : κ} (h : k' ≠ k) :
    ((l.filter fun kv => decide (kv.1 ≠ k)).find?
      (fun kv => decide (kv.1 = k'))).map (·.2) =
    (l.find? (fun kv => decide (kv.1 = k'))).map (·.2) := by
  congr 1
  induction l with
  | nil => rfl
  | cons a l ih =>
    by_cases ha : a.1 = k
    · rw [List.filter_cons_of_neg (by simpa using ha), List.find?_cons]
      have : decide (a.1 = k') = false := by
        apply decide_eq_false
        rw [ha]
        exact fun he => h he.symm
      rw [this]
      simpa using ih
    · rw [List.filter_cons_of_pos (by simpa using ha), List.find?_cons, List.find?_cons]
      cases hp : decide (a.1 = k')
      · simpa [hp] using ih
      · simp [hp]

theorem gremove_sublist (l : List (κ × ν)) (k : κ) :
    List.Sublist (l.filter fun kv => decide (kv.1 ≠ k)) l :=
  List.filter_sublist _

theorem gremove_nodup {l : List (κ × ν)} {k : κ}
    (hnd : (l.map (·.1)).Nodup) :
    ((l.filter fun kv => decide (kv.1 ≠ k)).map (·.1)).Nodup :=
  List.Nodup.sublist (List.Sublist.map _ (gremove_sublist l k)) hnd

theorem gmem_remove {l : List (κ × ν)} {k : κ} {x : κ × ν} :
    x ∈ (l.filter fun kv => decide (kv.1 ≠ k)) ↔ x ∈ l ∧ x.1 ≠ k := by
  rw [List.mem_filter]
  simp

theorem gremove_eq_of_lookup_none {l : List (κ × ν)} {k : κ}
    (h : (l.find? (fun kv => decide (kv.1 = k))).map (·.2) = none) :
    (l.filter fun kv => decide (kv.1 ≠ k)) = l := by
  rw [glookup_none_iff] at h
  apply List.filter_eq_self.mpr
  intro kv hkv
  apply decide_eq_true
  intro he
  exact h (List.mem_map.mpr ⟨kv, hkv, he⟩)

theorem ginsert_nodup {l : List (κ × ν)} {k : κ} (v : ν)
    (hnd : (l.map (·.1)).Nodup) :
    (((l.filter fun kv => decide (kv.1 ≠ k)) ++ [(k, v)]).map (·.1)).Nodup := by
  rw [List.map_append, List.nodup_append]
  refine ⟨gremove_nodup hnd, by simp, ?_⟩
  intro a ha hb
  simp only [List.map_cons, List.map_nil, List.mem_singleton] at hb
  subst hb
  obtain ⟨kv, hkv, hk⟩ := List.mem_map.mp ha
  have hf := List.of_mem_filter hkv
  exact (of_decide_eq_true hf) hk

theorem gmem_insert {l : List (κ × ν)} {k : κ} {v : ν} {x : κ × ν} :
    x ∈ ((l.filter fun kv => decide (kv.1 ≠ k)) ++ [(k, v)]) ↔
      (x ∈ l ∧ x.1 ≠ k) ∨ x = (k, v) := by
  rw [List.mem_append, gmem_remove]
  simp

theorem gcountP_remove_of_lookup_some {l : List (κ × ν)} {k : κ} {v : ν}
    (hnd : (l.map (·.1)).Nodup)
    (h : (l.find? (fun kv => decide (kv.1 = k))).map (·.2) = some v)
    (p : κ × ν → Bool) :
    l.countP p = (l.filter fun kv => decide (kv.1 ≠ k)).countP p +
      (if p (k, v) then 1 else 0) := by
  induction l with
  | nil => simp [List.find?] at h
  | cons a l ih =>
    rw [List.find?_cons] at h
    rcases ha : decide (a.1 = k) with _ | _
    · rw [ha] at h
      have hk : a.1 ≠ k := of_decide_eq_false ha
      rw [List.filter_cons_of_pos (by simpa using hk), List.countP_cons, List.countP_cons,
        ih (by rw [List.map_cons] at hnd; exact (List.nodup_cons.mp hnd).2) h]
      omega
    · rw [ha] at h
      simp only [cond_true, Option.map_some] at h
      have hk : a.1 = k := of_decide_eq_true ha
      have hav : a = (k, v) := by
        obtain ⟨a1, a2⟩ := a
        cases h
        simp_all
      subst hav
      rw [List.filter_cons_of_neg (by simp), List.countP_cons]
      have hrest : (l.filter fun kv => decide (kv.1 ≠ k)) = l := by
        apply gremove_eq_of_lookup_none
        rw [glookup_none_iff]
        rw [List.map_cons] at hnd
        exact (List.nodup_cons.mp hnd).1
      rw [hrest]

theorem ginsert_lookup_self (l : List (κ × ν)) (k : κ) (v : ν) :
    (((l.filter fun kv => decide (kv.1 ≠ k)) ++ [(k, v)]).find?
      (fun kv => decide (kv.1 = k))).map (·.2) = some v := by
  induction l with
  | nil => simp [List.find?]
  | cons a l ih =>
    by_cases ha : a.1 = k
    · rw [List.filter_cons_of_neg (by simpa using ha)]
      exact ih
    · rw [List.filter_cons_of_pos (by simpa using ha), List.cons_append,
        List.find?_cons]
      have hd : decide (a.1 = k) = false := decide_eq_false ha
      rw [hd]
      simpa using ih

theorem ginsert_lookup_other {l : List (κ × ν)} {k k' : κ} (v : ν) (h : k' ≠ k) :
    (((l.filter fun kv => decide (kv.1 ≠ k)) ++ [(k, v)]).find?
      (fun kv => decide (kv.1 = k'))).map (·.2) =
    (l.find? (fun kv => decide (kv.1 = k'))).map (·.2) := by
  have hd : decide ((k, v).1 = k') = false := decide_eq_false fun he => h he.symm
  induction l with
  | nil =>
    simp only [List.filter_nil, List.nil_append, List.find?]
    rw [hd]
  | cons a l ih =>
    by_cases ha : a.1 = k
    · rw [List.filter_cons_of_neg (by simpa using ha)]
      have hak : decide (a.1 = k') = false :=
        decide_eq_false (by rw [ha]; exact fun he => h he.symm)
      rw [List.find?_cons, hak]
      simpa using ih
    · rw [List.filter_cons_of_pos (by simpa using ha), List.cons_append,
        List.find?_cons, List.find?_cons]
      cases hp : decide (a.1 = k')
      · simpa using ih
      · simp

theorem gtwo_mem_countP {α : Type} {l : List α} {a b : α} (p : α → Bool)
    (ha : a ∈ l) (hb : b ∈ l) (hne : a ≠ b)
    (hpa : p a = true) (hpb : p b = true) : 2 ≤ l.countP p := by
  induction l with
  | nil => cases ha
  | cons x l ih =>
    rw [List.countP_cons]
    rcases List.mem_cons.mp ha with rfl | ha'
    · have hb' : b ∈ l := by
        rcases List.mem_cons.mp hb with rfl | h
        · exact absurd rfl hne
        · exact h
      have h1 : 0 < l.countP p := List.countP_pos.mpr ⟨b, hb', hpb⟩
      rw [hpa, if_pos rfl]
      omega
    · rcases List.mem_cons.mp hb with rfl | hb'
      · have h1 : 0 < l.countP p := List.countP_pos.mpr ⟨a, ha', hpa⟩
        rw [hpb, if_pos rfl]
        omega
      · have := ih ha' hb'
        omega

theorem glookup_append_left {l₁ : List (κ × ν)} (l₂ : List (κ × ν)) {k : κ} {v : ν}
    (h : (l₁.find? (fun kv => decide (kv.1 = k))).map (·.2) = some v) :
    ((l₁ ++ l₂).find? (fun kv => decide (kv.1 = k))).map (·.2) = some v := by
  rw [List.find?_append]
  rcases hf : l₁.find? (fun kv => decide (kv.1 = k)) with _ | kv
  · rw [hf] at h
    simp at h
  · rw [hf]
    rw [hf] at h
    exact h

theorem glookup_append_of_none {l₁ : List (κ × ν)} (l₂ : List (κ × ν)) {k : κ}
    (h : (l₁.find? (fun kv => decide (kv.1 = k))).map (·.2) = none) :
    ((l₁ ++ l₂).find? (fun kv => decide (kv.1 = k))).map (·.2) =
    (l₂.find? (fun kv => decide (kv.1 = k))).map (·.2) := by
  rw [List.find?_append]
  rcases hf : l₁.find? (fun kv => decide (kv.1 = k)) with _ | kv
  · rw [hf, Option.none_or]
  · rw [hf] at h
    simp at h

theorem gmem_unique {l : List (κ × ν)} {k : κ} {a b : ν}
    (hnd : (l.map (·.1)).Nodup) (ha : (k, a) ∈ l) (hb : (k, b) ∈ l) : a = b := by
  have h1 := glookup_of_mem_nodup ha hnd
  have h2 := glookup_of_mem_nodup hb hnd
  rw [h1] at h2
  exact (Option.some_injective _ h2)

theorem gremove_lookup_none_of_none {l : List (κ × ν)} {k x : κ}
    (h : (l.find? (fun kv => decide (kv.1 = x))).map (·.2) = none) :
    ((l.filter fun kv => decide (kv.1 ≠ k)).find?
      (fun kv => decide (kv.1 = x))).map (·.2) = none := by
  by_cases hx : x = k
  · subst hx
    exact gremove_lookup_self l x
  · rw [gremove_lookup_other hx]
    exact h

theorem ginsert_lookup (l : List (κ × ν)) (k : κ) (v : ν) (x : κ) :
    (((l.filter fun kv => decide (kv.1 ≠ k)) ++ [(k, v)]).find?
      (fun kv => decide (kv.1 = x))).map (·.2) =
    if x = k then some v
    else (l.find? (fun kv => decide (kv.1 = x))).map (·.2) := by
  by_cases h : x = k
  · rw [if_pos h, h]
    exact ginsert_lookup_self l k v
  · rw [if_neg h]
    exact ginsert_lookup_other v h

theorem gremove_lookup (l : List (κ × ν)) (k x : κ) :
    ((l.filter fun kv => decide (kv.1 ≠ k)).find?
      (fun kv => decide (kv.1 = x))).map (·.2) =
    if x = k then none
    else (l.find? (fun kv => decide (kv.1 = x))).map (·.2) := by
  by_cases h : x = k
  · rw [if_pos h, h]
    exact gremove_lookup_self l k
  · rw [if_neg h]
    exact gremove_lookup_other h

theorem gappend_fresh_nodup {l : List (κ × ν)} {k : κ} (v : ν)
    (hnone : (l.find? (fun kv => decide (kv.1 = k))).map (·.2) = none)
    (hnd : (l.map (·.1)).Nodup) : ((l ++ [(k, v)]).map (·.1)).Nodup := by
  have h := @ginsert_nodup κ ν _ l k v hnd
  rwa [gremove_eq_of_lookup_none hnone] at h

theorem glookup_single (k : κ) (v : ν) (x : κ) :
    (([(k, v)] : List (κ × ν)).find? (fun kv => decide (kv.1 = x))).map (·.2) =
    if k = x then some v else none := by
  by_cases h : k = x
  · rw [List.find?_cons_of_pos _ (by simpa using h), if_pos h]
    rfl
  · rw [List.find?_cons_of_neg _ (by simpa using h), if_neg h]
    rfl

end AssocLemmas

/-! ### Invariant preservation: the basic operations -/

/-- Looking up a key in an association list headed by a different key. -/
theorem glookup_cons_ne {κ ν : Type} [DecidableEq κ] (a : κ × ν)
    (l : List (κ × ν)) {k : κ} (h : a.1 ≠ k) :
    (((a :: l).find? (fun kv => decide (kv.1 = k))).map (·.2)) =
    ((l.find? (fun kv => decide (kv.1 = k))).map (·.2)) := by
  rw [List.find?_cons_of_neg _ (by simpa using h)]

/-- Looking up the head key of an association list. -/
theorem glookup_cons_self {κ ν : Type} [DecidableEq κ] (a : κ × ν)
    (l : List (κ × ν)) :
    (((a :: l).find? (fun kv => decide (kv.1 = a.1))).map (·.2)) = some a.2 := by
  rw [List.find?_cons_of_pos _ (by simp)]
  rfl

/-- `removeKeys` does not change the binding of a key none of the removed
glyphs carries. -/
theorem removeKeys_lookup_of_not_mem {gs : List GlyphTexInfo}
    {k : LossyGlyphInfo} (h : ∀ g ∈ gs, g.glyph_info ≠ k) :
    ∀ ag, alookupG (removeKeys ag gs) k = alookupG ag k := by
  induction gs with
  | nil => intro ag; rfl
  | cons g gs ih =>
    intro ag
    have h1 : ∀ g' ∈ gs, g'.glyph_info ≠ k := fun g' hg' =>
      h g' (List.mem_cons_of_mem _ hg')
    have h2 : g.glyph_info ≠ k := h g (List.mem_cons_self _ _)
    calc alookupG (removeKeys (aremoveG ag g.glyph_info) gs) k
        = alookupG (aremoveG ag g.glyph_info) k := ih h1 _
      _ = alookupG ag k := gremove_lookup_other (fun he => h2 he.symm)

/-- Membership in `removeKeys`. -/
theorem mem_removeKeys {gs : List GlyphTexInfo}
    {kv : LossyGlyphInfo × (Nat × Nat)} :
    ∀ {ag}, kv ∈ removeKeys ag gs ↔
      kv ∈ ag ∧ ∀ g ∈ gs, g.glyph_info ≠ kv.1 := by
  induction gs with
  | nil => intro ag; simp [removeKeys]
  | cons g gs ih =>
    intro ag
    show kv ∈ removeKeys (aremoveG ag g.glyph_info) gs ↔ _
    rw [ih, aremoveG, gmem_remove]
    constructor
    · rintro ⟨⟨h1, h2⟩, h3⟩
      refine ⟨h1, ?_⟩
      intro g' hg'
      rcases List.mem_cons.mp hg' with rfl | hg'
      · exact fun he => h2 he.symm
      · exact h3 g' hg'
    · rintro ⟨h1, h2⟩
      exact ⟨⟨h1, fun he => h2 g (List.mem_cons_self _ _) he.symm⟩,
        fun g' hg' => h2 g' (List.mem_cons_of_mem _ hg')⟩

/-- `removeKeys` keeps absent keys absent. -/
theorem removeKeys_lookup_none_pres {gs : List GlyphTexInfo}
    {k : LossyGlyphInfo} :
    ∀ {ag}, alookupG ag k = none → alookupG (removeKeys ag gs) k = none := by
  induction gs with
  | nil => intro ag h; exact h
  | cons g gs ih =>
    intro ag h
    exact ih (gremove_lookup_none_of_none h)

/-- `removeKeys` preserves key uniqueness. -/
theorem removeKeys_nodup {gs : List GlyphTexInfo} :
    ∀ {ag}, ((ag.map (·.1)).Nodup) → (((removeKeys ag gs).map (·.1)).Nodup) := by
  induction gs with
  | nil => intro ag h; exact h
  | cons g gs ih =>
    intro ag h
    exact ih (gremove_nodup h)

/-- An element found by `get?` yields an `enum` entry. -/
theorem mem_enum_of_get? {α : Type} {l : List α} {n : Nat} {a : α}
    (h : l.get? n = some a) : (n, a) ∈ l.enum := by
  rw [List.get?_eq_getElem?] at h
  exact List.mk_mem_enum_iff_getElem?.mpr h

/-- Transport a `slotOkB` fact along a row-table change that preserves the
lookup of the slot's row. -/
theorem slotOk_transport {c c' : Cache} {kv : LossyGlyphInfo × (Nat × Nat)}
    (hok : slotOkB c kv = true)
    (hpres : ∀ row, rowsGet c.rows kv.2.1 = some row →
      rowsGet c'.rows kv.2.1 = some row) :
    slotOkB c' kv = true := by
  rw [slotOkB] at hok ⊢
  rcases hr : rowsGet c.rows kv.2.1 with _ | row
  · rw [hr] at hok
    exact absurd hok (by simp)
  · rw [hpres row hr]
    rw [hr] at hok
    exact hok

/-- `slotOkB` unfolded to a proposition. -/
theorem slotOkB_eq_true_iff {c : Cache} {kv : LossyGlyphInfo × (Nat × Nat)} :
    slotOkB c kv = true ↔ ∃ row gti, rowsGet c.rows kv.2.1 = some row ∧
      row.glyphs.get? kv.2.2 = some gti ∧ gti.glyph_info = kv.1 := by
  rw [slotOkB]
  rcases hr : rowsGet c.rows kv.2.1 with _ | row
  · simp [hr]
  · rcases hg : row.glyphs.get? kv.2.2 with _ | gti
    · rw [List.get?_eq_getElem?] at hg
      simp [hr, hg]
    · rw [List.get?_eq_getElem?] at hg
      simp [hr, hg]

/-- `rowIndexedB` unfolded to a proposition. -/
theorem rowIndexedB_eq_true_iff {c : Cache} {tr : Nat × Row} :
    rowIndexedB c tr = true ↔ ∀ ig ∈ tr.2.glyphs.enum,
      alookupG c.all_glyphs ig.2.glyph_info = some (tr.1, ig.1) := by
  rw [rowIndexedB, List.all_eq_true]
  simp

/-- Transport `rowIndexedB` along a glyph-index change that preserves
present entries. -/
theorem rowIndexed_transport {c c' : Cache} {tr : Nat × Row}
    (hold : rowIndexedB c tr = true)
    (hpres : ∀ k v, alookupG c.all_glyphs k = some v →
      alookupG c'.all_glyphs k = some v) : rowIndexedB c' tr = true := by
  rw [rowIndexedB_eq_true_iff] at hold ⊢
  intro ig hig
  exact hpres _ _ (hold ig hig)

/-- `insertIfAbsent` contains the inserted element. -/
theorem insertIfAbsent_self (l : List Nat) (k : Nat) :
    (insertIfAbsent l k).contains k = true := by
  rw [insertIfAbsent]
  split
  · assumption
  · simp

/-- `insertIfAbsent` keeps every contained element. -/
theorem insertIfAbsent_mono {l : List Nat} {x : Nat} (k : Nat)
    (h : l.contains x = true) : (insertIfAbsent l k).contains x = true := by
  rw [insertIfAbsent]
  split
  · exact h
  · have h' : x ∈ l := by simpa using h
    simp [List.mem_append]
    exact Or.inl h'

/-- Under the tiling invariant two distinct free bands never cover the
same scanline. -/
theorem bands_disjoint {c : Cache} (hI : InvFull c) {p q : Nat × Nat}
    (hp : p ∈ c.space_end_for_start) (hq : q ∈ c.space_end_for_start)
    (hne : p ≠ q) {y : Nat} (hpy : p.1 ≤ y ∧ y < p.2)
    (hqy : q.1 ≤ y ∧ y < q.2) : False := by
  have hy : y < c.height := lt_of_lt_of_le hpy.2 (hI.bandsNE p hp).2
  have h2 : 2 ≤ c.space_end_for_start.countP
      (fun se => decide (se.1 ≤ y ∧ y < se.2)) :=
    gtwo_mem_countP _ hp hq hne (by simpa using hpy) (by simpa using hqy)
  have ht := hI.tiling y hy
  rw [coverCount] at ht
  omega

/-- A row span and a free band never cover the same scanline. -/
theorem row_band_disjoint {c : Cache} (hI : InvFull c) {tr : Nat × Row}
    (htr : tr ∈ c.rows) {p : Nat × Nat} (hp : p ∈ c.space_end_for_start)
    {y : Nat} (hty : tr.1 ≤ y ∧ y < tr.1 + tr.2.height)
    (hpy : p.1 ≤ y ∧ y < p.2) : False := by
  have hy : y < c.height := lt_of_lt_of_le hpy.2 (hI.bandsNE p hp).2
  have h1 : 0 < c.rows.countP
      (fun tr => decide (tr.1 ≤ y ∧ y < tr.1 + tr.2.height)) :=
    List.countP_pos.mpr ⟨tr, htr, by simpa using hty⟩
  have h2 : 0 < c.space_end_for_start.countP
      (fun se => decide (se.1 ≤ y ∧ y < se.2)) :=
    List.countP_pos.mpr ⟨p, hp, by simpa using hpy⟩
  have ht := hI.tiling y hy
  rw [coverCount] at ht
  omega

/-- Two distinct rows never cover the same scanline. -/
theorem rows_disjoint {c : Cache} (hI : InvFull c) {tr ts : Nat × Row}
    (ht : tr ∈ c.rows) (hs : ts ∈ c.rows) (hne : tr ≠ ts) {y : Nat}
    (h1 : tr.1 ≤ y ∧ y < tr.1 + tr.2.height)
    (h2 : ts.1 ≤ y ∧ y < ts.1 + ts.2.height) : False := by
  have hb := hI.rowsB tr ht
  have hy : y < c.height := by omega
  have hc : 2 ≤ c.rows.countP
      (fun tr => decide (tr.1 ≤ y ∧ y < tr.1 + tr.2.height)) :=
    gtwo_mem_countP _ ht hs hne (by simpa using h1) (by simpa using h2)
  have htl := hI.tiling y hy
  rw [coverCount] at htl
  omega

/-- The start of a free band is never a row key. -/
theorem band_start_not_row {c : Cache} (hI : InvFull c) {s e : Nat}
    (h : alookupN c.space_end_for_start s = some e) :
    rowsGet c.rows s = none := by
  have hb : (s, e) ∈ c.space_end_for_start := gmem_of_lookup h
  rcases hr : rowsGet c.rows s with _ | row
  · rfl
  · exfalso
    have htr : (s, row) ∈ c.rows := gmem_of_lookup hr
    have hse := hI.bandsNE _ hb
    have hh := (hI.rowsB _ htr).1
    exact row_band_disjoint hI htr hb ⟨le_refl s, by omega⟩ ⟨le_refl s, hse.1⟩

/-- Only one free band ends at a given scanline. -/
theorem band_end_unique {c : Cache} (hI : InvFull c) {p q : Nat × Nat}
    (hp : p ∈ c.space_end_for_start) (hq : q ∈ c.space_end_for_start)
    (he : p.2 = q.2) : p = q := by
  by_contra hne
  have hpb := hI.bandsNE p hp
  have hqb := hI.bandsNE q hq
  exact @bands_disjoint c hI p q hp hq hne (p.2 - 1)
    ⟨by omega, by omega⟩ ⟨by omega, by omega⟩

/-- `intAsU32` on a positive `i32` value is its natural value. -/
theorem intAsU32_of_bounds {i : Int} (h0 : 0 < i) (h1 : i < 2147483648) :
    intAsU32 i = i.toNat ∧ 0 < intAsU32 i ∧ intAsU32 i < 2147483648 := by
  rw [intAsU32, Int.emod_eq_of_lt (by omega) (by omega)]
  omega

/-- Alignment rounding `(u+3)/4*4` of a positive bounded value is positive. -/
theorem alignPos {u : Nat} (hu0 : 0 < u) (hu1 : u ≤ 2147483649) :
    0 < (u + 3) % 4294967296 / 4 * 4 := by
  rw [Nat.mod_eq_of_lt (by omega)]
  have h4 : 1 ≤ (u + 3) / 4 := (Nat.le_div_iff_mul_le (by omega)).mpr (by omega)
  omega

/-- The computed glyph dimensions are positive for a well-formed glyph. -/
theorem glyphDims_pos (c : Cache) (g : PGlyph) (bb : RectI)
    (hbb : g.pixel_bounding_box = some bb) (hwf : WFBB g) :
    0 < (glyphDims c g).1.1 ∧ 0 < (glyphDims c g).1.2 ∧
    0 < (glyphDims c g).2.1 ∧ 0 < (glyphDims c g).2.2 := by
  obtain ⟨hw0, hw1, hh0, hh1⟩ := hwf g.position bb hbb
  have hbbOf : bbOf g = bb := by rw [bbOf, hbb]; rfl
  obtain ⟨-, hwpos, hwlt⟩ := intAsU32_of_bounds hw0 hw1
  obtain ⟨-, hhpos, hhlt⟩ := intAsU32_of_bounds hh0 hh1
  have hu : ∀ v : Nat, 0 < v → v < 2147483648 →
      0 < (if c.pad_glyphs then (v + 2) % 4294967296 else v) ∧
      (if c.pad_glyphs then (v + 2) % 4294967296 else v) ≤ 2147483649 := by
    intro v h0 h1
    split
    · rw [Nat.mod_eq_of_lt (by omega)]
      omega
    · omega
  obtain ⟨hw2, hw3⟩ := hu _ hwpos hwlt
  obtain ⟨hh2, hh3⟩ := hu _ hhpos hhlt
  rw [glyphDims, hbbOf]
  dsimp only
  refine ⟨hw2, hh2, ?_, ?_⟩
  · split
    · exact alignPos hw2 hw3
    · exact hw2
  · split
    · exact alignPos hh2 hh3
    · exact hh2

/-- `carveRow` appends the fresh empty row at the LRU end, provided the
band start is not an existing row key. -/
theorem carveRow_rows {c : Cache} {gap : Nat × Nat} (ah : Nat)
    (hrnone : rowsGet c.rows gap.1 = none) :
    (carveRow c ah gap).rows = c.rows ++ [(gap.1, ⟨ah, 0, []⟩)] := by
  have herase : rowsErase c.rows gap.1 = c.rows :=
    gremove_eq_of_lookup_none hrnone
  rw [carveRow]
  split
  all_goals
    show rowsErase c.rows gap.1 ++ [(gap.1, (⟨ah, 0, []⟩ : Row))] =
      c.rows ++ [(gap.1, (⟨ah, 0, []⟩ : Row))]
    rw [herase]

/-- `carveRow` leaves the glyph index untouched. -/
theorem carveRow_all_glyphs (c : Cache) (ah : Nat) (gap : Nat × Nat) :
    (carveRow c ah gap).all_glyphs = c.all_glyphs := by
  rw [carveRow]
  split <;> rfl

/-- `carveRow` leaves the configuration untouched. -/
theorem carveRow_config (c : Cache) (ah : Nat) (gap : Nat × Nat) :
    ConfigEq c (carveRow c ah gap) := by
  rw [carveRow]
  split <;> exact ⟨rfl, rfl, rfl, rfl, rfl, rfl⟩

/-- Carving a row of positive height that fits in an existing free band
preserves the full cache invariant. -/
theorem carveRow_inv {c : Cache} (hI : InvFull c) {gap : Nat × Nat} {ah : Nat}
    (hmem : alookupN c.space_end_for_start gap.1 = some gap.2)
    (hpos : 0 < ah) (hfit : gap.1 + ah ≤ gap.2) :
    InvFull (carveRow c ah gap) := by
  have hband : (gap.1, gap.2) ∈ c.space_end_for_start := gmem_of_lookup hmem
  have hbne := hI.bandsNE _ hband
  have hrnone : rowsGet c.rows gap.1 = none := band_start_not_row hI hmem
  have herase : rowsErase c.rows gap.1 = c.rows :=
    gremove_eq_of_lookup_none hrnone
  have hendU : ∀ q ∈ c.space_end_for_start, q.2 = gap.2 → q = (gap.1, gap.2) :=
    fun q hq he => band_end_unique hI hq hband he
  have hsefs2 : alookupN c.space_end_for_start gap.2 = none := hI.noAdj _ hband
  -- facts shared by the two row goals
  have hRowsND : ((c.rows ++ [(gap.1, (⟨ah, 0, []⟩ : Row))]).map (·.1)).Nodup :=
    gappend_fresh_nodup _ hrnone hI.rowsND
  have hRowsB : ∀ tr ∈ c.rows ++ [(gap.1, (⟨ah, 0, []⟩ : Row))],
      0 < tr.2.height ∧ tr.1 + tr.2.height ≤ c.height ∧ tr.2.width ≤ c.width := by
    intro tr htr
    rcases List.mem_append.mp htr with h | h
    · exact hI.rowsB tr h
    · rcases List.mem_singleton.mp h with rfl
      exact ⟨hpos, show gap.1 + ah ≤ c.height by omega, Nat.zero_le _⟩
  rw [carveRow]
  split
  · -- exact-fit: the whole band is consumed
    next hss =>
    rw [herase]
    refine ⟨hI.posW, hI.posH, hRowsND, ?_, ?_, hI.agND, ?_, ?_, ?_, hRowsB,
      ?_, ?_, ?_, ?_⟩
    · exact gremove_nodup hI.sefsND
    · exact gremove_nodup hI.ssfeND
    · -- mirror1
      intro p hp
      obtain ⟨hp1, hp2⟩ := gmem_remove.mp hp
      have h1 := hI.mirror1 p hp1
      refine gmem_remove.mpr ⟨h1, ?_⟩
      intro he
      have := hendU p hp1 he
      rw [this] at hp2
      exact hp2 rfl
    · -- mirror2
      intro q hq
      obtain ⟨hq1, hq2⟩ := gmem_remove.mp hq
      have h1 := hI.mirror2 q hq1
      refine gmem_remove.mpr ⟨h1, ?_⟩
      intro he
      have h2 : (gap.1, q.1) ∈ c.space_end_for_start := by rw [← he]; exact h1
      have := gmem_unique hI.sefsND h2 hband
      exact hq2 this
    · -- bandsNE
      intro p hp
      exact hI.bandsNE p (gmem_remove.mp hp).1
    · -- tiling
      intro y hy
      have hold := hI.tiling y hy
      rw [coverCount] at hold
      rw [coverCount]
      dsimp only
      rw [List.countP_append]
      rw [gcountP_remove_of_lookup_some hI.sefsND hmem
        (fun se => decide (se.1 ≤ y ∧ y < se.2))] at hold
      simp only [aremoveN, List.countP_cons, List.countP_nil,
        decide_eq_true_eq] at hold ⊢
      split_ifs at hold ⊢ <;> omega
    · -- noAdj
      intro p hp
      obtain ⟨hp1, -⟩ := gmem_remove.mp hp
      exact gremove_lookup_none_of_none (hI.noAdj p hp1)
    · -- idxOk
      intro kv hkv
      refine slotOk_transport (hI.idxOk kv hkv) ?_
      intro row hrow
      exact glookup_append_left _ hrow
    · -- slotIdx
      intro tr htr
      rcases List.mem_append.mp htr with h | h
      · exact hI.slotIdx tr h
      · rcases List.mem_singleton.mp h with rfl
        rfl
  · -- the band is shrunk: a remainder band survives
    next hss =>
    rw [herase]
    have hOldNe : (gap.1, gap.2) ≠ (gap.1 + ah, gap.2) := by
      intro hEq
      rw [Prod.mk.injEq] at hEq
      omega
    have hnss : alookupN c.space_end_for_start (gap.1 + ah) = none := by
      rcases he : alookupN c.space_end_for_start (gap.1 + ah) with _ | e
      · rfl
      · exfalso
        have hb2 : (gap.1 + ah, e) ∈ c.space_end_for_start := gmem_of_lookup he
        have hb2ne := hI.bandsNE _ hb2
        refine @bands_disjoint c hI (gap.1 + ah, e) (gap.1, gap.2) hb2 hband
          ?_ (gap.1 + ah) ⟨le_refl _, hb2ne.1⟩ ⟨by omega, by omega⟩
        intro hEq
        rw [Prod.mk.injEq] at hEq
        omega
    have hnoendnss : ∀ q ∈ c.space_end_for_start, q.2 ≠ gap.1 + ah := by
      intro q hq he
      have hqb := hI.bandsNE _ hq
      have hqne : q ≠ (gap.1, gap.2) := by
        intro hEq
        rw [hEq] at he
        dsimp only at he
        omega
      exact @bands_disjoint c hI q (gap.1, gap.2) hq hband hqne (gap.1 + ah - 1)
        ⟨by omega, by omega⟩ ⟨by omega, by omega⟩
    have hsefs1nss : alookupN (aremoveN c.space_end_for_start gap.1)
        (gap.1 + ah) = none := gremove_lookup_none_of_none hnss
    have hins : ainsertN (aremoveN c.space_end_for_start gap.1)
        (gap.1 + ah) gap.2 =
        aremoveN c.space_end_for_start gap.1 ++ [(gap.1 + ah, gap.2)] := by
      rw [ainsertN]
      rw [show aremoveN (aremoveN c.space_end_for_start gap.1) (gap.1 + ah) =
        aremoveN c.space_end_for_start gap.1 from
        gremove_eq_of_lookup_none hsefs1nss]
    rw [hins]
    refine ⟨hI.posW, hI.posH, hRowsND, ?_, ?_, hI.agND, ?_, ?_, ?_, hRowsB,
      ?_, ?_, ?_, ?_⟩
    · exact gappend_fresh_nodup _ hsefs1nss (gremove_nodup hI.sefsND)
    · exact ginsert_nodup _ hI.ssfeND
    · -- mirror1
      intro p hp
      rcases List.mem_append.mp hp with h | h
      · obtain ⟨hp1, hp2⟩ := gmem_remove.mp h
        have h1 := hI.mirror1 p hp1
        refine List.mem_append_left _ (gmem_remove.mpr ⟨h1, ?_⟩)
        intro he
        have := hendU p hp1 he
        rw [this] at hp2
        exact hp2 rfl
      · rcases List.mem_singleton.mp h with rfl
        exact List.mem_append_right _ (List.mem_singleton.mpr rfl)
    · -- mirror2
      intro q hq
      rcases List.mem_append.mp hq with h | h
      · obtain ⟨hq1, hq2⟩ := gmem_remove.mp h
        have h1 := hI.mirror2 q hq1
        refine List.mem_append_left _ (gmem_remove.mpr ⟨h1, ?_⟩)
        intro he
        have h2 : (gap.1, q.1) ∈ c.space_end_for_start := by rw [← he]; exact h1
        have := gmem_unique hI.sefsND h2 hband
        exact hq2 this
      · rcases List.mem_singleton.mp h with rfl
        exact List.mem_append_right _ (List.mem_singleton.mpr rfl)
    · -- bandsNE
      intro p hp
      rcases List.mem_append.mp hp with h | h
      · exact hI.bandsNE p (gmem_remove.mp h).1
      · rcases List.mem_singleton.mp h with rfl
        exact ⟨by omega, hbne.2⟩
    · -- tiling
      intro y hy
      have hold := hI.tiling y hy
      rw [coverCount] at hold
      rw [coverCount]
      dsimp only
      rw [List.countP_append, List.countP_append]
      rw [gcountP_remove_of_lookup_some hI.sefsND hmem
        (fun se => decide (se.1 ≤ y ∧ y < se.2))] at hold
      simp only [aremoveN, List.countP_cons, List.countP_nil,
        decide_eq_true_eq] at hold ⊢
      split_ifs at hold ⊢ <;> omega
    · -- noAdj
      intro p hp
      rcases List.mem_append.mp hp with h | h
      · obtain ⟨hp1, -⟩ := gmem_remove.mp h
        have h1 : alookupN (aremoveN c.space_end_for_start gap.1) p.2 = none :=
          gremove_lookup_none_of_none (hI.noAdj p hp1)
        refine (glookup_append_of_none _ h1).trans ?_
        refine (glookup_single (gap.1 + ah) gap.2 p.2).trans ?_
        rw [if_neg]
        intro he
        exact hnoendnss p hp1 he.symm
      · rcases List.mem_singleton.mp h with rfl
        have h1 : alookupN (aremoveN c.space_end_for_start gap.1) gap.2 = none :=
          gremove_lookup_none_of_none hsefs2
        refine (glookup_append_of_none _ h1).trans ?_
        refine (glookup_single (gap.1 + ah) gap.2 gap.2).trans ?_
        rw [if_neg]
        intro he
        exact hss he
    · -- idxOk
      intro kv hkv
      refine slotOk_transport (hI.idxOk kv hkv) ?_
      intro row hrow
      exact glookup_append_left _ hrow
    · -- slotIdx
      intro tr htr
      rcases List.mem_append.mp htr with h | h
      · exact hI.slotIdx tr h
      · rcases List.mem_singleton.mp h with rfl
        rfl

/-- Evicting the LRU row when free bands touch it on both sides: the row
span and both neighbouring bands merge into one band. -/
theorem evictStep_inv_ss {c : Cache} (hI : InvFull c) {top : Nat} {row : Row}
    {rest : List (Nat × Row)} (hfront : c.rows = (top, row) :: rest)
    {e s : Nat}
    (hA : alookupN c.space_end_for_start (top + row.height) = some e)
    (hB : alookupN c.space_start_for_end top = some s) :
    InvFull { c with
      rows := rest
      all_glyphs := removeKeys c.all_glyphs row.glyphs
      space_end_for_start :=
        ainsertN (aremoveN c.space_end_for_start (top + row.height)) s e
      space_start_for_end :=
        ainsertN (aremoveN c.space_start_for_end top) e s } := by
  have hrmem : (top, row) ∈ c.rows := by
    rw [hfront]; exact List.mem_cons_self _ _
  have hrB := hI.rowsB _ hrmem
  have hbA : (top + row.height, e) ∈ c.space_end_for_start := gmem_of_lookup hA
  have hbAe := hI.bandsNE _ hbA
  have hBr : (top, s) ∈ c.space_start_for_end := gmem_of_lookup hB
  have hbB : (s, top) ∈ c.space_end_for_start := hI.mirror2 _ hBr
  have hbBe := hI.bandsNE _ hbB
  have hrh : 0 < row.height := hrB.1
  have hrt : top + row.height ≤ c.height := hrB.2.1
  have hA1 : top + row.height < e := hbAe.1
  have hA2 : e ≤ c.height := hbAe.2
  have hB1 : s < top := hbBe.1
  have h0 : (top :: rest.map (·.1)).Nodup := by
    have := hI.rowsND
    rw [hfront] at this
    simpa using this
  have hrestnd : (rest.map (·.1)).Nodup := (List.nodup_cons.mp h0).2
  have htopnotin : top ∉ rest.map (·.1) := (List.nodup_cons.mp h0).1
  have hnoend : ∀ q ∈ c.space_end_for_start, top < q.2 →
      q.2 ≤ top + row.height → False := by
    intro q hq h1 h2
    have hbe := hI.bandsNE _ hq
    have hq12 : q.1 < q.2 := hbe.1
    exact @row_band_disjoint c hI (top, row) hrmem q hq (q.2 - 1)
      ⟨show top ≤ q.2 - 1 by omega, show q.2 - 1 < top + row.height by omega⟩
      ⟨show q.1 ≤ q.2 - 1 by omega, show q.2 - 1 < q.2 by omega⟩
  have hA2nd : ((c.space_end_for_start.filter fun kv =>
      decide (kv.1 ≠ top + row.height)).map (·.1)).Nodup :=
    gremove_nodup hI.sefsND
  have hlookA2s : ((c.space_end_for_start.filter fun kv =>
      decide (kv.1 ≠ top + row.height)).find?
        (fun kv => decide (kv.1 = s))).map (·.2) = some top :=
    glookup_of_mem_nodup (gmem_remove.mpr ⟨hbB, by omega⟩) hA2nd
  have hstale : (e, top + row.height) ∈ c.space_start_for_end :=
    hI.mirror1 _ hbA
  have hB2nd : ((c.space_start_for_end.filter fun kv =>
      decide (kv.1 ≠ top)).map (·.1)).Nodup := gremove_nodup hI.ssfeND
  simp only [ainsertN, aremoveN]
  refine ⟨hI.posW, hI.posH, hrestnd, ?_, ?_, removeKeys_nodup hI.agND,
    ?_, ?_, ?_, ?_, ?_, ?_, ?_, ?_⟩
  · exact ginsert_nodup _ hA2nd
  · exact ginsert_nodup _ hB2nd
  · -- mirror1
    intro p hp
    rcases List.mem_append.mp hp with hp | hp
    · obtain ⟨hpD, hps⟩ := gmem_remove.mp hp
      obtain ⟨hpsefs, hpne0⟩ := gmem_remove.mp hpD
      have h1 := hI.mirror1 p hpsefs
      refine List.mem_append_left _
        (gmem_remove.mpr ⟨gmem_remove.mpr ⟨h1, ?_⟩, ?_⟩)
      · intro he
        dsimp only at he
        have hpq := band_end_unique hI hpsefs hbB he
        rw [hpq] at hps
        exact hps rfl
      · intro he
        dsimp only at he
        have hpq := band_end_unique hI hpsefs hbA he
        rw [hpq] at hpne0
        exact hpne0 rfl
    · rcases List.mem_singleton.mp hp with rfl
      exact List.mem_append_right _ (List.mem_singleton.mpr rfl)
  · -- mirror2
    intro q hq
    rcases List.mem_append.mp hq with hq | hq
    · obtain ⟨hqD, hqe⟩ := gmem_remove.mp hq
      obtain ⟨hqssfe, hqtop⟩ := gmem_remove.mp hqD
      have h1 := hI.mirror2 q hqssfe
      refine List.mem_append_left _
        (gmem_remove.mpr ⟨gmem_remove.mpr ⟨h1, ?_⟩, ?_⟩)
      · intro he
        dsimp only at he
        have h2 : (top + row.height, q.1) ∈ c.space_end_for_start := he ▸ h1
        exact hqe (gmem_unique hI.sefsND h2 hbA)
      · intro he
        dsimp only at he
        have h2 : (s, q.1) ∈ c.space_end_for_start := he ▸ h1
        exact hqtop (gmem_unique hI.sefsND h2 hbB)
    · rcases List.mem_singleton.mp hq with rfl
      exact List.mem_append_right _ (List.mem_singleton.mpr rfl)
  · -- bandsNE
    intro p hp
    rcases List.mem_append.mp hp with hp | hp
    · exact hI.bandsNE p (gmem_remove.mp (gmem_remove.mp hp).1).1
    · rcases List.mem_singleton.mp hp with rfl
      exact ⟨show s < e by omega, show e ≤ c.height from hbAe.2⟩
  · -- rowsB
    intro tr htr
    exact hI.rowsB tr (by rw [hfront]; exact List.mem_cons_of_mem _ htr)
  · -- tiling
    intro y hy
    have hold := hI.tiling y hy
    rw [coverCount] at hold
    rw [coverCount]
    dsimp only
    rw [hfront, List.countP_cons] at hold
    rw [gcountP_remove_of_lookup_some hI.sefsND hA
      (fun se => decide (se.1 ≤ y ∧ y < se.2))] at hold
    rw [gcountP_remove_of_lookup_some hA2nd hlookA2s
      (fun se => decide (se.1 ≤ y ∧ y < se.2))] at hold
    rw [List.countP_append]
    simp only [List.countP_cons, List.countP_nil, decide_eq_true_eq]
      at hold ⊢
    split_ifs at hold ⊢ <;> omega
  · -- noAdj
    intro p hp
    rcases List.mem_append.mp hp with hp | hp
    · obtain ⟨hpD, hps⟩ := gmem_remove.mp hp
      obtain ⟨hpsefs, hpne0⟩ := gmem_remove.mp hpD
      have hold := hI.noAdj p hpsefs
      have hp2s : p.2 ≠ s := by
        intro he
        have h2 : alookupN c.space_end_for_start s = some top :=
          glookup_of_mem_nodup hbB hI.sefsND
        rw [he, h2] at hold
        cases hold
      refine (ginsert_lookup (c.space_end_for_start.filter fun kv =>
        decide (kv.1 ≠ top + row.height)) s e p.2).trans ?_
      rw [if_neg hp2s]
      exact gremove_lookup_none_of_none hold
    · rcases List.mem_singleton.mp hp with rfl
      dsimp only
      have holdA := hI.noAdj _ hbA
      refine (ginsert_lookup (c.space_end_for_start.filter fun kv =>
        decide (kv.1 ≠ top + row.height)) s e e).trans ?_
      rw [if_neg (show e ≠ s by omega)]
      exact gremove_lookup_none_of_none holdA
  · -- idxOk
    intro kv hkv
    obtain ⟨hkvag, hkvkeys⟩ := mem_removeKeys.mp hkv
    have hok := hI.idxOk kv hkvag
    rw [slotOkB_eq_true_iff] at hok ⊢
    obtain ⟨row0, gti, hr0, hg0, hkk⟩ := hok
    have htopne : kv.2.1 ≠ top := by
      intro he
      rw [he] at hr0
      have hgr : rowsGet c.rows top = some row := by
        rw [hfront]
        exact glookup_cons_self (top, row) rest
      rw [hgr] at hr0
      rcases Option.some_injective _ hr0 with rfl
      exact hkvkeys gti (List.get?_mem hg0) hkk
    refine ⟨row0, gti, ?_, hg0, hkk⟩
    rw [hfront] at hr0
    exact (glookup_cons_ne (top, row) rest
      (fun he => htopne he.symm)).symm.trans hr0
  · -- slotIdx
    intro tr htr
    have htrc : tr ∈ c.rows := by
      rw [hfront]; exact List.mem_cons_of_mem _ htr
    have hold := hI.slotIdx tr htrc
    rw [rowIndexedB_eq_true_iff] at hold ⊢
    intro ig hig
    have hF := hold ig hig
    have hkeysafe : ∀ g ∈ row.glyphs, g.glyph_info ≠ ig.2.glyph_info := by
      intro g hg heq
      obtain ⟨j, hj⟩ := List.get_of_mem hg
      have hj' : row.glyphs.get? j.1 = some g := by
        rw [List.get?_eq_get j.2]
        exact congrArg some hj
      have henu := mem_enum_of_get? hj'
      have hrowIdx := hI.slotIdx (top, row) hrmem
      rw [rowIndexedB_eq_true_iff] at hrowIdx
      have hG := hrowIdx (j.1, g) henu
      rw [heq] at hG
      have hEq := Option.some_injective _ (hF.symm.trans hG)
      have ht : tr.1 = top := congrArg Prod.fst hEq
      apply htopnotin
      rw [← ht]
      exact List.mem_map_of_mem (·.1) htr
    rw [removeKeys_lookup_of_not_mem hkeysafe]
    exact hF

/-- Evicting the LRU row when a free band starts right below it but none
ends right above it. -/
theorem evictStep_inv_sn {c : Cache} (hI : InvFull c) {top : Nat} {row : Row}
    {rest : List (Nat × Row)} (hfront : c.rows = (top, row) :: rest)
    {e : Nat}
    (hA : alookupN c.space_end_for_start (top + row.height) = some e)
    (hB : alookupN c.space_start_for_end top = none) :
    InvFull { c with
      rows := rest
      all_glyphs := removeKeys c.all_glyphs row.glyphs
      space_end_for_start :=
        ainsertN (aremoveN c.space_end_for_start (top + row.height)) top e
      space_start_for_end := ainsertN c.space_start_for_end e top } := by
  have hrmem : (top, row) ∈ c.rows := by
    rw [hfront]; exact List.mem_cons_self _ _
  have hrB := hI.rowsB _ hrmem
  have hbA : (top + row.height, e) ∈ c.space_end_for_start := gmem_of_lookup hA
  have hbAe := hI.bandsNE _ hbA
  have hrh : 0 < row.height := hrB.1
  have hrt : top + row.height ≤ c.height := hrB.2.1
  have hA1 : top + row.height < e := hbAe.1
  have hA2 : e ≤ c.height := hbAe.2
  have h0 : (top :: rest.map (·.1)).Nodup := by
    have := hI.rowsND
    rw [hfront] at this
    simpa using this
  have hrestnd : (rest.map (·.1)).Nodup := (List.nodup_cons.mp h0).2
  have htopnotin : top ∉ rest.map (·.1) := (List.nodup_cons.mp h0).1
  -- no band starts at `top` (the row covers it)
  have hstartnone : alookupN c.space_end_for_start top = none := by
    rcases hx : alookupN c.space_end_for_start top with _ | e'
    · rfl
    · exfalso
      have hb := gmem_of_lookup hx
      have hbe := hI.bandsNE _ hb
      exact @row_band_disjoint c hI (top, row) hrmem (top, e') hb top
        ⟨show top ≤ top from le_refl _, show top < top + row.height by omega⟩
        ⟨le_refl top, hbe.1⟩
  -- no band ends at `top` (the below map has no entry)
  have hnoendtop : ∀ p ∈ c.space_end_for_start, p.2 ≠ top := by
    intro p hp he
    have h1 := hI.mirror1 p hp
    rw [he] at h1
    have h2 : alookupN c.space_start_for_end top = some p.1 :=
      glookup_of_mem_nodup h1 hI.ssfeND
    rw [hB] at h2
    cases h2
  have hA2nd : ((c.space_end_for_start.filter fun kv =>
      decide (kv.1 ≠ top + row.height)).map (·.1)).Nodup :=
    gremove_nodup hI.sefsND
  have hstale : (e, top + row.height) ∈ c.space_start_for_end :=
    hI.mirror1 _ hbA
  have hA2top : ((c.space_end_for_start.filter fun kv =>
      decide (kv.1 ≠ top + row.height)).find?
        (fun kv => decide (kv.1 = top))).map (·.2) = none :=
    gremove_lookup_none_of_none hstartnone
  have hkid : ((c.space_end_for_start.filter fun kv =>
        decide (kv.1 ≠ top + row.height)).filter fun kv => decide (kv.1 ≠ top)) =
      c.space_end_for_start.filter fun kv => decide (kv.1 ≠ top + row.height) :=
    gremove_eq_of_lookup_none hA2top
  simp only [ainsertN, aremoveN]
  rw [hkid]
  refine ⟨hI.posW, hI.posH, hrestnd, ?_, ?_, removeKeys_nodup hI.agND,
    ?_, ?_, ?_, ?_, ?_, ?_, ?_, ?_⟩
  · exact gappend_fresh_nodup _ hA2top hA2nd
  · exact ginsert_nodup _ hI.ssfeND
  · -- mirror1
    intro p hp
    rcases List.mem_append.mp hp with hp | hp
    · obtain ⟨hpsefs, hpne0⟩ := gmem_remove.mp hp
      have h1 := hI.mirror1 p hpsefs
      refine List.mem_append_left _ (gmem_remove.mpr ⟨h1, ?_⟩)
      intro he
      dsimp only at he
      have hpq := band_end_unique hI hpsefs hbA he
      rw [hpq] at hpne0
      exact hpne0 rfl
    · rcases List.mem_singleton.mp hp with rfl
      exact List.mem_append_right _ (List.mem_singleton.mpr rfl)
  · -- mirror2
    intro q hq
    rcases List.mem_append.mp hq with hq | hq
    · obtain ⟨hqssfe, hqe⟩ := gmem_remove.mp hq
      have h1 := hI.mirror2 q hqssfe
      refine List.mem_append_left _ (gmem_remove.mpr ⟨h1, ?_⟩)
      intro he
      dsimp only at he
      have h2 : (top + row.height, q.1) ∈ c.space_end_for_start := he ▸ h1
      exact hqe (gmem_unique hI.sefsND h2 hbA)
    · rcases List.mem_singleton.mp hq with rfl
      exact List.mem_append_right _ (List.mem_singleton.mpr rfl)
  · -- bandsNE
    intro p hp
    rcases List.mem_append.mp hp with hp | hp
    · exact hI.bandsNE p (gmem_remove.mp hp).1
    · rcases List.mem_singleton.mp hp with rfl
      exact ⟨show top < e by omega, show e ≤ c.height from hA2⟩
  · -- rowsB
    intro tr htr
    exact hI.rowsB tr (by rw [hfront]; exact List.mem_cons_of_mem _ htr)
  · -- tiling
    intro y hy
    have hold := hI.tiling y hy
    rw [coverCount] at hold
    rw [coverCount]
    dsimp only
    rw [hfront, List.countP_cons] at hold
    rw [gcountP_remove_of_lookup_some hI.sefsND hA
      (fun se => decide (se.1 ≤ y ∧ y < se.2))] at hold
    rw [List.countP_append]
    simp only [List.countP_cons, List.countP_nil, decide_eq_true_eq]
      at hold ⊢
    split_ifs at hold ⊢ <;> omega
  · -- noAdj
    intro p hp
    rcases List.mem_append.mp hp with hp | hp
    · obtain ⟨hpsefs, hpne0⟩ := gmem_remove.mp hp
      have hold := hI.noAdj p hpsefs
      refine (glookup_append_of_none _
        (gremove_lookup_none_of_none hold)).trans ?_
      refine (glookup_single top e p.2).trans ?_
      rw [if_neg (fun he => hnoendtop p hpsefs he.symm)]
    · rcases List.mem_singleton.mp hp with rfl
      dsimp only
      have holdA := hI.noAdj _ hbA
      refine (glookup_append_of_none _
        (gremove_lookup_none_of_none holdA)).trans ?_
      refine (glookup_single top e e).trans ?_
      rw [if_neg (show top ≠ e by omega)]
  · -- idxOk
    intro kv hkv
    obtain ⟨hkvag, hkvkeys⟩ := mem_removeKeys.mp hkv
    have hok := hI.idxOk kv hkvag
    rw [slotOkB_eq_true_iff] at hok ⊢
    obtain ⟨row0, gti, hr0, hg0, hkk⟩ := hok
    have htopne : kv.2.1 ≠ top := by
      intro he
      rw [he] at hr0
      have hgr : rowsGet c.rows top = some row := by
        rw [hfront]
        exact glookup_cons_self (top, row) rest
      rw [hgr] at hr0
      rcases Option.some_injective _ hr0 with rfl
      exact hkvkeys gti (List.get?_mem hg0) hkk
    refine ⟨row0, gti, ?_, hg0, hkk⟩
    rw [hfront] at hr0
    exact (glookup_cons_ne (top, row) rest
      (fun he => htopne he.symm)).symm.trans hr0
  · -- slotIdx
    intro tr htr
    have htrc : tr ∈ c.rows := by
      rw [hfront]; exact List.mem_cons_of_mem _ htr
    have hold := hI.slotIdx tr htrc
    rw [rowIndexedB_eq_true_iff] at hold ⊢
    intro ig hig
    have hF := hold ig hig
    have hkeysafe : ∀ g ∈ row.glyphs, g.glyph_info ≠ ig.2.glyph_info := by
      intro g hg heq
      obtain ⟨j, hj⟩ := List.get_of_mem hg
      have hj' : row.glyphs.get? j.1 = some g := by
        rw [List.get?_eq_get j.2]
        exact congrArg some hj
      have henu := mem_enum_of_get? hj'
      have hrowIdx := hI.slotIdx (top, row) hrmem
      rw [rowIndexedB_eq_true_iff] at hrowIdx
      have hG := hrowIdx (j.1, g) henu
      rw [heq] at hG
      have hEq := Option.some_injective _ (hF.symm.trans hG)
      have ht : tr.1 = top := congrArg Prod.fst hEq
      apply htopnotin
      rw [← ht]
      exact List.mem_map_of_mem (·.1) htr
    rw [removeKeys_lookup_of_not_mem hkeysafe]
    exact hF

/-- Evicting the LRU row when a free band ends right above it but none
starts right below it. -/
theorem evictStep_inv_ns {c : Cache} (hI : InvFull c) {top : Nat} {row : Row}
    {rest : List (Nat × Row)} (hfront : c.rows = (top, row) :: rest)
    {s : Nat}
    (hA : alookupN c.space_end_for_start (top + row.height) = none)
    (hB : alookupN c.space_start_for_end top = some s) :
    InvFull { c with
      rows := rest
      all_glyphs := removeKeys c.all_glyphs row.glyphs
      space_end_for_start := ainsertN c.space_end_for_start s (top + row.height)
      space_start_for_end :=
        ainsertN (aremoveN c.space_start_for_end top) (top + row.height) s } := by
  have hrmem : (top, row) ∈ c.rows := by
    rw [hfront]; exact List.mem_cons_self _ _
  have hrB := hI.rowsB _ hrmem
  have hBr : (top, s) ∈ c.space_start_for_end := gmem_of_lookup hB
  have hbB : (s, top) ∈ c.space_end_for_start := hI.mirror2 _ hBr
  have hbBe := hI.bandsNE _ hbB
  have hrh : 0 < row.height := hrB.1
  have hrt : top + row.height ≤ c.height := hrB.2.1
  have hB1 : s < top := hbBe.1
  have h0 : (top :: rest.map (·.1)).Nodup := by
    have := hI.rowsND
    rw [hfront] at this
    simpa using this
  have hrestnd : (rest.map (·.1)).Nodup := (List.nodup_cons.mp h0).2
  have htopnotin : top ∉ rest.map (·.1) := (List.nodup_cons.mp h0).1
  have hnoend : ∀ q ∈ c.space_end_for_start, top < q.2 →
      q.2 ≤ top + row.height → False := by
    intro q hq h1 h2
    have hbe := hI.bandsNE _ hq
    have hq12 : q.1 < q.2 := hbe.1
    exact @row_band_disjoint c hI (top, row) hrmem q hq (q.2 - 1)
      ⟨show top ≤ q.2 - 1 by omega, show q.2 - 1 < top + row.height by omega⟩
      ⟨show q.1 ≤ q.2 - 1 by omega, show q.2 - 1 < q.2 by omega⟩
  -- no band ends at `top + row.height`
  have hendnone : alookupN c.space_start_for_end (top + row.height) = none := by
    rcases hx : alookupN c.space_start_for_end (top + row.height) with _ | x
    · rfl
    · exfalso
      have h1 := hI.mirror2 _ (gmem_of_lookup hx)
      exact hnoend (x, top + row.height) h1 (by omega) (by omega)
  have hlooks : alookupN c.space_end_for_start s = some top :=
    glookup_of_mem_nodup hbB hI.sefsND
  have hB2nd : ((c.space_start_for_end.filter fun kv =>
      decide (kv.1 ≠ top)).map (·.1)).Nodup := gremove_nodup hI.ssfeND
  have hB2ne0 : ((c.space_start_for_end.filter fun kv =>
      decide (kv.1 ≠ top)).find?
        (fun kv => decide (kv.1 = top + row.height))).map (·.2) = none :=
    gremove_lookup_none_of_none hendnone
  have hkid : ((c.space_start_for_end.filter fun kv =>
        decide (kv.1 ≠ top)).filter fun kv =>
        decide (kv.1 ≠ top + row.height)) =
      c.space_start_for_end.filter fun kv => decide (kv.1 ≠ top) :=
    gremove_eq_of_lookup_none hB2ne0
  simp only [ainsertN, aremoveN]
  rw [hkid]
  refine ⟨hI.posW, hI.posH, hrestnd, ?_, ?_, removeKeys_nodup hI.agND,
    ?_, ?_, ?_, ?_, ?_, ?_, ?_, ?_⟩
  · exact ginsert_nodup _ hI.sefsND
  · exact gappend_fresh_nodup _ hB2ne0 hB2nd
  · -- mirror1
    intro p hp
    rcases List.mem_append.mp hp with hp | hp
    · obtain ⟨hpsefs, hps⟩ := gmem_remove.mp hp
      have h1 := hI.mirror1 p hpsefs
      refine List.mem_append_left _ (gmem_remove.mpr ⟨h1, ?_⟩)
      intro he
      dsimp only at he
      have hpq := band_end_unique hI hpsefs hbB he
      rw [hpq] at hps
      exact hps rfl
    · rcases List.mem_singleton.mp hp with rfl
      exact List.mem_append_right _ (List.mem_singleton.mpr rfl)
  · -- mirror2
    intro q hq
    rcases List.mem_append.mp hq with hq | hq
    · obtain ⟨hqssfe, hqtop⟩ := gmem_remove.mp hq
      have h1 := hI.mirror2 q hqssfe
      refine List.mem_append_left _ (gmem_remove.mpr ⟨h1, ?_⟩)
      intro he
      dsimp only at he
      have h2 : (s, q.1) ∈ c.space_end_for_start := he ▸ h1
      exact hqtop (gmem_unique hI.sefsND h2 hbB)
    · rcases List.mem_singleton.mp hq with rfl
      exact List.mem_append_right _ (List.mem_singleton.mpr rfl)
  · -- bandsNE
    intro p hp
    rcases List.mem_append.mp hp with hp | hp
    · exact hI.bandsNE p (gmem_remove.mp hp).1
    · rcases List.mem_singleton.mp hp with rfl
      exact ⟨show s < top + row.height by omega,
        show top + row.height ≤ c.height from hrt⟩
  · -- rowsB
    intro tr htr
    exact hI.rowsB tr (by rw [hfront]; exact List.mem_cons_of_mem _ htr)
  · -- tiling
    intro y hy
    have hold := hI.tiling y hy
    rw [coverCount] at hold
    rw [coverCount]
    dsimp only
    rw [hfront, List.countP_cons] at hold
    rw [gcountP_remove_of_lookup_some hI.sefsND hlooks
      (fun se => decide (se.1 ≤ y ∧ y < se.2))] at hold
    rw [List.countP_append]
    simp only [List.countP_cons, List.countP_nil, decide_eq_true_eq]
      at hold ⊢
    split_ifs at hold ⊢ <;> omega
  · -- noAdj
    intro p hp
    rcases List.mem_append.mp hp with hp | hp
    · obtain ⟨hpsefs, hps⟩ := gmem_remove.mp hp
      have hold := hI.noAdj p hpsefs
      have hp2s : p.2 ≠ s := by
        intro he
        rw [he, hlooks] at hold
        cases hold
      refine (ginsert_lookup c.space_end_for_start s (top + row.height)
        p.2).trans ?_
      rw [if_neg hp2s]
      exact hold
    · rcases List.mem_singleton.mp hp with rfl
      dsimp only
      refine (ginsert_lookup c.space_end_for_start s (top + row.height)
        (top + row.height)).trans ?_
      rw [if_neg (show top + row.height ≠ s by omega)]
      exact hA
  · -- idxOk
    intro kv hkv
    obtain ⟨hkvag, hkvkeys⟩ := mem_removeKeys.mp hkv
    have hok := hI.idxOk kv hkvag
    rw [slotOkB_eq_true_iff] at hok ⊢
    obtain ⟨row0, gti, hr0, hg0, hkk⟩ := hok
    have htopne : kv.2.1 ≠ top := by
      intro he
      rw [he] at hr0
      have hgr : rowsGet c.rows top = some row := by
        rw [hfront]
        exact glookup_cons_self (top, row) rest
      rw [hgr] at hr0
      rcases Option.some_injective _ hr0 with rfl
      exact hkvkeys gti (List.get?_mem hg0) hkk
    refine ⟨row0, gti, ?_, hg0, hkk⟩
    rw [hfront] at hr0
    exact (glookup_cons_ne (top, row) rest
      (fun he => htopne he.symm)).symm.trans hr0
  · -- slotIdx
    intro tr htr
    have htrc : tr ∈ c.rows := by
      rw [hfront]; exact List.mem_cons_of_mem _ htr
    have hold := hI.slotIdx tr htrc
    rw [rowIndexedB_eq_true_iff] at hold ⊢
    intro ig hig
    have hF := hold ig hig
    have hkeysafe : ∀ g ∈ row.glyphs, g.glyph_info ≠ ig.2.glyph_info := by
      intro g hg heq
      obtain ⟨j, hj⟩ := List.get_of_mem hg
      have hj' : row.glyphs.get? j.1 = some g := by
        rw [List.get?_eq_get j.2]
        exact congrArg some hj
      have henu := mem_enum_of_get? hj'
      have hrowIdx := hI.slotIdx (top, row) hrmem
      rw [rowIndexedB_eq_true_iff] at hrowIdx
      have hG := hrowIdx (j.1, g) henu
      rw [heq] at hG
      have hEq := Option.some_injective _ (hF.symm.trans hG)
      have ht : tr.1 = top := congrArg Prod.fst hEq
      apply htopnotin
      rw [← ht]
      exact List.mem_map_of_mem (·.1) htr
    rw [removeKeys_lookup_of_not_mem hkeysafe]
    exact hF

/-- Evicting the LRU row when no free band touches it: the row span itself
becomes a band. -/
theorem evictStep_inv_nn {c : Cache} (hI : InvFull c) {top : Nat} {row : Row}
    {rest : List (Nat × Row)} (hfront : c.rows = (top, row) :: rest)
    (hA : alookupN c.space_end_for_start (top + row.height) = none)
    (hB : alookupN c.space_start_for_end top = none) :
    InvFull { c with
      rows := rest
      all_glyphs := removeKeys c.all_glyphs row.glyphs
      space_end_for_start := ainsertN c.space_end_for_start top (top + row.height)
      space_start_for_end :=
        ainsertN c.space_start_for_end (top + row.height) top } := by
  have hrmem : (top, row) ∈ c.rows := by
    rw [hfront]; exact List.mem_cons_self _ _
  have hrB := hI.rowsB _ hrmem
  have hrh : 0 < row.height := hrB.1
  have hrt : top + row.height ≤ c.height := hrB.2.1
  have h0 : (top :: rest.map (·.1)).Nodup := by
    have := hI.rowsND
    rw [hfront] at this
    simpa using this
  have hrestnd : (rest.map (·.1)).Nodup := (List.nodup_cons.mp h0).2
  have htopnotin : top ∉ rest.map (·.1) := (List.nodup_cons.mp h0).1
  have hnoend : ∀ q ∈ c.space_end_for_start, top < q.2 →
      q.2 ≤ top + row.height → False := by
    intro q hq h1 h2
    have hbe := hI.bandsNE _ hq
    have hq12 : q.1 < q.2 := hbe.1
    exact @row_band_disjoint c hI (top, row) hrmem q hq (q.2 - 1)
      ⟨show top ≤ q.2 - 1 by omega, show q.2 - 1 < top + row.height by omega⟩
      ⟨show q.1 ≤ q.2 - 1 by omega, show q.2 - 1 < q.2 by omega⟩
  have hstartnone : alookupN c.space_end_for_start top = none := by
    rcases hx : alookupN c.space_end_for_start top with _ | e'
    · rfl
    · exfalso
      have hb := gmem_of_lookup hx
      have hbe := hI.bandsNE _ hb
      exact @row_band_disjoint c hI (top, row) hrmem (top, e') hb top
        ⟨show top ≤ top from le_refl _, show top < top + row.height by omega⟩
        ⟨le_refl top, hbe.1⟩
  have hnoendtop : ∀ p ∈ c.space_end_for_start, p.2 ≠ top := by
    intro p hp he
    have h1 := hI.mirror1 p hp
    rw [he] at h1
    have h2 : alookupN c.space_start_for_end top = some p.1 :=
      glookup_of_mem_nodup h1 hI.ssfeND
    rw [hB] at h2
    cases h2
  have hendnone : alookupN c.space_start_for_end (top + row.height) = none := by
    rcases hx : alookupN c.space_start_for_end (top + row.height) with _ | x
    · rfl
    · exfalso
      have h1 := hI.mirror2 _ (gmem_of_lookup hx)
      exact hnoend (x, top + row.height) h1 (by omega) (by omega)
  have hkid1 : (c.space_end_for_start.filter fun kv =>
      decide (kv.1 ≠ top)) = c.space_end_for_start :=
    gremove_eq_of_lookup_none hstartnone
  have hkid2 : (c.space_start_for_end.filter fun kv =>
      decide (kv.1 ≠ top + row.height)) = c.space_start_for_end :=
    gremove_eq_of_lookup_none hendnone
  simp only [ainsertN, aremoveN]
  rw [hkid1, hkid2]
  refine ⟨hI.posW, hI.posH, hrestnd, ?_, ?_, removeKeys_nodup hI.agND,
    ?_, ?_, ?_, ?_, ?_, ?_, ?_, ?_⟩
  · exact gappend_fresh_nodup _ hstartnone hI.sefsND
  · exact gappend_fresh_nodup _ hendnone hI.ssfeND
  · -- mirror1
    intro p hp
    rcases List.mem_append.mp hp with hp | hp
    · exact List.mem_append_left _ (hI.mirror1 p hp)
    · rcases List.mem_singleton.mp hp with rfl
      exact List.mem_append_right _ (List.mem_singleton.mpr rfl)
  · -- mirror2
    intro q hq
    rcases List.mem_append.mp hq with hq | hq
    · exact List.mem_append_left _ (hI.mirror2 q hq)
    · rcases List.mem_singleton.mp hq with rfl
      exact List.mem_append_right _ (List.mem_singleton.mpr rfl)
  · -- bandsNE
    intro p hp
    rcases List.mem_append.mp hp with hp | hp
    · exact hI.bandsNE p hp
    · rcases List.mem_singleton.mp hp with rfl
      exact ⟨show top < top + row.height by omega,
        show top + row.height ≤ c.height from hrt⟩
  · -- rowsB
    intro tr htr
    exact hI.rowsB tr (by rw [hfront]; exact List.mem_cons_of_mem _ htr)
  · -- tiling
    intro y hy
    have hold := hI.tiling y hy
    rw [coverCount] at hold
    rw [coverCount]
    dsimp only
    rw [hfront, List.countP_cons] at hold
    rw [List.countP_append]
    simp only [List.countP_cons, List.countP_nil, decide_eq_true_eq]
      at hold ⊢
    split_ifs at hold ⊢ <;> omega
  · -- noAdj
    intro p hp
    rcases List.mem_append.mp hp with hp | hp
    · have hold := hI.noAdj p hp
      refine (glookup_append_of_none _ hold).trans ?_
      refine (glookup_single top (top + row.height) p.2).trans ?_
      rw [if_neg (fun he => hnoendtop p hp he.symm)]
    · rcases List.mem_singleton.mp hp with rfl
      dsimp only
      refine (glookup_append_of_none _ hA).trans ?_
      refine (glookup_single top (top + row.height) (top + row.height)).trans ?_
      rw [if_neg (show top ≠ top + row.height by omega)]
  · -- idxOk
    intro kv hkv
    obtain ⟨hkvag, hkvkeys⟩ := mem_removeKeys.mp hkv
    have hok := hI.idxOk kv hkvag
    rw [slotOkB_eq_true_iff] at hok ⊢
    obtain ⟨row0, gti, hr0, hg0, hkk⟩ := hok
    have htopne : kv.2.1 ≠ top := by
      intro he
      rw [he] at hr0
      have hgr : rowsGet c.rows top = some row := by
        rw [hfront]
        exact glookup_cons_self (top, row) rest
      rw [hgr] at hr0
      rcases Option.some_injective _ hr0 with rfl
      exact hkvkeys gti (List.get?_mem hg0) hkk
    refine ⟨row0, gti, ?_, hg0, hkk⟩
    rw [hfront] at hr0
    exact (glookup_cons_ne (top, row) rest
      (fun he => htopne he.symm)).symm.trans hr0
  · -- slotIdx
    intro tr htr
    have htrc : tr ∈ c.rows := by
      rw [hfront]; exact List.mem_cons_of_mem _ htr
    have hold := hI.slotIdx tr htrc
    rw [rowIndexedB_eq_true_iff] at hold ⊢
    intro ig hig
    have hF := hold ig hig
    have hkeysafe : ∀ g ∈ row.glyphs, g.glyph_info ≠ ig.2.glyph_info := by
      intro g hg heq
      obtain ⟨j, hj⟩ := List.get_of_mem hg
      have hj' : row.glyphs.get? j.1 = some g := by
        rw [List.get?_eq_get j.2]
        exact congrArg some hj
      have henu := mem_enum_of_get? hj'
      have hrowIdx := hI.slotIdx (top, row) hrmem
      rw [rowIndexedB_eq_true_iff] at hrowIdx
      have hG := hrowIdx (j.1, g) henu
      rw [heq] at hG
      have hEq := Option.some_injective _ (hF.symm.trans hG)
      have ht : tr.1 = top := congrArg Prod.fst hEq
      apply htopnotin
      rw [← ht]
      exact List.mem_map_of_mem (·.1) htr
    rw [removeKeys_lookup_of_not_mem hkeysafe]
    exact hF

/-- Full specification of the eviction loop: it preserves the invariant
and the configuration, never touches the in-use set or the upload queue,
keeps every glyph-index entry of an in-use row, produces a genuine free
band on `gap`, and never exhausts the rows (given that every current band
is too short and the glyph fits the atlas height). -/
theorem evictLoop_spec (fromEmpty : Bool) (ah : Nat) (s0 : PassSt) :
    ∀ (rows : List (Nat × Row)) (evs : List TraceEv)
      (ag : List (LossyGlyphInfo × (Nat × Nat))) (sefs ssfe : List (Nat × Nat)),
      InvFull (reasmEvict s0 rows ag sefs ssfe evs).c →
      (∀ p ∈ sefs, p.2 - p.1 < ah) →
      ah < s0.c.height →
      (∀ g s1, evictLoop fromEmpty ah s0 evs ag sefs ssfe rows = .gap g s1 →
        InvFull s1.c ∧
        alookupN s1.c.space_end_for_start g.1 = some g.2 ∧
        g.1 + ah ≤ g.2 ∧
        s1.in_use_rows = s0.in_use_rows ∧
        s1.draw_and_upload = s0.draw_and_upload ∧
        ConfigEq s0.c s1.c ∧
        (∀ k t i, alookupG ag k = some (t, i) →
          s0.in_use_rows.contains t = true →
          alookupG s1.c.all_glyphs k = some (t, i)) ∧
        (∀ k, alookupG ag k = none → alookupG s1.c.all_glyphs k = none)) ∧
      (∀ s1, evictLoop fromEmpty ah s0 evs ag sefs ssfe rows = .exhausted s1 →
        False) ∧
      (∀ s1, evictLoop fromEmpty ah s0 evs ag sefs ssfe rows = .noRoom s1 ∨
          evictLoop fromEmpty ah s0 evs ag sefs ssfe rows = .retrySig s1 →
        InvFull s1.c ∧ ConfigEq s0.c s1.c ∧
        s1.in_use_rows = s0.in_use_rows ∧
        s1.draw_and_upload = s0.draw_and_upload ∧
        (∀ k t i, alookupG ag k = some (t, i) →
          s0.in_use_rows.contains t = true →
          alookupG s1.c.all_glyphs k = some (t, i))) := by
  intro rows
  induction rows with
  | nil =>
    intro evs ag sefs ssfe hI hnogap hah
    have hcov : ∀ y, y < s0.c.height → ∃ p ∈ sefs, p.1 ≤ y ∧ y < p.2 := by
      intro y hy
      have ht := hI.tiling y hy
      rw [coverCount] at ht
      simp only [reasmEvict, List.countP_nil] at ht
      have hpos : 0 < sefs.countP (fun se => decide (se.1 ≤ y ∧ y < se.2)) := by
        omega
      obtain ⟨p, hp, hpy⟩ := List.countP_pos.mp hpos
      exact ⟨p, hp, by simpa using hpy⟩
    exfalso
    obtain ⟨p, hp, hpy⟩ := hcov 0 (by omega)
    have hp1 : p.1 = 0 := Nat.le_zero.mp hpy.1
    have hple : p.2 ≤ s0.c.height := (hI.bandsNE p hp).2
    have hph : p.2 = s0.c.height := by
      rcases Nat.lt_or_ge p.2 s0.c.height with hlt | hge
      · exfalso
        obtain ⟨q, hq, hqy⟩ := hcov p.2 hlt
        rcases Nat.eq_or_lt_of_le hqy.1 with heq | hlt2
        · have hqm : (p.2, q.2) ∈ sefs := by
            rw [← heq]
            exact hq
          have hnA : alookupN sefs p.2 = none := hI.noAdj p hp
          have hsome : alookupN sefs p.2 = some q.2 :=
            glookup_of_mem_nodup hqm hI.sefsND
          rw [hsome] at hnA
          cases hnA
        · have hne : q ≠ p := by
            intro hEq
            rw [hEq] at hqy
            omega
          exact @bands_disjoint _ hI q p hq hp hne (p.2 - 1)
            ⟨show q.1 ≤ p.2 - 1 by omega, show p.2 - 1 < q.2 by omega⟩
            ⟨show p.1 ≤ p.2 - 1 by omega, show p.2 - 1 < p.2 by omega⟩
      · omega
    have := hnogap p hp
    omega
  | cons hd rest ih =>
    obtain ⟨top, row⟩ := hd
    intro evs ag sefs ssfe hI hnogap hah
    have hfront : (reasmEvict s0 ((top, row) :: rest) ag sefs ssfe evs).c.rows =
        (top, row) :: rest := rfl
    have hrmem : ((top, row) : Nat × Row) ∈
        (reasmEvict s0 ((top, row) :: rest) ag sefs ssfe evs).c.rows :=
      List.mem_cons_self _ _
    have hrB := hI.rowsB _ hrmem
    have hrh : 0 < row.height := hrB.1
    have hrt : top + row.height ≤ s0.c.height := hrB.2.1
    by_cases huse : s0.in_use_rows.contains top = true
    · refine ⟨?_, ?_, ?_⟩
      · intro g s1 h
        rw [evictLoop, if_pos huse] at h
        split at h <;> cases h
      · intro s1 h
        rw [evictLoop, if_pos huse] at h
        split at h <;> cases h
      · intro s1 h
        have hres : s1 = reasmEvict s0 ((top, row) :: rest) ag sefs ssfe evs := by
          rcases h with h | h <;>
            (rw [evictLoop, if_pos huse] at h; split at h <;> cases h <;> rfl)
        rw [hres]
        exact ⟨hI, ⟨rfl, rfl, rfl, rfl, rfl, rfl⟩, rfl, rfl,
          fun k t i hk _ => hk⟩
    · -- the front row is evicted
      have hkeysafe : ∀ (k : LossyGlyphInfo) t i, alookupG ag k = some (t, i) →
          s0.in_use_rows.contains t = true →
          ∀ g ∈ row.glyphs, g.glyph_info ≠ k := by
        intro k t i hk hT g hg heq
        obtain ⟨j, hj⟩ := List.get_of_mem hg
        have hj' : row.glyphs.get? j.1 = some g := by
          rw [List.get?_eq_get j.2]
          exact congrArg some hj
        have henu := mem_enum_of_get? hj'
        have hrowIdx := hI.slotIdx (top, row) hrmem
        rw [rowIndexedB_eq_true_iff] at hrowIdx
        have hG := hrowIdx (j.1, g) henu
        rw [heq] at hG
        have hEq := Option.some_injective _ (hG.symm.trans hk)
        have ht : top = t := congrArg Prod.fst hEq
        rw [← ht] at hT
        exact huse hT
      have htrans : ∀ (k : LossyGlyphInfo) t i, alookupG ag k = some (t, i) →
          s0.in_use_rows.contains t = true →
          alookupG (removeKeys ag row.glyphs) k = some (t, i) := by
        intro k t i hk hT
        rw [removeKeys_lookup_of_not_mem (hkeysafe k t i hk hT)]
        exact hk
      rcases hA : alookupN sefs (top + row.height) with _ | e <;>
        rcases hB : alookupN ssfe top with _ | s
      · -- no neighbour absorbed
        have hinv1 : InvFull (reasmEvict s0 rest (removeKeys ag row.glyphs)
            (ainsertN sefs top (top + row.height))
            (ainsertN ssfe (top + row.height) top)
            (evs ++ [.evicted top])).c :=
          evictStep_inv_nn hI hfront hA hB
        
        have hred : evictLoop fromEmpty ah s0 evs ag sefs ssfe
            ((top, row) :: rest) =
            if ah ≤ (top + row.height) - top then
              .gap (top, (top + row.height))
                (reasmEvict s0 rest (removeKeys ag row.glyphs)
                  (ainsertN sefs top (top + row.height))
                  (ainsertN ssfe (top + row.height) top)
                  (evs ++ [.evicted top]))
            else evictLoop fromEmpty ah s0 (evs ++ [.evicted top])
              (removeKeys ag row.glyphs)
              (ainsertN sefs top (top + row.height))
              (ainsertN ssfe (top + row.height) top) rest := by
          rw [evictLoop, if_neg huse]
          simp only [absorbAbove, absorbBelow, hA, hB]
        by_cases hchk : ah ≤ (top + row.height) - top
        · rw [if_pos hchk] at hred
          refine ⟨?_, ?_, ?_⟩
          · intro g s1 h
            rw [hred] at h
            cases h
            exact ⟨hinv1, ginsert_lookup_self sefs top (top + row.height),
              show top + ah ≤ (top + row.height) by omega, rfl, rfl,
              ⟨rfl, rfl, rfl, rfl, rfl, rfl⟩, htrans,
              fun k hk => removeKeys_lookup_none_pres hk⟩
          · intro s1 h
            rw [hred] at h
            cases h
          · intro s1 h
            rcases h with h | h <;> rw [hred] at h <;> cases h
        · rw [if_neg hchk] at hred
          have hng : ∀ p ∈ ainsertN sefs top (top + row.height),
              p.2 - p.1 < ah := by
            intro p hp
            rcases List.mem_append.mp hp with hp | hp
            · exact hnogap p (gmem_remove.mp hp).1
            · rcases List.mem_singleton.mp hp with rfl
              omega
          obtain ⟨ihg, ihe, ihn⟩ := ih (evs ++ [.evicted top])
            (removeKeys ag row.glyphs) _ _ hinv1 hng hah
          refine ⟨?_, ?_, ?_⟩
          · intro g s1 h
            rw [hred] at h
            obtain ⟨hi1, hi2, hi3, hi4, hi5, hi6, hi7, hi8⟩ := ihg g s1 h
            exact ⟨hi1, hi2, hi3, hi4, hi5, hi6,
              fun k t i hk hT => hi7 k t i (htrans k t i hk hT) hT,
              fun k hk => hi8 k (removeKeys_lookup_none_pres hk)⟩
          · intro s1 h
            rw [hred] at h
            exact ihe s1 h
          · intro s1 h
            rw [hred] at h
            obtain ⟨hi1, hi2, hi3, hi4, hi5⟩ := ihn s1 h
            exact ⟨hi1, hi2, hi3, hi4,
              fun k t i hk hT => hi5 k t i (htrans k t i hk hT) hT⟩
      · -- a band ends right above the row
        have hinv1 : InvFull (reasmEvict s0 rest (removeKeys ag row.glyphs)
            (ainsertN sefs s (top + row.height))
            (ainsertN (aremoveN ssfe top) (top + row.height) s)
            (evs ++ [.evicted top])).c :=
          evictStep_inv_ns hI hfront hA hB
        have hbB : (s, top) ∈
            (reasmEvict s0 ((top, row) :: rest) ag sefs ssfe evs).c.space_end_for_start :=
          hI.mirror2 _ (gmem_of_lookup hB)
        have hB1 : s < top := (hI.bandsNE _ hbB).1
        have hred : evictLoop fromEmpty ah s0 evs ag sefs ssfe
            ((top, row) :: rest) =
            if ah ≤ (top + row.height) - s then
              .gap (s, (top + row.height))
                (reasmEvict s0 rest (removeKeys ag row.glyphs)
                  (ainsertN sefs s (top + row.height))
                  (ainsertN (aremoveN ssfe top) (top + row.height) s)
                  (evs ++ [.evicted top]))
            else evictLoop fromEmpty ah s0 (evs ++ [.evicted top])
              (removeKeys ag row.glyphs)
              (ainsertN sefs s (top + row.height))
              (ainsertN (aremoveN ssfe top) (top + row.height) s) rest := by
          rw [evictLoop, if_neg huse]
          simp only [absorbAbove, absorbBelow, hA, hB]
        by_cases hchk : ah ≤ (top + row.height) - s
        · rw [if_pos hchk] at hred
          refine ⟨?_, ?_, ?_⟩
          · intro g s1 h
            rw [hred] at h
            cases h
            exact ⟨hinv1, ginsert_lookup_self sefs s (top + row.height),
              show s + ah ≤ (top + row.height) by omega, rfl, rfl,
              ⟨rfl, rfl, rfl, rfl, rfl, rfl⟩, htrans,
              fun k hk => removeKeys_lookup_none_pres hk⟩
          · intro s1 h
            rw [hred] at h
            cases h
          · intro s1 h
            rcases h with h | h <;> rw [hred] at h <;> cases h
        · rw [if_neg hchk] at hred
          have hng : ∀ p ∈ ainsertN sefs s (top + row.height),
              p.2 - p.1 < ah := by
            intro p hp
            rcases List.mem_append.mp hp with hp | hp
            · exact hnogap p (gmem_remove.mp hp).1
            · rcases List.mem_singleton.mp hp with rfl
              omega
          obtain ⟨ihg, ihe, ihn⟩ := ih (evs ++ [.evicted top])
            (removeKeys ag row.glyphs) _ _ hinv1 hng hah
          refine ⟨?_, ?_, ?_⟩
          · intro g s1 h
            rw [hred] at h
            obtain ⟨hi1, hi2, hi3, hi4, hi5, hi6, hi7, hi8⟩ := ihg g s1 h
            exact ⟨hi1, hi2, hi3, hi4, hi5, hi6,
              fun k t i hk hT => hi7 k t i (htrans k t i hk hT) hT,
              fun k hk => hi8 k (removeKeys_lookup_none_pres hk)⟩
          · intro s1 h
            rw [hred] at h
            exact ihe s1 h
          · intro s1 h
            rw [hred] at h
            obtain ⟨hi1, hi2, hi3, hi4, hi5⟩ := ihn s1 h
            exact ⟨hi1, hi2, hi3, hi4,
              fun k t i hk hT => hi5 k t i (htrans k t i hk hT) hT⟩
      · -- a band starts right below the row
        have hinv1 : InvFull (reasmEvict s0 rest (removeKeys ag row.glyphs)
            (ainsertN (aremoveN sefs (top + row.height)) top e)
            (ainsertN ssfe e top)
            (evs ++ [.evicted top])).c :=
          evictStep_inv_sn hI hfront hA hB
        have hbA : (top + row.height, e) ∈
            (reasmEvict s0 ((top, row) :: rest) ag sefs ssfe evs).c.space_end_for_start :=
          gmem_of_lookup hA
        have hA1 : top + row.height < e := (hI.bandsNE _ hbA).1
        have hred : evictLoop fromEmpty ah s0 evs ag sefs ssfe
            ((top, row) :: rest) =
            if ah ≤ e - top then
              .gap (top, e)
                (reasmEvict s0 rest (removeKeys ag row.glyphs)
                  (ainsertN (aremoveN sefs (top + row.height)) top e)
                  (ainsertN ssfe e top)
                  (evs ++ [.evicted top]))
            else evictLoop fromEmpty ah s0 (evs ++ [.evicted top])
              (removeKeys ag row.glyphs)
              (ainsertN (aremoveN sefs (top + row.height)) top e)
              (ainsertN ssfe e top) rest := by
          rw [evictLoop, if_neg huse]
          simp only [absorbAbove, absorbBelow, hA, hB]
        by_cases hchk : ah ≤ e - top
        · rw [if_pos hchk] at hred
          refine ⟨?_, ?_, ?_⟩
          · intro g s1 h
            rw [hred] at h
            cases h
            exact ⟨hinv1, ginsert_lookup_self (aremoveN sefs (top + row.height)) top e,
              show top + ah ≤ e by omega, rfl, rfl,
              ⟨rfl, rfl, rfl, rfl, rfl, rfl⟩, htrans,
              fun k hk => removeKeys_lookup_none_pres hk⟩
          · intro s1 h
            rw [hred] at h
            cases h
          · intro s1 h
            rcases h with h | h <;> rw [hred] at h <;> cases h
        · rw [if_neg hchk] at hred
          have hng : ∀ p ∈ ainsertN (aremoveN sefs (top + row.height)) top e,
              p.2 - p.1 < ah := by
            intro p hp
            rcases List.mem_append.mp hp with hp | hp
            · exact hnogap p (gmem_remove.mp (gmem_remove.mp hp).1).1
            · rcases List.mem_singleton.mp hp with rfl
              omega
          obtain ⟨ihg, ihe, ihn⟩ := ih (evs ++ [.evicted top])
            (removeKeys ag row.glyphs) _ _ hinv1 hng hah
          refine ⟨?_, ?_, ?_⟩
          · intro g s1 h
            rw [hred] at h
            obtain ⟨hi1, hi2, hi3, hi4, hi5, hi6, hi7, hi8⟩ := ihg g s1 h
            exact ⟨hi1, hi2, hi3, hi4, hi5, hi6,
              fun k t i hk hT => hi7 k t i (htrans k t i hk hT) hT,
              fun k hk => hi8 k (removeKeys_lookup_none_pres hk)⟩
          · intro s1 h
            rw [hred] at h
            exact ihe s1 h
          · intro s1 h
            rw [hred] at h
            obtain ⟨hi1, hi2, hi3, hi4, hi5⟩ := ihn s1 h
            exact ⟨hi1, hi2, hi3, hi4,
              fun k t i hk hT => hi5 k t i (htrans k t i hk hT) hT⟩
      · -- bands on both sides
        have hinv1 : InvFull (reasmEvict s0 rest (removeKeys ag row.glyphs)
            (ainsertN (aremoveN sefs (top + row.height)) s e)
            (ainsertN (aremoveN ssfe top) e s)
            (evs ++ [.evicted top])).c :=
          evictStep_inv_ss hI hfront hA hB
        have hbA : (top + row.height, e) ∈
            (reasmEvict s0 ((top, row) :: rest) ag sefs ssfe evs).c.space_end_for_start :=
          gmem_of_lookup hA
        have hA1 : top + row.height < e := (hI.bandsNE _ hbA).1
        have hbB : (s, top) ∈
            (reasmEvict s0 ((top, row) :: rest) ag sefs ssfe evs).c.space_end_for_start :=
          hI.mirror2 _ (gmem_of_lookup hB)
        have hB1 : s < top := (hI.bandsNE _ hbB).1
        have hred : evictLoop fromEmpty ah s0 evs ag sefs ssfe
            ((top, row) :: rest) =
            if ah ≤ e - s then
              .gap (s, e)
                (reasmEvict s0 rest (removeKeys ag row.glyphs)
                  (ainsertN (aremoveN sefs (top + row.height)) s e)
                  (ainsertN (aremoveN ssfe top) e s)
                  (evs ++ [.evicted top]))
            else evictLoop fromEmpty ah s0 (evs ++ [.evicted top])
              (removeKeys ag row.glyphs)
              (ainsertN (aremoveN sefs (top + row.height)) s e)
              (ainsertN (aremoveN ssfe top) e s) rest := by
          rw [evictLoop, if_neg huse]
          simp only [absorbAbove, absorbBelow, hA, hB]
        by_cases hchk : ah ≤ e - s
        · rw [if_pos hchk] at hred
          refine ⟨?_, ?_, ?_⟩
          · intro g s1 h
            rw [hred] at h
            cases h
            exact ⟨hinv1, ginsert_lookup_self (aremoveN sefs (top + row.height)) s e,
              show s + ah ≤ e by omega, rfl, rfl,
              ⟨rfl, rfl, rfl, rfl, rfl, rfl⟩, htrans,
              fun k hk => removeKeys_lookup_none_pres hk⟩
          · intro s1 h
            rw [hred] at h
            cases h
          · intro s1 h
            rcases h with h | h <;> rw [hred] at h <;> cases h
        · rw [if_neg hchk] at hred
          have hng : ∀ p ∈ ainsertN (aremoveN sefs (top + row.height)) s e,
              p.2 - p.1 < ah := by
            intro p hp
            rcases List.mem_append.mp hp with hp | hp
            · exact hnogap p (gmem_remove.mp (gmem_remove.mp hp).1).1
            · rcases List.mem_singleton.mp hp with rfl
              omega
          obtain ⟨ihg, ihe, ihn⟩ := ih (evs ++ [.evicted top])
            (removeKeys ag row.glyphs) _ _ hinv1 hng hah
          refine ⟨?_, ?_, ?_⟩
          · intro g s1 h
            rw [hred] at h
            obtain ⟨hi1, hi2, hi3, hi4, hi5, hi6, hi7, hi8⟩ := ihg g s1 h
            exact ⟨hi1, hi2, hi3, hi4, hi5, hi6,
              fun k t i hk hT => hi7 k t i (htrans k t i hk hT) hT,
              fun k hk => hi8 k (removeKeys_lookup_none_pres hk)⟩
          · intro s1 h
            rw [hred] at h
            exact ihe s1 h
          · intro s1 h
            rw [hred] at h
            obtain ⟨hi1, hi2, hi3, hi4, hi5⟩ := ihn s1 h
            exact ⟨hi1, hi2, hi3, hi4,
              fun k t i hk hT => hi5 k t i (htrans k t i hk hT) hT⟩

/-- `placeGlyph` on a present row with a fresh key succeeds, preserves the
cache invariant, and performs exactly the expected bookkeeping. -/
theorem placeGlyph_spec {s : PassSt} (hI : InvFull s.c) {row_top : Nat}
    {row : Row} (hrow : rowsGet s.c.rows row_top = some row)
    {uw uh aw ah : Nat} {glyph : PGlyph} {glyph_info : LossyGlyphInfo}
    (hkey : alookupG s.c.all_glyphs glyph_info = none)
    (hw : row.width + aw ≤ s.c.width) :
    ∃ s', placeGlyph s row_top uw uh aw ah glyph glyph_info = some s' ∧
      InvFull s'.c ∧
      ConfigEq s.c s'.c ∧
      alookupG s'.c.all_glyphs glyph_info = some (row_top, row.glyphs.length) ∧
      (∀ k, k ≠ glyph_info →
        alookupG s'.c.all_glyphs k = alookupG s.c.all_glyphs k) ∧
      s'.in_use_rows = insertIfAbsent s.in_use_rows row_top ∧
      s'.draw_and_upload = s.draw_and_upload ++
        [(⟨row.width, row_top, row.width + aw, row_top + ah⟩, glyph)] ∧
      s'.events = s.events ++ [.touched row_top] := by
  have hmemrow : (row_top, row) ∈ s.c.rows := gmem_of_lookup hrow
  have hpres : ∀ (k : LossyGlyphInfo) v, alookupG s.c.all_glyphs k = some v →
      alookupG (ainsertG s.c.all_glyphs glyph_info (row_top, row.glyphs.length))
        k = some v := by
    intro k v hv
    have hne : k ≠ glyph_info := by
      intro h
      rw [h, hkey] at hv
      cases hv
    exact (ginsert_lookup_other _ hne).trans hv
  rw [placeGlyph, hrow]
  dsimp only
  refine ⟨_, rfl, ?_, ⟨rfl, rfl, rfl, rfl, rfl, rfl⟩,
    ginsert_lookup_self s.c.all_glyphs glyph_info (row_top, row.glyphs.length),
    fun k hk => ginsert_lookup_other _ hk, rfl, rfl, rfl⟩
  refine ⟨hI.posW, hI.posH, ginsert_nodup _ hI.rowsND, hI.sefsND, hI.ssfeND,
    ginsert_nodup _ hI.agND, hI.mirror1, hI.mirror2, hI.bandsNE, ?_, ?_, hI.noAdj,
    ?_, ?_⟩
  · -- rowsB
    intro tr htr
    rcases gmem_insert.mp htr with ⟨h, -⟩ | rfl
    · exact hI.rowsB tr h
    · have hb := hI.rowsB (row_top, row) hmemrow
      exact ⟨hb.1, hb.2.1, hw⟩
  · -- tiling
    intro y hy
    have hold := hI.tiling y hy
    rw [coverCount] at hold
    rw [coverCount]
    dsimp only
    have hcnt := gcountP_remove_of_lookup_some hI.rowsND hrow
      (fun tr => decide (tr.1 ≤ y ∧ y < tr.1 + tr.2.height))
    rw [List.countP_append]
    simp only [rowsErase]
    simp only [List.countP_cons, List.countP_nil, decide_eq_true_eq]
      at hold hcnt ⊢
    split_ifs at hcnt ⊢ <;> omega
  · -- idxOk
    intro kv hkv
    rcases gmem_insert.mp hkv with ⟨h, hne⟩ | rfl
    · have hok := hI.idxOk kv h
      rw [slotOkB_eq_true_iff] at hok ⊢
      obtain ⟨row0, gti, hr0, hg0, hkk⟩ := hok
      by_cases ht : kv.2.1 = row_top
      · rw [ht] at hr0
        rw [hrow] at hr0
        rcases Option.some_injective _ hr0 with rfl
        obtain ⟨hlt, -⟩ := List.get?_eq_some.mp hg0
        rw [ht]
        exact ⟨_, gti, ginsert_lookup_self s.c.rows row_top _,
          (List.get?_append hlt).trans hg0, hkk⟩
      · exact ⟨row0, gti, (ginsert_lookup_other _ ht).trans hr0, hg0, hkk⟩
    · rw [slotOkB_eq_true_iff]
      refine ⟨_, ⟨glyph_info, normalised_offset_from_position glyph.position,
          ⟨row.width, row_top, row.width + uw, row_top + uh⟩⟩,
        ginsert_lookup_self s.c.rows row_top _, ?_, rfl⟩
      show (row.glyphs ++ [_]).get? row.glyphs.length = some _
      exact List.get?_concat_length row.glyphs _
  · -- slotIdx
    intro tr htr
    rcases gmem_insert.mp htr with ⟨h, -⟩ | rfl
    · exact rowIndexed_transport (hI.slotIdx tr h) hpres
    · rw [rowIndexedB_eq_true_iff]
      intro ig hig
      rw [show (row_top,
          (⟨row.height, row.width + aw, row.glyphs ++
            [⟨glyph_info, normalised_offset_from_position glyph.position,
              ⟨row.width, row_top, row.width + uw, row_top + uh⟩⟩]⟩ : Row)).2.glyphs
          = row.glyphs ++
            [⟨glyph_info, normalised_offset_from_position glyph.position,
              ⟨row.width, row_top, row.width + uw, row_top + uh⟩⟩] from rfl] at hig
      rw [List.enum_append] at hig
      rcases List.mem_append.mp hig with hig | hig
      · have hold := hI.slotIdx (row_top, row) hmemrow
        rw [rowIndexedB_eq_true_iff] at hold
        exact hpres _ _ (hold ig hig)
      · rcases List.mem_singleton.mp hig with rfl
        exact ginsert_lookup_self s.c.all_glyphs glyph_info _

/-- `ConfigEq` is transitive. -/
theorem ConfigEq_trans {a b c : Cache} (h1 : ConfigEq a b) (h2 : ConfigEq b c) :
    ConfigEq a c := by
  obtain ⟨x1, x2, x3, x4, x5, x6⟩ := h1
  obtain ⟨y1, y2, y3, y4, y5, y6⟩ := h2
  exact ⟨y1.trans x1, y2.trans x2, y3.trans x3, y4.trans x4, y5.trans x5,
    y6.trans x6⟩

/-- `carveAndPlace` on a fresh key and a fitting free band succeeds and
performs the combined bookkeeping of `carveRow` and `placeGlyph`. -/
theorem carveAndPlace_spec {s : PassSt} (hI : InvFull s.c) {gap : Nat × Nat}
    (hmem : alookupN s.c.space_end_for_start gap.1 = some gap.2)
    (uw uh : Nat) {aw ah : Nat} (hpos : 0 < ah) (hfit : gap.1 + ah ≤ gap.2)
    (haw : aw ≤ s.c.width)
    {glyph : PGlyph} {glyph_info : LossyGlyphInfo}
    (hkey : alookupG s.c.all_glyphs glyph_info = none) :
    ∃ s3, carveAndPlace s gap uw uh aw ah glyph glyph_info = .inl s3 ∧
      InvFull s3.c ∧ ConfigEq s.c s3.c ∧
      alookupG s3.c.all_glyphs glyph_info = some (gap.1, 0) ∧
      (∀ k, k ≠ glyph_info →
        alookupG s3.c.all_glyphs k = alookupG s.c.all_glyphs k) ∧
      s3.in_use_rows = insertIfAbsent s.in_use_rows gap.1 ∧
      s3.draw_and_upload = s.draw_and_upload ++
        [(⟨0, gap.1, 0 + aw, gap.1 + ah⟩, glyph)] := by
  have hrnone : rowsGet s.c.rows gap.1 = none := band_start_not_row hI hmem
  have hinv2 : InvFull (carveRow s.c ah gap) := carveRow_inv hI hmem hpos hfit
  have hrows2 := carveRow_rows ah hrnone
  have hrow2 : rowsGet (carveRow s.c ah gap).rows gap.1 =
      some (⟨ah, 0, []⟩ : Row) := by
    rw [hrows2]
    refine (glookup_append_of_none _ hrnone).trans ?_
    refine (glookup_single gap.1 (⟨ah, 0, []⟩ : Row) gap.1).trans ?_
    rw [if_pos rfl]
  have hkey2 : alookupG (carveRow s.c ah gap).all_glyphs glyph_info = none := by
    rw [carveRow_all_glyphs]
    exact hkey
  have hcfg2 := carveRow_config s.c ah gap
  have hw2 : (⟨ah, 0, []⟩ : Row).width + aw ≤ (carveRow s.c ah gap).width := by
    have hwc : (carveRow s.c ah gap).width = s.c.width := hcfg2.2.2.1
    rw [hwc]
    simpa using haw
  obtain ⟨s3, hplace, hinv3, hcfg3, hlook3, hother3, huse3, hdraw3, hev3⟩ :=
    @placeGlyph_spec { s with c := carveRow s.c ah gap } hinv2 gap.1
      ⟨ah, 0, []⟩ hrow2 uw uh aw ah glyph glyph_info hkey2 hw2
  refine ⟨s3, ?_, hinv3, ConfigEq_trans hcfg2 hcfg3, hlook3,
    (fun k hk => (hother3 k hk).trans (by rw [carveRow_all_glyphs])),
    huse3, hdraw3⟩
  rw [carveAndPlace]
  rw [hplace]

/-- When the lossy key is already resident, the per-glyph step leaves the
pass state unchanged (`continue`). -/
theorem perGlyphStep_of_present (fromEmpty : Bool) (s : PassSt) (glyph : PGlyph)
    (glyph_info : LossyGlyphInfo)
    (h : (alookupG s.c.all_glyphs glyph_info).isSome = true) :
    perGlyphStep fromEmpty s glyph glyph_info = .inl s := by
  rw [perGlyphStep, if_pos h]

/-- Full specification of one `'per_glyph` iteration: a continuing step
preserves the invariant, the configuration, and the live keys, only ever
adds the current key (marking it live), and uploads at most one texture;
an early exit preserves the invariant and is never `ok` nor a panic. -/
theorem perGlyphStep_spec (fromEmpty : Bool) {s : PassSt} (hI : InvFull s.c)
    {glyph : PGlyph} (hwf : WFBB glyph) {bb : RectI}
    (hbb : glyph.pixel_bounding_box = some bb) (glyph_info : LossyGlyphInfo) :
    (∀ s1, perGlyphStep fromEmpty s glyph glyph_info = .inl s1 →
      InvFull s1.c ∧ ConfigEq s.c s1.c ∧
      (∀ k, LiveKey s k → LiveKey s1 k) ∧
      (∀ k, (alookupG s1.c.all_glyphs k).isSome = true →
        (alookupG s.c.all_glyphs k).isSome = true ∨ LiveKey s1 k) ∧
      (alookupG s1.c.all_glyphs glyph_info).isSome = true ∧
      (s1.draw_and_upload = s.draw_and_upload ∨
        ∃ u, s1.draw_and_upload = s.draw_and_upload ++ [u])) ∧
    (∀ out, perGlyphStep fromEmpty s glyph glyph_info = .inr out →
      InvFull out.st.c ∧ ConfigEq s.c out.st.c ∧
      (∀ s1, out ≠ .ok s1) ∧ (∀ s1, out ≠ .panicked s1)) := by
  rcases hlk : alookupG s.c.all_glyphs glyph_info with _ | v
  case some =>
    have hred : perGlyphStep fromEmpty s glyph glyph_info = .inl s := by
      rw [perGlyphStep, hlk]
      rw [if_pos (show (some v).isSome = true from rfl)]
    constructor
    · intro s1 h
      rw [hred] at h
      cases h
      refine ⟨hI, ⟨rfl, rfl, rfl, rfl, rfl, rfl⟩, fun k hk => hk,
        fun k hk => Or.inl hk, ?_, Or.inl rfl⟩
      rw [hlk]
      rfl
    · intro out h
      rw [hred] at h
      cases h
  case none =>
    have hcond : ¬((alookupG s.c.all_glyphs glyph_info).isSome = true) := by
      rw [hlk]
      simp
    obtain ⟨huwp, huhp, hawp, hahp⟩ := glyphDims_pos s.c glyph bb hbb hwf
    by_cases htoo : s.c.width ≤ (glyphDims s.c glyph).2.1 ∨
        s.c.height ≤ (glyphDims s.c glyph).2.2
    · constructor
      · intro s1 h
        rw [perGlyphStep, if_neg hcond] at h
        dsimp only at h
        rw [if_pos htoo] at h
        cases h
      · intro out h
        rw [perGlyphStep, if_neg hcond] at h
        dsimp only at h
        rw [if_pos htoo] at h
        cases h
        exact ⟨hI, ⟨rfl, rfl, rfl, rfl, rfl, rfl⟩,
          fun s1 hh => PassOut.noConfusion hh,
          fun s1 hh => PassOut.noConfusion hh⟩
    · have htoo' := htoo
      push_neg at htoo'
      obtain ⟨hawlt, hahlt⟩ := htoo'
      rcases hfr : findRowRev s.c.width (glyphDims s.c glyph).2.1
          (glyphDims s.c glyph).2.2 s.c.rows with _ | row_top
      · -- no existing row fits
        rcases hfg : findGap s.c.space_end_for_start
            (glyphDims s.c glyph).2.2 with _ | gp
        · -- no free band is tall enough
          have hnogap : ∀ p ∈ s.c.space_end_for_start,
              p.2 - p.1 < (glyphDims s.c glyph).2.2 := by
            intro p hp
            have hfg' : s.c.space_end_for_start.find?
                (fun se => decide ((glyphDims s.c glyph).2.2 ≤ se.2 - se.1)) =
                none := by
              rw [findGap] at hfg
              exact hfg
            have := List.find?_eq_none.mp hfg' p hp
            simpa using this
          obtain ⟨hgapc, hexh, herr⟩ := evictLoop_spec fromEmpty
            (glyphDims s.c glyph).2.2 s s.c.rows s.events s.c.all_glyphs
            s.c.space_end_for_start s.c.space_start_for_end hI hnogap hahlt
          rcases hev : evictLoop fromEmpty (glyphDims s.c glyph).2.2 s
              s.events s.c.all_glyphs s.c.space_end_for_start
              s.c.space_start_for_end s.c.rows with ⟨gp, s1⟩ | s1 | s1 | s1
          · -- a gap was produced by eviction
            obtain ⟨hinv1, hlook1, hfit1, huse1, hdraw1, hcfg1, htrans1,
              hnone1⟩ := hgapc gp s1 hev
            have haw1 : (glyphDims s.c glyph).2.1 ≤ s1.c.width := by
              rw [hcfg1.2.2.1]
              omega
            obtain ⟨s3, hcp, hinv3, hcfg3, hlook3, hother3, huse3, hdraw3⟩ :=
              @carveAndPlace_spec s1 hinv1 gp hlook1 (glyphDims s.c glyph).1.1
                (glyphDims s.c glyph).1.2 (glyphDims s.c glyph).2.1
                (glyphDims s.c glyph).2.2 hahp hfit1 haw1 glyph glyph_info
                (hnone1 glyph_info hlk)
            constructor
            · intro s1' h
              rw [perGlyphStep, if_neg hcond] at h
              dsimp only at h
              rw [if_neg htoo, hfr, hfg, hev] at h
              dsimp only at h
              rw [hcp] at h
              cases h
              refine ⟨hinv3, ConfigEq_trans hcfg1 hcfg3, ?_, ?_, ?_, ?_⟩
              · intro k hk
                obtain ⟨t, i, hkk, hkt⟩ := hk
                have hne : k ≠ glyph_info := by
                  intro he
                  rw [he, hlk] at hkk
                  cases hkk
                refine ⟨t, i, ?_, ?_⟩
                · rw [hother3 k hne]
                  exact htrans1 k t i hkk hkt
                · rw [huse3, huse1]
                  exact insertIfAbsent_mono _ hkt
              · intro k hk
                by_cases hne : k = glyph_info
                · refine Or.inr ?_
                  rw [hne]
                  refine ⟨gp.1, 0, hlook3, ?_⟩
                  rw [huse3, huse1]
                  exact insertIfAbsent_self _ _
                · rw [hother3 k hne] at hk
                  left
                  rcases hx : alookupG s.c.all_glyphs k with _ | w
                  · rw [hnone1 k hx] at hk
                    cases hk
                  · rfl
              · rw [hlook3]
                rfl
              · right
                exact ⟨_, by rw [hdraw3, hdraw1]⟩
            · intro out h
              rw [perGlyphStep, if_neg hcond] at h
              dsimp only at h
              rw [if_neg htoo, hfr, hfg, hev] at h
              dsimp only at h
              rw [hcp] at h
              cases h
          · exact absurd hev (fun h => hexh s1 h)
          · constructor
            · intro s1' h
              rw [perGlyphStep, if_neg hcond] at h
              dsimp only at h
              rw [if_neg htoo, hfr, hfg, hev] at h
              cases h
            · intro out h
              rw [perGlyphStep, if_neg hcond] at h
              dsimp only at h
              rw [if_neg htoo, hfr, hfg, hev] at h
              cases h
              obtain ⟨hi1, hi2, -, -, -⟩ := herr s1 (Or.inl hev)
              exact ⟨hi1, hi2, fun s2 hh => PassOut.noConfusion hh,
                fun s2 hh => PassOut.noConfusion hh⟩
          · constructor
            · intro s1' h
              rw [perGlyphStep, if_neg hcond] at h
              dsimp only at h
              rw [if_neg htoo, hfr, hfg, hev] at h
              cases h
            · intro out h
              rw [perGlyphStep, if_neg hcond] at h
              dsimp only at h
              rw [if_neg htoo, hfr, hfg, hev] at h
              cases h
              obtain ⟨hi1, hi2, -, -, -⟩ := herr s1 (Or.inr hev)
              exact ⟨hi1, hi2, fun s2 hh => PassOut.noConfusion hh,
                fun s2 hh => PassOut.noConfusion hh⟩
        · -- a free band fits directly
          have hfg' : s.c.space_end_for_start.find?
              (fun se => decide ((glyphDims s.c glyph).2.2 ≤ se.2 - se.1)) =
              some gp := by
            rw [findGap] at hfg
            exact hfg
          have hpredg : (glyphDims s.c glyph).2.2 ≤ gp.2 - gp.1 := by
            have := List.find?_some hfg'
            simpa using this
          have hmemg : gp ∈ s.c.space_end_for_start :=
            List.mem_of_find?_eq_some hfg'
          have hlookg : alookupN s.c.space_end_for_start gp.1 = some gp.2 :=
            glookup_of_mem_nodup hmemg hI.sefsND
          have hbneg := hI.bandsNE gp hmemg
          have hfitg : gp.1 + (glyphDims s.c glyph).2.2 ≤ gp.2 := by
            have h1 : gp.1 < gp.2 := hbneg.1
            omega
          obtain ⟨s3, hcp, hinv3, hcfg3, hlook3, hother3, huse3, hdraw3⟩ :=
            @carveAndPlace_spec s hI gp hlookg (glyphDims s.c glyph).1.1
              (glyphDims s.c glyph).1.2 (glyphDims s.c glyph).2.1
              (glyphDims s.c glyph).2.2 hahp hfitg (le_of_lt hawlt) glyph
              glyph_info hlk
          constructor
          · intro s1 h
            rw [perGlyphStep, if_neg hcond] at h
            dsimp only at h
            rw [if_neg htoo, hfr, hfg] at h
            dsimp only at h
            rw [hcp] at h
            cases h
            refine ⟨hinv3, hcfg3, ?_, ?_, ?_, ?_⟩
            · intro k hk
              obtain ⟨t, i, hkk, hkt⟩ := hk
              have hne : k ≠ glyph_info := by
                intro he
                rw [he, hlk] at hkk
                cases hkk
              refine ⟨t, i, ?_, ?_⟩
              · rw [hother3 k hne]
                exact hkk
              · rw [huse3]
                exact insertIfAbsent_mono _ hkt
            · intro k hk
              by_cases hne : k = glyph_info
              · refine Or.inr ?_
                rw [hne]
                refine ⟨gp.1, 0, hlook3, ?_⟩
                rw [huse3]
                exact insertIfAbsent_self _ _
              · rw [hother3 k hne] at hk
                exact Or.inl hk
            · rw [hlook3]
              rfl
            · right
              exact ⟨_, hdraw3⟩
          · intro out h
            rw [perGlyphStep, if_neg hcond] at h
            dsimp only at h
            rw [if_neg htoo, hfr, hfg] at h
            dsimp only at h
            rw [hcp] at h
            cases h
      · -- an existing row fits
        rcases hfind : (s.c.rows.reverse).find? (fun tr =>
            decide ((glyphDims s.c glyph).2.2 ≤ tr.2.height ∧
              (glyphDims s.c glyph).2.1 ≤ s.c.width - tr.2.width)) with _ | tr
        · rw [findRowRev, hfind] at hfr
          cases hfr
        · have hfr2 := hfr
          rw [findRowRev, hfind] at hfr2
          have htr1 : tr.1 = row_top := by
            simpa using hfr2
          have hpred : (glyphDims s.c glyph).2.2 ≤ tr.2.height ∧
              (glyphDims s.c glyph).2.1 ≤ s.c.width - tr.2.width := by
            have := List.find?_some hfind
            simpa using this
          have hmemr : tr ∈ s.c.rows :=
            List.mem_reverse.mp (List.mem_of_find?_eq_some hfind)
          have hrow : rowsGet s.c.rows tr.1 = some tr.2 :=
            glookup_of_mem_nodup hmemr hI.rowsND
          have hrBr := hI.rowsB tr hmemr
          have hwr : tr.2.width + (glyphDims s.c glyph).2.1 ≤ s.c.width := by
            have h1 := hpred.2
            have h2 := hrBr.2.2
            omega
          obtain ⟨s1, hplace, hinv1, hcfg1, hlook1, hother1, huse1, hdraw1,
            hev1⟩ := @placeGlyph_spec s hI tr.1 tr.2 hrow
              (glyphDims s.c glyph).1.1 (glyphDims s.c glyph).1.2
              (glyphDims s.c glyph).2.1 (glyphDims s.c glyph).2.2
              glyph glyph_info hlk hwr
          constructor
          · intro s1' h
            rw [perGlyphStep, if_neg hcond] at h
            dsimp only at h
            rw [if_neg htoo, hfr, ← htr1] at h
            dsimp only at h
            rw [hplace] at h
            cases h
            refine ⟨hinv1, hcfg1, ?_, ?_, ?_, ?_⟩
            · intro k hk
              obtain ⟨t, i, hkk, hkt⟩ := hk
              have hne : k ≠ glyph_info := by
                intro he
                rw [he, hlk] at hkk
                cases hkk
              refine ⟨t, i, ?_, ?_⟩
              · rw [hother1 k hne]
                exact hkk
              · rw [huse1]
                exact insertIfAbsent_mono _ hkt
            · intro k hk
              by_cases hne : k = glyph_info
              · refine Or.inr ?_
                rw [hne]
                refine ⟨tr.1, tr.2.glyphs.length, hlook1, ?_⟩
                rw [huse1]
                exact insertIfAbsent_self _ _
              · rw [hother1 k hne] at hk
                exact Or.inl hk
            · rw [hlook1]
              rfl
            · right
              exact ⟨_, hdraw1⟩
          · intro out h
            rw [perGlyphStep, if_neg hcond] at h
            dsimp only at h
            rw [if_neg htoo, hfr, ← htr1] at h
            dsimp only at h
            rw [hplace] at h
            cases h

/-- Full specification of the `'per_glyph` loop: on success the invariant
and configuration carry over, live keys survive, and the key of every
processed glyph is resident; the loop never panics, and the state behind
any outcome satisfies the invariant. -/
theorem perGlyph_spec (fromEmpty : Bool) :
    ∀ (l : List (PGlyph × LossyGlyphInfo)) (s : PassSt), InvFull s.c →
      (∀ p ∈ l, WFBB p.1 ∧ p.1.pixel_bounding_box.isSome = true) →
      (∀ p ∈ l, alookupG s.c.all_glyphs p.2 = none ∨ LiveKey s p.2) →
      (∀ s1, perGlyph fromEmpty s l = .ok s1 →
        InvFull s1.c ∧ ConfigEq s.c s1.c ∧
        (∀ k, LiveKey s k → LiveKey s1 k) ∧
        (∀ p ∈ l, (alookupG s1.c.all_glyphs p.2).isSome = true)) ∧
      (∀ s1, perGlyph fromEmpty s l ≠ .panicked s1) ∧
      InvFull (perGlyph fromEmpty s l).st.c ∧
      ConfigEq s.c (perGlyph fromEmpty s l).st.c := by
  intro l
  induction l with
  | nil =>
    intro s hI hwf hlive
    refine ⟨?_, ?_, hI, ⟨rfl, rfl, rfl, rfl, rfl, rfl⟩⟩
    · intro s1 h
      rw [perGlyph] at h
      cases h
      exact ⟨hI, ⟨rfl, rfl, rfl, rfl, rfl, rfl⟩, fun k hk => hk,
        fun p hp => absurd hp (List.not_mem_nil p)⟩
    · intro s1 h
      rw [perGlyph] at h
      cases h
  | cons hd rest ih =>
    obtain ⟨glyph, ginfo⟩ := hd
    intro s hI hwf hlive
    obtain ⟨hwfh, hbbh⟩ := hwf (glyph, ginfo) (List.mem_cons_self _ _)
    obtain ⟨bb, hbb⟩ := Option.isSome_iff_exists.mp hbbh
    obtain ⟨hstep_inl, hstep_inr⟩ := perGlyphStep_spec fromEmpty hI hwfh hbb ginfo
    rcases hst : perGlyphStep fromEmpty s glyph ginfo with s1 | out
    · obtain ⟨hinv1, hcfg1, hlivet, hpres, hgot, hdraw⟩ := hstep_inl s1 hst
      have hheadlive : LiveKey s1 ginfo := by
        rcases hpres ginfo hgot with hbefore | hl
        · rcases hlive (glyph, ginfo) (List.mem_cons_self _ _) with hnone | hl0
          · rw [show ((glyph, ginfo) : PGlyph × LossyGlyphInfo).2 = ginfo
              from rfl] at hnone
            rw [hnone] at hbefore
            cases hbefore
          · exact hlivet _ hl0
        · exact hl
      have hlive1 : ∀ p ∈ rest,
          alookupG s1.c.all_glyphs p.2 = none ∨ LiveKey s1 p.2 := by
        intro p hp
        rcases hx : alookupG s1.c.all_glyphs p.2 with _ | w
        · exact Or.inl rfl
        · refine Or.inr ?_
          have hsome : (alookupG s1.c.all_glyphs p.2).isSome = true := by
            rw [hx]
            rfl
          rcases hpres p.2 hsome with hbefore | hl
          · rcases hlive p (List.mem_cons_of_mem _ hp) with hnone | hl0
            · rw [hnone] at hbefore
              cases hbefore
            · exact hlivet _ hl0
          · exact hl
      have hwf1 : ∀ p ∈ rest, WFBB p.1 ∧ p.1.pixel_bounding_box.isSome = true :=
        fun p hp => hwf p (List.mem_cons_of_mem _ hp)
      obtain ⟨ihok, ihpanic, ihinv, ihcfg⟩ := ih s1 hinv1 hwf1 hlive1
      have hred : perGlyph fromEmpty s ((glyph, ginfo) :: rest) =
          perGlyph fromEmpty s1 rest := by
        rw [perGlyph, hst]
      refine ⟨?_, ?_, ?_⟩
      · intro s2 h
        rw [hred] at h
        obtain ⟨hi1, hi2, hi3, hi4⟩ := ihok s2 h
        refine ⟨hi1, ConfigEq_trans hcfg1 hi2, fun k hk => hi3 k (hlivet k hk),
          ?_⟩
        intro p hp
        rcases List.mem_cons.mp hp with rfl | hp'
        · show (alookupG s2.c.all_glyphs ginfo).isSome = true
          obtain ⟨t, i, hk2, -⟩ := hi3 _ hheadlive
          rw [hk2]
          rfl
        · exact hi4 p hp'
      · intro s2 h
        rw [hred] at h
        exact ihpanic s2 h
      · rw [hred]
        exact ⟨ihinv, ConfigEq_trans hcfg1 ihcfg⟩
    · obtain ⟨hinvo, hcfgo, hnotok, hnotpanic⟩ := hstep_inr out hst
      have hred : perGlyph fromEmpty s ((glyph, ginfo) :: rest) = out := by
        rw [perGlyph, hst]
      refine ⟨?_, ?_, ?_⟩
      · intro s2 h
        rw [hred] at h
        exact absurd h (hnotok s2)
      · intro s2 h
        rw [hred] at h
        exact hnotpanic s2 h
      · rw [hred]
        exact ⟨hinvo, hcfgo⟩

/-- `touchRow` does not change lookups. -/
theorem rowsGet_touchRow (rows : List (Nat × Row)) (k k' : Nat) :
    rowsGet (touchRow rows k) k' = rowsGet rows k' := by
  rw [touchRow]
  rcases hr : rowsGet rows k with _ | r
  · rfl
  · by_cases hk : k' = k
    · rw [hk]
      exact (ginsert_lookup_self rows k r).trans hr.symm
    · exact ginsert_lookup_other r hk

/-- `touchRow` does not change membership (given unique keys). -/
theorem mem_touchRow {rows : List (Nat × Row)} {k : Nat} {tr : Nat × Row}
    (hnd : (rows.map (·.1)).Nodup) :
    tr ∈ touchRow rows k ↔ tr ∈ rows := by
  rw [touchRow]
  rcases hr : rowsGet rows k with _ | r
  · rfl
  · show tr ∈ ((rows.filter fun kv => decide (kv.1 ≠ k)) ++ [(k, r)]) ↔ tr ∈ rows
    rw [gmem_insert]
    constructor
    · rintro (⟨hm, -⟩ | rfl)
      · exact hm
      · exact gmem_of_lookup hr
    · intro hm
      by_cases hk : tr.1 = k
      · right
        obtain ⟨t1, t2⟩ := tr
        simp only at hk
        subst hk
        rw [gmem_unique hnd hm (gmem_of_lookup hr)]
      · exact Or.inl ⟨hm, hk⟩

/-- `touchRow` preserves every count. -/
theorem countP_touchRow (rows : List (Nat × Row)) (k : Nat)
    (hnd : (rows.map (·.1)).Nodup) (p : Nat × Row → Bool) :
    (touchRow rows k).countP p = rows.countP p := by
  rw [touchRow]
  rcases hr : rowsGet rows k with _ | r
  · rfl
  · show ((rows.filter fun kv => decide (kv.1 ≠ k)) ++ [(k, r)]).countP p =
      rows.countP p
    rw [List.countP_append, gcountP_remove_of_lookup_some hnd hr p]
    simp only [List.countP_cons, List.countP_nil]
    split <;> omega

/-- `touchRow` preserves key uniqueness. -/
theorem nodup_touchRow (rows : List (Nat × Row)) (k : Nat)
    (hnd : (rows.map (·.1)).Nodup) :
    ((touchRow rows k).map (·.1)).Nodup := by
  rw [touchRow]
  rcases hr : rowsGet rows k with _ | r
  · exact hnd
  · exact ginsert_nodup r hnd

/-- An LRU refresh preserves the cache invariant. -/
theorem inv_touchRow {c : Cache} (hI : InvFull c) (k : Nat) :
    InvFull { c with rows := touchRow c.rows k } := by
  refine ⟨hI.posW, hI.posH, nodup_touchRow _ _ hI.rowsND, hI.sefsND, hI.ssfeND,
    hI.agND, hI.mirror1, hI.mirror2, hI.bandsNE, ?_, ?_, hI.noAdj, ?_, ?_⟩
  · intro tr htr
    exact hI.rowsB tr ((mem_touchRow hI.rowsND).mp htr)
  · intro y hy
    have hold := hI.tiling y hy
    rw [coverCount] at hold
    rw [coverCount]
    dsimp only
    rw [countP_touchRow c.rows k hI.rowsND]
    exact hold
  · intro kv hkv
    refine slotOk_transport (hI.idxOk kv hkv) ?_
    intro row hrow
    rw [rowsGet_touchRow]
    exact hrow
  · intro tr htr
    exact rowIndexed_transport
      (hI.slotIdx tr ((mem_touchRow hI.rowsND).mp htr)) (fun k v hv => hv)

/-- Refreshing a list of rows preserves the cache invariant. -/
theorem inv_foldTouch (l : List Nat) {c : Cache} (hI : InvFull c) :
    InvFull { c with rows := l.foldl touchRow c.rows } := by
  induction l generalizing c with
  | nil => exact hI
  | cons t l ih =>
    have h1 := inv_touchRow hI t
    have h2 := ih h1
    exact h2

/-- A fold of LRU refreshes does not change row lookups. -/
theorem rowsGet_foldTouch (l : List Nat) :
    ∀ (rows : List (Nat × Row)) (k : Nat),
      rowsGet (l.foldl touchRow rows) k = rowsGet rows k := by
  induction l with
  | nil => intro rows k; rfl
  | cons t l ih =>
    intro rows k
    rw [List.foldl_cons, ih, rowsGet_touchRow]

/-- Elements of `insertSorted`. -/
theorem mem_insertSorted (x y : PGlyph × LossyGlyphInfo) :
    ∀ l, y ∈ insertSorted x l ↔ y = x ∨ y ∈ l := by
  intro l
  induction l with
  | nil => simp [insertSorted]
  | cons a l ih =>
    rw [insertSorted]
    split
    · simp
    · rw [List.mem_cons, ih, List.mem_cons]
      tauto

/-- The tallest-first sort permutes the uncached list. -/
theorem mem_sortByHeight {l : List (PGlyph × LossyGlyphInfo)}
    {p : PGlyph × LossyGlyphInfo} : p ∈ sortByHeight l ↔ p ∈ l := by
  rw [sortByHeight]
  induction l with
  | nil => simp
  | cons a l ih =>
    rw [List.foldr_cons, mem_insertSorted, ih, List.mem_cons]

/-- Every uncached entry produced by the partition phase is a queued glyph
with a pixel bounding box, paired with its lossy key, absent from the
glyph index. -/
theorem partitionAux_mem (c : Cache) (gs : List PGlyph) :
    ∀ (acc : List Nat × List (PGlyph × LossyGlyphInfo))
      (p : PGlyph × LossyGlyphInfo),
      p ∈ (gs.foldl
        (fun acc glyph =>
          match glyph.pixel_bounding_box with
          | none => acc
          | some _ =>
            let glyph_info := lossy_info_for c 0 glyph
            match alookupG c.all_glyphs glyph_info with
            | some rg => (insertIfAbsent acc.1 rg.1, acc.2)
            | none => (acc.1, acc.2 ++ [(glyph, glyph_info)])) acc).2 →
      p ∈ acc.2 ∨ (p.1 ∈ gs ∧ p.1.pixel_bounding_box.isSome = true ∧
        p.2 = lossy_info_for c 0 p.1 ∧ alookupG c.all_glyphs p.2 = none) := by
  induction gs with
  | nil => intro acc p hp; exact Or.inl hp
  | cons g gs ihg =>
    intro acc p hp
    rw [List.foldl_cons] at hp
    rcases ihg _ p hp with hin | hcond
    · rcases hbb : g.pixel_bounding_box with _ | bb
      · rw [hbb] at hin
        exact Or.inl hin
      · rw [hbb] at hin
        dsimp only at hin
        rcases hlkp : alookupG c.all_glyphs (lossy_info_for c 0 g) with _ | rg
        · rw [hlkp] at hin
          dsimp only at hin
          rcases List.mem_append.mp hin with hin | hin
          · exact Or.inl hin
          · rcases List.mem_singleton.mp hin with rfl
            refine Or.inr ⟨List.mem_cons_self _ _, ?_, rfl, hlkp⟩
            rw [show ((g, lossy_info_for c 0 g) :
              PGlyph × LossyGlyphInfo).1 = g from rfl, hbb]
            rfl
        · rw [hlkp] at hin
          exact Or.inl hin
    · exact Or.inr ⟨List.mem_cons_of_mem _ hcond.1, hcond.2⟩

/-- The partition phase only grows the in-use set and the uncached list. -/
theorem partitionAux_mono (c : Cache) (gs : List PGlyph) :
    ∀ (acc : List Nat × List (PGlyph × LossyGlyphInfo)),
      (∀ t, acc.1.contains t = true →
        ((gs.foldl
          (fun acc glyph =>
            match glyph.pixel_bounding_box with
            | none => acc
            | some _ =>
              let glyph_info := lossy_info_for c 0 glyph
              match alookupG c.all_glyphs glyph_info with
              | some rg => (insertIfAbsent acc.1 rg.1, acc.2)
              | none => (acc.1, acc.2 ++ [(glyph, glyph_info)])) acc).1).contains
          t = true) ∧
      (∀ p, p ∈ acc.2 →
        p ∈ (gs.foldl
          (fun acc glyph =>
            match glyph.pixel_bounding_box with
            | none => acc
            | some _ =>
              let glyph_info := lossy_info_for c 0 glyph
              match alookupG c.all_glyphs glyph_info with
              | some rg => (insertIfAbsent acc.1 rg.1, acc.2)
              | none => (acc.1, acc.2 ++ [(glyph, glyph_info)])) acc).2) := by
  induction gs with
  | nil => intro acc; exact ⟨fun t ht => ht, fun p hp => hp⟩
  | cons g gs ihg =>
    intro acc
    constructor
    · intro t ht
      rw [List.foldl_cons]
      refine (ihg _).1 t ?_
      dsimp only
      rcases hbb : g.pixel_bounding_box with _ | bb
      · exact ht
      · rcases hlkp : alookupG c.all_glyphs (lossy_info_for c 0 g) with _ | rg
        · exact ht
        · exact insertIfAbsent_mono _ ht
    · intro p hp
      rw [List.foldl_cons]
      refine (ihg _).2 p ?_
      dsimp only
      rcases hbb : g.pixel_bounding_box with _ | bb
      · exact hp
      · rcases hlkp : alookupG c.all_glyphs (lossy_info_for c 0 g) with _ | rg
        · exact List.mem_append_left _ hp
        · exact hp

/-- Every queued glyph with a bounding box is accounted for by the
partition: its row is marked in use when its key is cached, otherwise the
glyph joins the uncached list. -/
theorem partitionAux_covers (c : Cache) (gs : List PGlyph) :
    ∀ (acc : List Nat × List (PGlyph × LossyGlyphInfo)) (g : PGlyph),
      g ∈ gs → g.pixel_bounding_box.isSome = true →
      (∀ rg, alookupG c.all_glyphs (lossy_info_for c 0 g) = some rg →
        ((gs.foldl
          (fun acc glyph =>
            match glyph.pixel_bounding_box with
            | none => acc
            | some _ =>
              let glyph_info := lossy_info_for c 0 glyph
              match alookupG c.all_glyphs glyph_info with
              | some rg => (insertIfAbsent acc.1 rg.1, acc.2)
              | none => (acc.1, acc.2 ++ [(glyph, glyph_info)])) acc).1).contains
          rg.1 = true) ∧
      (alookupG c.all_glyphs (lossy_info_for c 0 g) = none →
        (g, lossy_info_for c 0 g) ∈ (gs.foldl
          (fun acc glyph =>
            match glyph.pixel_bounding_box with
            | none => acc
            | some _ =>
              let glyph_info := lossy_info_for c 0 glyph
              match alookupG c.all_glyphs glyph_info with
              | some rg => (insertIfAbsent acc.1 rg.1, acc.2)
              | none => (acc.1, acc.2 ++ [(glyph, glyph_info)])) acc).2) := by
  induction gs with
  | nil => intro acc g hg; cases hg
  | cons g0 gs ihg =>
    intro acc g hg hbbs
    rcases List.mem_cons.mp hg with rfl | hg'
    · obtain ⟨bb, hbb⟩ := Option.isSome_iff_exists.mp hbbs
      constructor
      · intro rg hrg
        rw [List.foldl_cons]
        refine (partitionAux_mono c gs _).1 rg.1 ?_
        dsimp only
        rw [hbb]
        dsimp only
        rw [hrg]
        exact insertIfAbsent_self _ _
      · intro hnone
        rw [List.foldl_cons]
        refine (partitionAux_mono c gs _).2 _ ?_
        dsimp only
        rw [hbb]
        dsimp only
        rw [hnone]
        exact List.mem_append_right _ (List.mem_singleton.mpr rfl)
    · constructor
      · intro rg hrg
        rw [List.foldl_cons]
        exact (ihg _ g hg' hbbs).1 rg hrg
      · intro hnone
        rw [List.foldl_cons]
        exact (ihg _ g hg' hbbs).2 hnone

/-- The lossy key only depends on the configuration fields. -/
theorem lossy_config_eq {a b : Cache} (h : ConfigEq a b) (fid : Nat)
    (g : PGlyph) : lossy_info_for b fid g = lossy_info_for a fid g := by
  rw [lossy_info_for, lossy_info_for, h.1, h.2.1]

/-- A freshly built cache satisfies the invariant. -/
theorem inv_buildCache (w h : Nat) (st pt : ℚ) (pad al : Bool)
    (hw : 0 < w) (hh : 0 < h) :
    InvFull (buildCache w h st pt pad al) := by
  refine ⟨hw, hh, List.nodup_nil, List.nodup_singleton _,
    List.nodup_singleton _, List.nodup_nil,
    ?_, ?_, ?_, ?_, ?_, ?_, ?_, ?_⟩
  · intro p hp
    rcases List.mem_singleton.mp hp with rfl
    exact List.mem_singleton.mpr rfl
  · intro p hp
    rcases List.mem_singleton.mp hp with rfl
    exact List.mem_singleton.mpr rfl
  · intro p hp
    rcases List.mem_singleton.mp hp with rfl
    exact ⟨hh, le_refl _⟩
  · intro tr htr
    cases htr
  · intro y hy
    rw [coverCount]
    simp only [buildCache, List.countP_nil, List.countP_cons,
      decide_eq_true_eq]
    rw [if_pos ⟨Nat.zero_le y, hy⟩]
  · intro p hp
    rcases List.mem_singleton.mp hp with rfl
    show alookupN [(0, h)] h = none
    refine (glookup_single 0 h h).trans ?_
    rw [if_neg (by omega)]
  · intro kv hkv
    cases hkv
  · intro tr htr
    cases htr

/-- `Cache::clear` restores the invariant on any positive atlas. -/
theorem inv_clearCache {c : Cache} (hw : 0 < c.width) (hh : 0 < c.height) :
    InvFull (clearCache c) := by
  refine ⟨hw, hh, List.nodup_nil, List.nodup_singleton _,
    List.nodup_singleton _, List.nodup_nil,
    ?_, ?_, ?_, ?_, ?_, ?_, ?_, ?_⟩
  · intro p hp
    rcases List.mem_singleton.mp hp with rfl
    exact List.mem_singleton.mpr rfl
  · intro p hp
    rcases List.mem_singleton.mp hp with rfl
    exact List.mem_singleton.mpr rfl
  · intro p hp
    rcases List.mem_singleton.mp hp with rfl
    exact ⟨hh, le_refl _⟩
  · intro tr htr
    cases htr
  · intro y hy
    rw [coverCount]
    simp only [clearCache, List.countP_nil, List.countP_cons,
      decide_eq_true_eq]
    rw [if_pos ⟨Nat.zero_le y, hy⟩]
  · intro p hp
    rcases List.mem_singleton.mp hp with rfl
    show alookupN [(0, c.height)] c.height = none
    refine (glookup_single 0 c.height c.height).trans ?_
    rw [if_neg (by omega)]
  · intro kv hkv
    cases hkv
  · intro tr htr
    cases htr

/-- Full specification of one `cache_glyphs` pass: on success the
invariant and the configuration carry over and the lossy key of every
queued glyph with a bounding box is resident; the pass never panics; the
state behind every outcome satisfies the invariant. -/
theorem cachePass_spec {c : Cache} (hI : InvFull c) {gs : List PGlyph}
    (hwf : ∀ g ∈ gs, WFBB g) :
    (∀ s1, cachePass c gs = .ok s1 →
      InvFull s1.c ∧ ConfigEq c s1.c ∧
      (∀ g ∈ gs, g.pixel_bounding_box.isSome = true →
        (alookupG s1.c.all_glyphs (lossy_info_for c 0 g)).isSome = true)) ∧
    (∀ s1, cachePass c gs ≠ .panicked s1) ∧
    InvFull (cachePass c gs).st.c ∧
    ConfigEq c (cachePass c gs).st.c := by
  have hIc1 : InvFull { c with
      rows := (partitionGlyphs c gs).1.foldl touchRow c.rows } :=
    inv_foldTouch _ hI
  have hwfs : ∀ p ∈ sortByHeight (partitionGlyphs c gs).2,
      WFBB p.1 ∧ p.1.pixel_bounding_box.isSome = true := by
    intro p hp
    have hp2 : p ∈ (partitionGlyphs c gs).2 := mem_sortByHeight.mp hp
    rcases partitionAux_mem c gs ([], []) p hp2 with h | h
    · cases h
    · exact ⟨hwf p.1 h.1, h.2.1⟩
  have hlive0 : ∀ p ∈ sortByHeight (partitionGlyphs c gs).2,
      alookupG c.all_glyphs p.2 = none ∨
        LiveKey (PassSt.mk
          { c with rows := (partitionGlyphs c gs).1.foldl touchRow c.rows }
          (partitionGlyphs c gs).1 []
          ((partitionGlyphs c gs).1.map .touched)) p.2 := by
    intro p hp
    have hp2 : p ∈ (partitionGlyphs c gs).2 := mem_sortByHeight.mp hp
    rcases partitionAux_mem c gs ([], []) p hp2 with h | h
    · cases h
    · exact Or.inl h.2.2.2
  obtain ⟨hok, hpan, hinv, hcfgf⟩ := perGlyph_spec c.all_glyphs.isEmpty
    (sortByHeight (partitionGlyphs c gs).2)
    (PassSt.mk
      { c with rows := (partitionGlyphs c gs).1.foldl touchRow c.rows }
      (partitionGlyphs c gs).1 []
      ((partitionGlyphs c gs).1.map .touched)) hIc1 hwfs hlive0
  have hpass : cachePass c gs = perGlyph c.all_glyphs.isEmpty
      (PassSt.mk
        { c with rows := (partitionGlyphs c gs).1.foldl touchRow c.rows }
        (partitionGlyphs c gs).1 []
        ((partitionGlyphs c gs).1.map .touched))
      (sortByHeight (partitionGlyphs c gs).2) := by
    rw [cachePass]
  refine ⟨?_, ?_, ?_⟩
  · intro s1 h
    rw [hpass] at h
    obtain ⟨hi1, hi2, hi3, hi4⟩ := hok s1 h
    refine ⟨hi1, ConfigEq_trans ⟨rfl, rfl, rfl, rfl, rfl, rfl⟩ hi2, ?_⟩
    intro g hg hbbs
    rcases hlg : alookupG c.all_glyphs (lossy_info_for c 0 g) with _ | rg
    · have hmem2 : (g, lossy_info_for c 0 g) ∈ (partitionGlyphs c gs).2 :=
        (partitionAux_covers c gs ([], []) g hg hbbs).2 hlg
      exact hi4 (g, lossy_info_for c 0 g) (mem_sortByHeight.mpr hmem2)
    · have hcont : ((partitionGlyphs c gs).1).contains rg.1 = true :=
        (partitionAux_covers c gs ([], []) g hg hbbs).1 rg hlg
      have hlv : LiveKey (PassSt.mk
          { c with rows := (partitionGlyphs c gs).1.foldl touchRow c.rows }
          (partitionGlyphs c gs).1 []
          ((partitionGlyphs c gs).1.map .touched))
          (lossy_info_for c 0 g) := by
        refine ⟨rg.1, rg.2, ?_, hcont⟩
        show alookupG c.all_glyphs (lossy_info_for c 0 g) = some (rg.1, rg.2)
        rw [hlg]
      obtain ⟨t, i, hk2, -⟩ := hi3 _ hlv
      rw [hk2]
      rfl
  · intro s1 h
    rw [hpass] at h
    exact hpan s1 h
  · rw [hpass]
    exact ⟨hinv, ConfigEq_trans ⟨rfl, rfl, rfl, rfl, rfl, rfl⟩ hcfgf⟩

/-- `cache_glyphs` preserves the invariant on the cache it returns, on
every path including the errors and the retry. -/
theorem cache_glyphs_inv {c : Cache} (hI : InvFull c) {gs : List PGlyph}
    (hwf : ∀ g ∈ gs, WFBB g) : InvFull (cache_glyphs c gs).2.1 := by
  obtain ⟨hok, hpan, hinv, hcfgp⟩ := cachePass_spec hI hwf
  rcases hcp : cachePass c gs with s | s | s | s | s
  · rw [cache_glyphs, hcp]
    have := hinv
    rw [hcp] at this
    exact this
  · rw [cache_glyphs, hcp]
    have := hinv
    rw [hcp] at this
    exact this
  · rw [cache_glyphs, hcp]
    have := hinv
    rw [hcp] at this
    exact this
  · -- retry: clear and re-run
    have hIs : InvFull s.c := by
      have := hinv
      rw [hcp] at this
      exact this
    have hI2 : InvFull (clearCache s.c) := inv_clearCache hIs.posW hIs.posH
    obtain ⟨hok2, hpan2, hinv2, hcfgp2⟩ := cachePass_spec hI2 hwf
    rcases hcp2 : cachePass (clearCache s.c) gs with s2 | s2 | s2 | s2 | s2 <;>
      (rw [cache_glyphs, hcp]; dsimp only; rw [hcp2]; have := hinv2;
        rw [hcp2] at this; exact this)
  · exact absurd hcp (hpan s)

/-- `rect_for` on an empty-bounding-box request. -/
theorem rect_for_empty (c : Cache) (g : PGlyph)
    (hbb : g.pixel_bounding_box = none) : rect_for c g = .ok none := by
  rw [rect_for, hbb]

/-- Under the invariant, `rect_for` on a resident key succeeds with a
rectangle (no panic is reachable). -/
theorem rect_for_resident {c : Cache} (hI : InvFull c) {g : PGlyph}
    (hshape : WFShape g)
    (hbbs : g.pixel_bounding_box.isSome = true)
    (hkey : (alookupG c.all_glyphs (lossy_info_for c 0 g)).isSome = true) :
    ∃ uv lb, rect_for c g = .ok (some (uv, lb)) := by
  obtain ⟨bb0, hbb⟩ := Option.isSome_iff_exists.mp hbbs
  rcases hlk : alookupG c.all_glyphs (lossy_info_for c 0 g) with _ | ti
  · rw [hlk] at hkey
    cases hkey
  · obtain ⟨rtop, ridx⟩ := ti
    have hokS := hI.idxOk _ (gmem_of_lookup hlk)
    rw [slotOkB_eq_true_iff] at hokS
    obtain ⟨row, gti, hr, hgG, hkk⟩ := hokS
    have hsh := hshape gti.offset g.position
    rw [show g.pbbFun g.position = g.pixel_bounding_box from rfl, hbb] at hsh
    obtain ⟨lbb, hlbb⟩ := Option.isSome_iff_exists.mp
      (show (g.pbbFun gti.offset).isSome = true by rw [hsh]; rfl)
    have hres : ∃ r, rect_for c g = .ok (some r) := by
      rw [rect_for, hbb, hlk]
      dsimp only
      rw [hr]
      dsimp only
      rw [hgG]
      dsimp only
      rw [hlbb]
      dsimp only
      exact ⟨_, rfl⟩
    obtain ⟨r, hres⟩ := hres
    exact ⟨r.1, r.2, hres.trans rfl⟩

/-- `rect_for` answers `GlyphNotCached` exactly for requests with a
bounding box whose lossy key is absent. -/
theorem rect_for_notcached_iff (c : Cache) (g : PGlyph) :
    rect_for c g = .err .GlyphNotCached ↔
      g.pixel_bounding_box.isSome = true ∧
      alookupG c.all_glyphs (lossy_info_for c 0 g) = none := by
  rcases hbb : g.pixel_bounding_box with _ | bb0
  · rw [rect_for, hbb]
    simp
  · rcases hlk : alookupG c.all_glyphs (lossy_info_for c 0 g) with _ | ti
    · rw [rect_for, hbb, hlk]
      simp
    · obtain ⟨rtop, ridx⟩ := ti
      rw [rect_for, hbb, hlk]
      dsimp only
      rcases hr : rowsGet c.rows rtop with _ | row
      · simp [hlk]
      · dsimp only
        rcases hgG : row.glyphs.get? ridx with _ | gti
        · simp [hlk]
        · dsimp only
          rcases hlbb : g.pbbFun gti.offset with _ | lbb
          · simp [hlk]
          · simp [hlk]

/-- The partition phase skips requests without a pixel bounding box. -/
theorem partitionAux_skip (c : Cache) (gs : List PGlyph) :
    ∀ acc : List Nat × List (PGlyph × LossyGlyphInfo), gs.foldl
        (fun acc glyph =>
          match glyph.pixel_bounding_box with
          | none => acc
          | some _ =>
            let glyph_info := lossy_info_for c 0 glyph
            match alookupG c.all_glyphs glyph_info with
            | some rg => (insertIfAbsent acc.1 rg.1, acc.2)
            | none => (acc.1, acc.2 ++ [(glyph, glyph_info)])) acc =
      (gs.filter fun g => g.pixel_bounding_box.isSome).foldl
        (fun acc glyph =>
          match glyph.pixel_bounding_box with
          | none => acc
          | some _ =>
            let glyph_info := lossy_info_for c 0 glyph
            match alookupG c.all_glyphs glyph_info with
            | some rg => (insertIfAbsent acc.1 rg.1, acc.2)
            | none => (acc.1, acc.2 ++ [(glyph, glyph_info)])) acc := by
  induction gs with
  | nil => intro acc; rfl
  | cons g gs ihg =>
    intro acc
    rcases hbb : g.pixel_bounding_box with _ | bb
    · rw [List.filter_cons_of_neg (by simp [hbb])]
      rw [List.foldl_cons, hbb]
      exact ihg acc
    · rw [List.filter_cons_of_pos (by simp [hbb])]
      rw [List.foldl_cons, List.foldl_cons]
      exact ihg _

/-- `cache_glyphs` ignores requests without a pixel bounding box: the call
behaves exactly like the call on the filtered batch. -/
theorem cache_glyphs_ignores_empty (c : Cache) (gs : List PGlyph) :
    cache_glyphs c gs =
      cache_glyphs c (gs.filter fun g => g.pixel_bounding_box.isSome) := by
  have hpart : ∀ c' : Cache, partitionGlyphs c' gs =
      partitionGlyphs c' (gs.filter fun g => g.pixel_bounding_box.isSome) := by
    intro c'
    rw [partitionGlyphs, partitionGlyphs]
    exact partitionAux_skip c' gs ([], [])
  have hpass : ∀ c' : Cache, cachePass c' gs =
      cachePass c' (gs.filter fun g => g.pixel_bounding_box.isSome) := by
    intro c'
    rw [cachePass, cachePass, hpart c']
  rw [cache_glyphs, cache_glyphs, hpass c]
  rcases hcp : cachePass c (gs.filter fun g => g.pixel_bounding_box.isSome)
    with s | s | s | s | s <;> dsimp only
  rw [hpass (clearCache s.c)]

/-- Every reachable cache state satisfies the full invariant. -/
theorem reachable_inv {c : Cache} (h : Reachable c) : InvFull c := by
  induction h with
  | build w h st pt pad al hw hh hst hpt =>
    exact inv_buildCache w h st pt pad al hw hh
  | clear hr ih => exact inv_clearCache ih.posW ih.posH
  | step gs hr hwf ih => exact cache_glyphs_inv ih hwf

/-- C3: in every cache state reachable by construction, `cache_glyphs`
and `clear`, the row spans and the free-ledger bands exactly tile
`[0, atlas_height)` with no gaps and no overlaps (each scanline is
covered exactly once), no two free bands are vertically adjacent (no band
starts where another ends), every glyph-index entry points at an existing
row and a valid slot of it that carries the same key, and every slot of
every row is indexed by exactly its own position (so removing a row
removes precisely the entries that pointed into it). -/
theorem C3_invariants (c : Cache) (h : Reachable c) :
    (∀ y, y < c.height → coverCount c y = 1) ∧
    (∀ p ∈ c.space_end_for_start, alookupN c.space_end_for_start p.2 = none) ∧
    (∀ kv ∈ c.all_glyphs, slotOkB c kv = true) ∧
    (∀ tr ∈ c.rows, rowIndexedB c tr = true) := by
  have hI := reachable_inv h
  exact ⟨hI.tiling, hI.noAdj, hI.idxOk, hI.slotIdx⟩

/-- C3 witness: the reachable 8x8 cache holding one 7x7 glyph satisfies
all four invariant clauses. -/
theorem C3_witness :
    (∀ y, y < cJ.height → coverCount cJ y = 1) ∧
    (∀ p ∈ cJ.space_end_for_start, alookupN cJ.space_end_for_start p.2 = none) ∧
    (∀ kv ∈ cJ.all_glyphs, slotOkB cJ kv = true) ∧
    (∀ tr ∈ cJ.rows, rowIndexedB cJ tr = true) :=
  C3_invariants cJ (Reachable.step [mkGlyph 9 7 7]
    (Reachable.build 8 8 (1/10) (1/10) false false (by decide) (by decide)
      (by norm_num) (by norm_num))
    (fun g hg => by
      rcases List.mem_singleton.mp hg with rfl
      intro p bb h
      cases h
      exact ⟨by decide, by decide, by decide, by decide⟩))

/-- A call that returns `Ok` leaves a cache that satisfies the invariant,
keeps the configuration, and holds every batch key with a bounding box. -/
theorem cache_glyphs_ok_spec {c : Cache} (hI : InvFull c) {gs : List PGlyph}
    (hwf : ∀ g ∈ gs, WFBB g) {cb : CachedBy}
    (hok : (cache_glyphs c gs).1 = .ok cb) :
    InvFull (cache_glyphs c gs).2.1 ∧
    ConfigEq c (cache_glyphs c gs).2.1 ∧
    ∀ g ∈ gs, g.pixel_bounding_box.isSome = true →
      (alookupG (cache_glyphs c gs).2.1.all_glyphs
        (lossy_info_for (cache_glyphs c gs).2.1 0 g)).isSome = true := by
  obtain ⟨hokA, hpanA, hinvA, hcfgA⟩ := cachePass_spec hI hwf
  rcases hcp : cachePass c gs with s | s | s | s | s
  · obtain ⟨hIs, hcfgs, hres⟩ := hokA s (by rw [hcp])
    have hc1 : (cache_glyphs c gs).2.1 = s.c := by rw [cache_glyphs, hcp]
    rw [hc1]
    refine ⟨hIs, hcfgs, ?_⟩
    intro g hg hbb
    rw [lossy_config_eq hcfgs 0 g]
    exact hres g hg hbb
  · rw [cache_glyphs, hcp] at hok
    cases hok
  · rw [cache_glyphs, hcp] at hok
    cases hok
  · -- a retry was signaled: the result comes from the pass after clearing
    have hIs : InvFull s.c := by
      have := hinvA
      rw [hcp] at this
      exact this
    have hcfgs : ConfigEq c s.c := by
      have := hcfgA
      rw [hcp] at this
      exact this
    have hcfgclear : ConfigEq c (clearCache s.c) := hcfgs
    have hIclear : InvFull (clearCache s.c) :=
      inv_clearCache hIs.posW hIs.posH
    obtain ⟨hokB, hpanB, hinvB, hcfgB⟩ := cachePass_spec hIclear hwf
    rcases hcp2 : cachePass (clearCache s.c) gs with s2 | s2 | s2 | s2 | s2
    · obtain ⟨hIs2, hcfgs2, hres2⟩ := hokB s2 (by rw [hcp2])
      have hc1 : (cache_glyphs c gs).2.1 = s2.c := by
        rw [cache_glyphs, hcp]
        dsimp only
        rw [hcp2]
      rw [hc1]
      refine ⟨hIs2, ConfigEq_trans hcfgclear hcfgs2, ?_⟩
      intro g hg hbb
      rw [lossy_config_eq hcfgs2 0 g]
      exact hres2 g hg hbb
    · rw [cache_glyphs, hcp] at hok
      dsimp only at hok
      rw [hcp2] at hok
      cases hok
    · rw [cache_glyphs, hcp] at hok
      dsimp only at hok
      rw [hcp2] at hok
      cases hok
    · rw [cache_glyphs, hcp] at hok
      dsimp only at hok
      rw [hcp2] at hok
      cases hok
    · rw [cache_glyphs, hcp] at hok
      dsimp only at hok
      rw [hcp2] at hok
      cases hok
  · rw [cache_glyphs, hcp] at hok
    cases hok

/-- C1: from any reachable cache, if `cache_glyphs` on a batch of
well-formed requests returns `Ok`, then every request with a non-empty
bounding box has its lossy key resident in the glyph index of the
resulting cache and `rect_for` returns `Ok(Some(..))` for it; the call
ignores requests with an empty bounding box (it behaves exactly like the
call on the filtered batch); `rect_for` returns `Ok(None)` for every
empty-bbox request; and `rect_for` returns `Err(GlyphNotCached)` exactly
when a request has a non-empty bounding box whose lossy key is absent
from the glyph index. -/
theorem C1_post_ok_residency {c : Cache} (hR : Reachable c)
    {gs : List PGlyph} (hwf : ∀ g ∈ gs, WFBB g)
    (hsh : ∀ g ∈ gs, WFShape g) {cb : CachedBy}
    (hok : (cache_glyphs c gs).1 = .ok cb) :
    (∀ g ∈ gs, g.pixel_bounding_box.isSome = true →
      (alookupG (cache_glyphs c gs).2.1.all_glyphs
          (lossy_info_for (cache_glyphs c gs).2.1 0 g)).isSome = true ∧
      ∃ uv lb, rect_for (cache_glyphs c gs).2.1 g = .ok (some (uv, lb))) ∧
    (cache_glyphs c gs =
      cache_glyphs c (gs.filter fun g => g.pixel_bounding_box.isSome)) ∧
    (∀ g : PGlyph, g.pixel_bounding_box = none →
      rect_for (cache_glyphs c gs).2.1 g = .ok none) ∧
    (∀ g : PGlyph,
      rect_for (cache_glyphs c gs).2.1 g = .err .GlyphNotCached ↔
        g.pixel_bounding_box.isSome = true ∧
        alookupG (cache_glyphs c gs).2.1.all_glyphs
          (lossy_info_for (cache_glyphs c gs).2.1 0 g) = none) := by
  obtain ⟨hI1, hcfg1, hres⟩ := cache_glyphs_ok_spec (reachable_inv hR) hwf hok
  refine ⟨?_, cache_glyphs_ignores_empty c gs,
    fun g hbbn => rect_for_empty _ g hbbn,
    fun g => rect_for_notcached_iff _ g⟩
  intro g hg hbb
  exact ⟨hres g hg hbb, rect_for_resident hI1 (hsh g hg) hbb (hres g hg hbb)⟩

/-- C1 witness: caching the 7x7 glyph in the empty 8x8 atlas succeeds, the
glyph's lossy key is then resident and `rect_for` returns a rectangle for
it. -/
theorem C1_witness :
    (cache_glyphs c8x8 [mkGlyph 9 7 7]).1 = .ok .Adding ∧
    (alookupG cJ.all_glyphs (lossy_info_for cJ 0 (mkGlyph 9 7 7))).isSome
      = true ∧
    (∃ uv lb, rect_for cJ (mkGlyph 9 7 7) = .ok (some (uv, lb))) := by
  have h := (@C1_post_ok_residency c8x8
    (Reachable.build 8 8 (1/10) (1/10) false false (by decide) (by decide)
      (by norm_num) (by norm_num))
    [mkGlyph 9 7 7]
    (fun g hg => by
      rcases List.mem_singleton.mp hg with rfl
      intro p bb h
      cases h
      exact ⟨by decide, by decide, by decide, by decide⟩)
    (fun g hg => by
      rcases List.mem_singleton.mp hg with rfl
      intro p q
      rfl)
    CachedBy.Adding rfl).1 (mkGlyph 9 7 7) (List.mem_singleton.mpr rfl) rfl
  exact ⟨rfl, h.1, h.2⟩

/-- An uncached request whose aligned dimensions reach the atlas on either
axis makes the per-glyph step fail with `GlyphTooLarge` at once. -/
theorem perGlyphStep_too_large (fe : Bool) (s : PassSt) (g : PGlyph)
    (gi : LossyGlyphInfo) (hkey : alookupG s.c.all_glyphs gi = none)
    (hbig : s.c.width ≤ (glyphDims s.c g).2.1 ∨
      s.c.height ≤ (glyphDims s.c g).2.2) :
    perGlyphStep fe s g gi = .inr (.tooLarge s) := by
  rw [perGlyphStep, hkey]
  simp only [Option.isSome_none, Bool.false_eq_true, if_false]
  rw [if_pos hbig]

/-- The partition phase on a single uncached request with a bounding box
yields no in-use rows and that request alone. -/
theorem partition_single_uncached {c : Cache} {g : PGlyph} {bb : RectI}
    (hbb : g.pixel_bounding_box = some bb)
    (hkey : alookupG c.all_glyphs (lossy_info_for c 0 g) = none) :
    partitionGlyphs c [g] = ([], [(g, lossy_info_for c 0 g)]) := by
  rw [partitionGlyphs, List.foldl_cons, List.foldl_nil, hbb]
  dsimp only
  rw [hkey]
  rfl

/-- A single-request call on an uncached, oversized glyph fails the pass
with `GlyphTooLarge` without touching anything. -/
theorem cachePass_single_too_large {c : Cache} {g : PGlyph} {bb : RectI}
    (hbb : g.pixel_bounding_box = some bb)
    (hkey : alookupG c.all_glyphs (lossy_info_for c 0 g) = none)
    (hbig : c.width ≤ (glyphDims c g).2.1 ∨
      c.height ≤ (glyphDims c g).2.2) :
    cachePass c [g] =
      .tooLarge ⟨{ c with rows := c.rows }, [], [], []⟩ := by
  rw [cachePass]
  rw [partition_single_uncached hbb hkey]
  show perGlyph c.all_glyphs.isEmpty
      ⟨{ c with rows := c.rows }, [], [], []⟩
      [(g, lossy_info_for c 0 g)] = _
  rw [perGlyph]
  rw [perGlyphStep_too_large c.all_glyphs.isEmpty
    ⟨{ c with rows := c.rows }, [], [], []⟩ g (lossy_info_for c 0 g)
    hkey hbig]

/-- C6 (amended): for an uncached request with a bounding box, the
unaligned dimensions are the bounding-box width and height plus 2 per
axis exactly when `pad_glyphs` is set; when `align_4x4` is set each
aligned dimension is the next multiple of 4 at or above the unaligned one
and otherwise equals it; and a single-request call whose aligned
dimensions reach the atlas on either axis fails with `GlyphTooLarge`.
(The batch-wide clause of the claim is refuted by `C6_counterexample`: an
oversized request does not force `GlyphTooLarge` for the whole call, an
earlier request of the batch can fail with `NoRoomForWholeQueue` first.) -/
theorem C6_dims_and_single_too_large {c : Cache} {g : PGlyph} {bb : RectI}
    (hbb : g.pixel_bounding_box = some bb) (hwf : WFBB g) :
    ((glyphDims c g).1.1 =
      bb.width.toNat + (if c.pad_glyphs then 2 else 0)) ∧
    ((glyphDims c g).1.2 =
      bb.height.toNat + (if c.pad_glyphs then 2 else 0)) ∧
    (if c.align_4x4 then
        4 ∣ (glyphDims c g).2.1 ∧
        (glyphDims c g).1.1 ≤ (glyphDims c g).2.1 ∧
        (glyphDims c g).2.1 < (glyphDims c g).1.1 + 4
      else (glyphDims c g).2.1 = (glyphDims c g).1.1) ∧
    (if c.align_4x4 then
        4 ∣ (glyphDims c g).2.2 ∧
        (glyphDims c g).1.2 ≤ (glyphDims c g).2.2 ∧
        (glyphDims c g).2.2 < (glyphDims c g).1.2 + 4
      else (glyphDims c g).2.2 = (glyphDims c g).1.2) ∧
    (alookupG c.all_glyphs (lossy_info_for c 0 g) = none →
      (c.width ≤ (glyphDims c g).2.1 ∨ c.height ≤ (glyphDims c g).2.2) →
      (cache_glyphs c [g]).1 = .err .GlyphTooLarge) := by
  obtain ⟨hw0, hw1, hh0, hh1⟩ := hwf g.position bb hbb
  have hbbOf : bbOf g = bb := by rw [bbOf, hbb]; rfl
  obtain ⟨hweq, hwpos, hwlt⟩ := intAsU32_of_bounds hw0 hw1
  obtain ⟨hheq, hhpos, hhlt⟩ := intAsU32_of_bounds hh0 hh1
  have huw : (glyphDims c g).1.1 =
      if c.pad_glyphs then (intAsU32 (bbOf g).width + 2) % 4294967296
      else intAsU32 (bbOf g).width := rfl
  have huh : (glyphDims c g).1.2 =
      if c.pad_glyphs then (intAsU32 (bbOf g).height + 2) % 4294967296
      else intAsU32 (bbOf g).height := rfl
  have haw : (glyphDims c g).2.1 =
      if c.align_4x4 then ((glyphDims c g).1.1 + 3) % 4294967296 / 4 * 4
      else (glyphDims c g).1.1 := rfl
  have hah : (glyphDims c g).2.2 =
      if c.align_4x4 then ((glyphDims c g).1.2 + 3) % 4294967296 / 4 * 4
      else (glyphDims c g).1.2 := rfl
  have hu : ∀ w : Int, 0 < w → w < 2147483648 →
      (if c.pad_glyphs then (intAsU32 w + 2) % 4294967296
        else intAsU32 w) = w.toNat + (if c.pad_glyphs then 2 else 0) := by
    intro w h0 h1
    obtain ⟨he, hp, hl⟩ := intAsU32_of_bounds h0 h1
    split
    · rw [Nat.mod_eq_of_lt (by omega), he]
    · rw [he, Nat.add_zero]
  have huw2 : (glyphDims c g).1.1 =
      bb.width.toNat + (if c.pad_glyphs then 2 else 0) := by
    rw [huw, hbbOf]
    exact hu bb.width hw0 hw1
  have huh2 : (glyphDims c g).1.2 =
      bb.height.toNat + (if c.pad_glyphs then 2 else 0) := by
    rw [huh, hbbOf]
    exact hu bb.height hh0 hh1
  have hubW : (glyphDims c g).1.1 ≤ 2147483649 := by
    rw [huw2]
    split <;> omega
  have hubH : (glyphDims c g).1.2 ≤ 2147483649 := by
    rw [huh2]
    split <;> omega
  have halign : ∀ u : Nat, u ≤ 2147483649 →
      4 ∣ (u + 3) % 4294967296 / 4 * 4 ∧
      u ≤ (u + 3) % 4294967296 / 4 * 4 ∧
      (u + 3) % 4294967296 / 4 * 4 < u + 4 := by
    intro u hub
    rw [Nat.mod_eq_of_lt (by omega)]
    exact ⟨⟨(u + 3) / 4, Nat.mul_comm _ _⟩, by omega, by omega⟩
  refine ⟨huw2, huh2, ?_, ?_, ?_⟩
  · rcases ha : c.align_4x4 with _ | _
    · rw [if_neg Bool.false_ne_true, haw,
        if_neg (show ¬(c.align_4x4 = true) by rw [ha]; exact Bool.false_ne_true)]
    · rw [if_pos rfl, haw, if_pos (show c.align_4x4 = true from ha)]
      exact halign _ hubW
  · rcases ha : c.align_4x4 with _ | _
    · rw [if_neg Bool.false_ne_true, hah,
        if_neg (show ¬(c.align_4x4 = true) by rw [ha]; exact Bool.false_ne_true)]
    · rw [if_pos rfl, hah, if_pos (show c.align_4x4 = true from ha)]
      exact halign _ hubH
  · intro hkey hbig
    rw [cache_glyphs, cachePass_single_too_large hbb hkey hbig]

/-- C6 witness: an uncached 100x1 glyph in the empty 8x8 atlas has
unaligned width 100 and the single-request call fails with
`GlyphTooLarge`. -/
theorem C6_witness :
    (glyphDims c8x8 (mkGlyph 3 100 1)).1.1 = 100 ∧
    (cache_glyphs c8x8 [mkGlyph 3 100 1]).1 = .err .GlyphTooLarge := by
  have h := @C6_dims_and_single_too_large c8x8 (mkGlyph 3 100 1)
    ⟨0, 0, 100, 1⟩ rfl
    (fun p bb hp => by
      cases hp
      exact ⟨by decide, by decide, by decide, by decide⟩)
  exact ⟨by decide, h.2.2.2.2 rfl (Or.inl (by decide))⟩

/-- If every batch key with a bounding box is already resident, the
partition phase leaves the uncached list untouched. -/
theorem partition_all_cached (c : Cache) :
    ∀ gs : List PGlyph,
      (∀ g ∈ gs, g.pixel_bounding_box.isSome = true →
        (alookupG c.all_glyphs (lossy_info_for c 0 g)).isSome = true) →
      ∀ acc : List Nat × List (PGlyph × LossyGlyphInfo),
        (gs.foldl
          (fun acc glyph =>
            match glyph.pixel_bounding_box with
            | none => acc
            | some _ =>
              let glyph_info := lossy_info_for c 0 glyph
              match alookupG c.all_glyphs glyph_info with
              | some rg => (insertIfAbsent acc.1 rg.1, acc.2)
              | none => (acc.1, acc.2 ++ [(glyph, glyph_info)])) acc).2 =
        acc.2 := by
  intro gs
  induction gs with
  | nil => intro _ acc; rfl
  | cons g gs ihg =>
    intro hres acc
    rcases hbb : g.pixel_bounding_box with _ | bb
    · rw [List.foldl_cons, hbb]
      exact ihg (fun x hx hbx => hres x (List.mem_cons_of_mem _ hx) hbx) acc
    · have hsome := hres g (List.mem_cons_self _ _) (by rw [hbb]; rfl)
      obtain ⟨rg, hrg⟩ := Option.isSome_iff_exists.mp hsome
      rw [List.foldl_cons, hbb]
      dsimp only
      rw [hrg]
      exact ihg (fun x hx hbx => hres x (List.mem_cons_of_mem _ hx) hbx) _

/-- With every batch key resident, the whole pass reduces to the LRU
touches of the in-use rows and succeeds with nothing to upload. -/
theorem cachePass_all_cached {c : Cache} {gs : List PGlyph}
    (hres : ∀ g ∈ gs, g.pixel_bounding_box.isSome = true →
      (alookupG c.all_glyphs (lossy_info_for c 0 g)).isSome = true) :
    cachePass c gs = .ok
      ⟨{ c with rows := (partitionGlyphs c gs).1.foldl touchRow c.rows },
        (partitionGlyphs c gs).1, [],
        (partitionGlyphs c gs).1.map .touched⟩ := by
  have h2 : (partitionGlyphs c gs).2 = [] :=
    partition_all_cached c gs hres ([], [])
  rw [cachePass, h2]
  rfl

/-- Reordering the row table by LRU touches does not change any `rect_for`
answer. -/
theorem rect_for_foldTouch (c : Cache) (S : List Nat) (g : PGlyph) :
    rect_for { c with rows := S.foldl touchRow c.rows } g =
      rect_for c g := by
  rw [rect_for, rect_for]
  have hl : lossy_info_for { c with rows := S.foldl touchRow c.rows } 0 g
      = lossy_info_for c 0 g := rfl
  rcases hbb : g.pixel_bounding_box with _ | bb
  · rfl
  · dsimp only
    rw [hl]
    rcases hlk : alookupG c.all_glyphs (lossy_info_for c 0 g) with _ | ti
    · rfl
    · obtain ⟨rtop, ridx⟩ := ti
      dsimp only
      rw [rowsGet_foldTouch]

/-- C7: immediately repeating a successful call with the identical request
set returns `Ok(Adding)`, performs no uploads, and leaves every `rect_for`
answer bit-identical to its value after the first call. -/
theorem C7_idempotent {c : Cache} (hR : Reachable c) {gs : List PGlyph}
    (hwf : ∀ g ∈ gs, WFBB g) {cb : CachedBy}
    (hok : (cache_glyphs c gs).1 = .ok cb) :
    (cache_glyphs (cache_glyphs c gs).2.1 gs).1 = .ok .Adding ∧
    (cache_glyphs (cache_glyphs c gs).2.1 gs).2.2 = [] ∧
    ∀ g : PGlyph,
      rect_for (cache_glyphs (cache_glyphs c gs).2.1 gs).2.1 g =
        rect_for (cache_glyphs c gs).2.1 g := by
  obtain ⟨hI1, hcfg1, hres⟩ := cache_glyphs_ok_spec (reachable_inv hR) hwf hok
  have hpass := cachePass_all_cached hres
  refine ⟨?_, ?_, ?_⟩
  · rw [cache_glyphs, hpass]
  · rw [cache_glyphs, hpass]
  · intro g
    rw [cache_glyphs, hpass]
    exact rect_for_foldTouch (cache_glyphs c gs).2.1
      (partitionGlyphs (cache_glyphs c gs).2.1 gs).1 g

/-- C7 witness: after caching the 7x7 glyph in the 8x8 atlas, repeating
the identical single-request call returns `Ok(Adding)`, uploads nothing
and keeps the glyph's `rect_for` answer. -/
theorem C7_witness :
    (cache_glyphs cJ [mkGlyph 9 7 7]).1 = .ok .Adding ∧
    (cache_glyphs cJ [mkGlyph 9 7 7]).2.2 = [] ∧
    rect_for (cache_glyphs cJ [mkGlyph 9 7 7]).2.1 (mkGlyph 9 7 7) =
      rect_for cJ (mkGlyph 9 7 7) := by
  have h := @C7_idempotent c8x8
    (Reachable.build 8 8 (1/10) (1/10) false false (by decide) (by decide)
      (by norm_num) (by norm_num))
    [mkGlyph 9 7 7]
    (fun g hg => by
      rcases List.mem_singleton.mp hg with rfl
      intro p bb hp
      cases hp
      exact ⟨by decide, by decide, by decide, by decide⟩)
    CachedBy.Adding rfl
  exact ⟨h.1, h.2.1, h.2.2 (mkGlyph 9 7 7)⟩

/-- Requests with equal lossy keys that both resolve to a rectangle read
their texture coordinates from the same slot: the atlas rectangles agree
(the screen rectangles may differ with the positions). -/
theorem rect_for_uv_eq {c : Cache} {g1 g2 : PGlyph}
    (hk : lossy_info_for c 0 g2 = lossy_info_for c 0 g1)
    {uv1 : RectQ} {lb1 : RectI} {uv2 : RectQ} {lb2 : RectI}
    (h1 : rect_for c g1 = .ok (some (uv1, lb1)))
    (h2 : rect_for c g2 = .ok (some (uv2, lb2))) : uv1 = uv2 := by
  rw [rect_for] at h1 h2
  rcases hbb1 : g1.pixel_bounding_box with _ | bb1
  · rw [hbb1] at h1
    dsimp only at h1
    injection h1 with hx
    cases hx
  · rw [hbb1] at h1
    dsimp only at h1
    rcases hbb2 : g2.pixel_bounding_box with _ | bb2
    · rw [hbb2] at h2
      dsimp only at h2
      injection h2 with hx
      cases hx
    · rw [hbb2] at h2
      dsimp only at h2
      rw [hk] at h2
      rcases hlk : alookupG c.all_glyphs (lossy_info_for c 0 g1) with _ | ti
      · rw [hlk] at h1
        cases h1
      · obtain ⟨t, i⟩ := ti
        rw [hlk] at h1 h2
        dsimp only at h1 h2
        rcases hr : rowsGet c.rows t with _ | row
        · rw [hr] at h1
          cases h1
        · rw [hr] at h1 h2
          dsimp only at h1 h2
          rcases hgt : row.glyphs.get? i with _ | gti
          · rw [hgt] at h1
            cases h1
          · rw [hgt] at h1 h2
            dsimp only at h1 h2
            rcases hl1 : g1.pbbFun gti.offset with _ | l1
            · rw [hl1] at h1
              cases h1
            · rw [hl1] at h1
              dsimp only at h1
              rcases hl2 : g2.pbbFun gti.offset with _ | l2
              · rw [hl2] at h2
                cases h2
              · rw [hl2] at h2
                dsimp only at h2
                injection h1 with h1x
                injection h2 with h2x
                injection h1x with h1y
                injection h2x with h2y
                exact (congrArg Prod.fst h1y).symm.trans (congrArg Prod.fst h2y)

/-- Under one shared key, once the key is resident every remaining loop
iteration is a no-op. -/
theorem perGlyph_all_present (fe : Bool) (s : PassSt) (k : LossyGlyphInfo) :
    ∀ l : List (PGlyph × LossyGlyphInfo), (∀ p ∈ l, p.2 = k) →
      (alookupG s.c.all_glyphs k).isSome = true →
      perGlyph fe s l = .ok s := by
  intro l
  induction l with
  | nil => intro _ _; rfl
  | cons p l ih =>
    intro hall hk
    obtain ⟨g, gi⟩ := p
    have hgik : gi = k := hall (g, gi) (List.mem_cons_self _ _)
    subst hgik
    rw [perGlyph, perGlyphStep_of_present fe s g gi hk]
    exact ih (fun q hq => hall q (List.mem_cons_of_mem _ hq)) hk

/-- A successful `'per_glyph` run over requests that all share one lossy
key uploads at most one texture: the first uncached iteration uploads, the
rest find the key resident. -/
theorem perGlyph_same_key (fe : Bool) (k : LossyGlyphInfo) :
    ∀ (l : List (PGlyph × LossyGlyphInfo)) (s : PassSt), InvFull s.c →
      (∀ p ∈ l, p.2 = k ∧ WFBB p.1 ∧
        p.1.pixel_bounding_box.isSome = true) →
      ∀ s1, perGlyph fe s l = .ok s1 →
        s1.draw_and_upload.length ≤ s.draw_and_upload.length + 1 := by
  intro l
  induction l with
  | nil =>
    intro s hI hall s1 h
    cases h
    omega
  | cons p l ih =>
    intro s hI hall s1 h
    obtain ⟨g, gi⟩ := p
    obtain ⟨hgik, hwfg, hbbs⟩ := hall (g, gi) (List.mem_cons_self _ _)
    subst hgik
    obtain ⟨bb, hbb⟩ := Option.isSome_iff_exists.mp hbbs
    obtain ⟨hinl, hinr⟩ := perGlyphStep_spec fe hI hwfg hbb gi
    rcases hstep : perGlyphStep fe s g gi with s2 | out
    · obtain ⟨hI2, hcfg2, hlive, htrans, hkres, hdraw⟩ := hinl s2 hstep
      rw [perGlyph, hstep] at h
      dsimp only at h
      have hrest : perGlyph fe s2 l = .ok s2 :=
        perGlyph_all_present fe s2 gi l
          (fun q hq => (hall q (List.mem_cons_of_mem _ hq)).1) hkres
      rw [hrest] at h
      cases h
      rcases hdraw with heq | ⟨u, happ⟩
      · rw [heq]
        omega
      · rw [happ, List.length_append]
        simp only [List.length_cons, List.length_nil]
        omega
    · rw [perGlyph, hstep] at h
      dsimp only at h
      obtain ⟨-, -, hnotok, -⟩ := hinr out hstep
      exact absurd h (hnotok s1)

/-- A successful pass over a two-request batch with equal lossy keys
queues at most one upload. -/
theorem cachePass_two_same_key {c : Cache} (hI : InvFull c)
    {g1 g2 : PGlyph} (hwf1 : WFBB g1) (hwf2 : WFBB g2)
    (hk : lossy_info_for c 0 g2 = lossy_info_for c 0 g1) :
    ∀ s1, cachePass c [g1, g2] = .ok s1 →
      s1.draw_and_upload.length ≤ 1 := by
  intro s1 h
  rw [cachePass] at h
  have hall : ∀ p ∈ sortByHeight (partitionGlyphs c [g1, g2]).2,
      p.2 = lossy_info_for c 0 g1 ∧ WFBB p.1 ∧
      p.1.pixel_bounding_box.isSome = true := by
    intro p hp
    have hp2 : p ∈ (partitionGlyphs c [g1, g2]).2 := mem_sortByHeight.mp hp
    obtain ⟨pg, pk⟩ := p
    rcases partitionAux_mem c [g1, g2] ([], []) (pg, pk) hp2 with
      hA | ⟨hmem, hbbs, hkey, -⟩
    · cases hA
    · rcases List.mem_cons.mp hmem with rfl | hmem2
      · exact ⟨hkey, hwf1, hbbs⟩
      · rcases List.mem_singleton.mp hmem2 with rfl
        exact ⟨hkey.trans hk, hwf2, hbbs⟩
  exact perGlyph_same_key c.all_glyphs.isEmpty (lossy_info_for c 0 g1)
    (sortByHeight (partitionGlyphs c [g1, g2]).2)
    ⟨{ c with rows := (partitionGlyphs c [g1, g2]).1.foldl touchRow c.rows },
      (partitionGlyphs c [g1, g2]).1, [],
      (partitionGlyphs c [g1, g2]).1.map .touched⟩
    (inv_foldTouch _ hI) hall s1 h

/-- A two-request batch with equal lossy keys makes `cache_glyphs` upload
at most once, across both the incremental pass and a from-scratch retry. -/
theorem cache_glyphs_two_same_key {c : Cache} (hI : InvFull c)
    {g1 g2 : PGlyph} (hwf1 : WFBB g1) (hwf2 : WFBB g2)
    (hk : lossy_info_for c 0 g2 = lossy_info_for c 0 g1) :
    (cache_glyphs c [g1, g2]).2.2.length ≤ 1 := by
  have hwfL : ∀ g ∈ [g1, g2], WFBB g := by
    intro g hg
    rcases List.mem_cons.mp hg with rfl | hg2
    · exact hwf1
    · rcases List.mem_singleton.mp hg2 with rfl
      exact hwf2
  obtain ⟨-, -, hinvA, hcfgA⟩ := cachePass_spec hI hwfL
  rcases hcp : cachePass c [g1, g2] with s | s | s | s | s
  · rw [cache_glyphs, hcp]
    exact cachePass_two_same_key hI hwf1 hwf2 hk s hcp
  · rw [cache_glyphs, hcp]
    exact Nat.zero_le 1
  · rw [cache_glyphs, hcp]
    exact Nat.zero_le 1
  · have hIs : InvFull s.c := by
      have := hinvA
      rw [hcp] at this
      exact this
    have hcfgs : ConfigEq c s.c := by
      have := hcfgA
      rw [hcp] at this
      exact this
    have hcfgclear : ConfigEq c (clearCache s.c) := hcfgs
    have hIclear : InvFull (clearCache s.c) :=
      inv_clearCache hIs.posW hIs.posH
    have hk2 : lossy_info_for (clearCache s.c) 0 g2 =
        lossy_info_for (clearCache s.c) 0 g1 := by
      rw [lossy_config_eq hcfgclear 0 g2, lossy_config_eq hcfgclear 0 g1]
      exact hk
    rcases hcp2 : cachePass (clearCache s.c) [g1, g2] with
      s2 | s2 | s2 | s2 | s2
    · rw [cache_glyphs, hcp]
      dsimp only
      rw [hcp2]
      exact cachePass_two_same_key hIclear hwf1 hwf2 hk2 s2 hcp2
    · rw [cache_glyphs, hcp]
      dsimp only
      rw [hcp2]
      exact Nat.zero_le 1
    · rw [cache_glyphs, hcp]
      dsimp only
      rw [hcp2]
      exact Nat.zero_le 1
    · rw [cache_glyphs, hcp]
      dsimp only
      rw [hcp2]
      exact Nat.zero_le 1
    · rw [cache_glyphs, hcp]
      dsimp only
      rw [hcp2]
      exact Nat.zero_le 1
  · rw [cache_glyphs, hcp]
    exact Nat.zero_le 1

/-- C8 (amended): two requests whose lossy keys are equal map to the same
glyph-index entry, read the same atlas rectangle whenever both `rect_for`
calls return one, and a two-request batch of them uploads at most once.
(Equal keys are what the quantisation actually guarantees; scales within
one tolerance can still straddle a bucket boundary, `C8_counterexample`.) -/
theorem C8_same_key_dedup {c : Cache} (hR : Reachable c) {g1 g2 : PGlyph}
    (hwf1 : WFBB g1) (hwf2 : WFBB g2)
    (hk : lossy_info_for c 0 g2 = lossy_info_for c 0 g1) :
    alookupG c.all_glyphs (lossy_info_for c 0 g2) =
      alookupG c.all_glyphs (lossy_info_for c 0 g1) ∧
    (∀ uv1 lb1 uv2 lb2, rect_for c g1 = .ok (some (uv1, lb1)) →
      rect_for c g2 = .ok (some (uv2, lb2)) → uv1 = uv2) ∧
    (cache_glyphs c [g1, g2]).2.2.length ≤ 1 :=
  ⟨by rw [hk], fun uv1 lb1 uv2 lb2 h1 h2 => rect_for_uv_eq hk h1 h2,
    cache_glyphs_two_same_key (reachable_inv hR) hwf1 hwf2 hk⟩

/-- C8 witness: with scale tolerance 1, scales 5/4 and 11/10 quantise to
the same key, and the two-request batch uploads at most once. -/
theorem C8_witness :
    lossy_info_for cTol1 0 (gScale (11/10)) =
      lossy_info_for cTol1 0 (gScale (5/4)) ∧
    (cache_glyphs cTol1 [gScale (5/4), gScale (11/10)]).2.2.length ≤ 1 := by
  have hk : lossy_info_for cTol1 0 (gScale (11/10)) =
      lossy_info_for cTol1 0 (gScale (5/4)) := by
    rw [lossy_cTol1 (11/10), lossy_cTol1 (5/4)]
    norm_num
  have h := @C8_same_key_dedup cTol1
    (Reachable.build 256 256 1 1 true false (by decide) (by decide)
      (by norm_num) (by norm_num))
    (gScale (5/4)) (gScale (11/10))
    (fun p bb hp => by
      cases hp
      exact ⟨by decide, by decide, by decide, by decide⟩)
    (fun p bb hp => by
      cases hp
      exact ⟨by decide, by decide, by decide, by decide⟩)
    hk
  exact ⟨hk, h.2.2⟩

end Sprowl